import Mathlib

/-!
Drawbridge project list: grouping, flattening and index lookup.

A shallow embedding of `pkg/project/project_list.go`.  Go values of type
`interface{}` are a tagged union, Go maps are association lists with unique
keys (the order of the list stands for the unspecified iteration order of the
map), a runtime panic is the error side of `Except`, and the methods of
`ProjectList` pass the receiver explicitly and return its new state.
-/

set_option autoImplicit false

namespace Drawbridge

/-! ## Go values -/

/-- Dynamic Go values (`interface{}`) that occur in answer maps and in the gabs
container.  `other` is a value of any further scalar type (for instance a
`float64`), kept with the text that `%v` prints for it; `maps` is a slice of
static type `[]map[string]interface{}`, which is a different dynamic type from
`[]interface{}` (`array`). -/
inductive Value where
  | null
  | str (s : String)
  | int (n : Int)
  | bool (b : Bool)
  | other (text : String)
  | object (fields : List (String × Value))
  | array (items : List Value)
  | maps (items : List (List (String × Value)))
deriving Repr

/-- A Go `map[string]interface{}`. -/
abbrev GoMap := List (String × Value)

/-- The answers of one project: `map[string]interface{}`. -/
abbrev Answers := GoMap

/-- Comparison `v != nil` negated: is the interface value nil. -/
def Value.isNil : Value → Bool
  | .null => true
  | _ => false

/-- Two-valued map read `v, ok := m[k]`. -/
def mapLookup : GoMap → String → Option Value
  | [], _ => none
  | (k', v) :: rest, k => if k' = k then some v else mapLookup rest k

/-- Map read `m[k]`; a missing key reads as nil. -/
def mapGet (m : GoMap) (k : String) : Value :=
  (mapLookup m k).getD .null

/-- Map write `m[k] = v`. -/
def mapSet : GoMap → String → Value → GoMap
  | [], k, v => [(k, v)]
  | (k', v') :: rest, k, v =>
    if k' = k then (k, v) :: rest else (k', v') :: mapSet rest k v

/-- Go string comparison `a < b`.  Go compares the bytes of the two strings in
order; for text in UTF-8 that is the order of the code points compared here. -/
def strLess (a b : String) : Bool :=
  decide (a.data < b.data)

/-- Insertion of one string into an ascending list. -/
def insertString (a : String) : List String → List String
  | [] => [a]
  | b :: rest => if strLess b a then b :: insertString a rest else a :: b :: rest

/-- Library `sort.Strings`: the strings in ascending order. -/
def sortStrings : List String → List String
  | [] => []
  | a :: rest => insertString a (sortStrings rest)

/-- Insertion of a key/text pair into a list ascending by key. -/
def insertPair (a : String × String) : List (String × String) → List (String × String)
  | [] => [a]
  | b :: rest => if strLess b.1 a.1 then b :: insertPair a rest else a :: b :: rest

/-- Key/text pairs in ascending key order. -/
def sortPairs : List (String × String) → List (String × String)
  | [] => []
  | a :: rest => insertPair a (sortPairs rest)

mutual
/-- The text of `fmt.Sprintf("%v", value)`; maps print their keys in ascending
order. -/
def Value.format : Value → String
  | .null => "<nil>"
  | .str s => s
  | .int n => toString n
  | .bool b => toString b
  | .other text => text
  | .object fields =>
    "map[" ++ " ".intercalate ((sortPairs (formatFields fields)).map
      (fun kv => kv.1 ++ ":" ++ kv.2)) ++ "]"
  | .array items => "[" ++ " ".intercalate (formatItems items) ++ "]"
  | .maps items => "[" ++ " ".intercalate (formatMaps items) ++ "]"
/-- The entries of a map with their values printed. -/
def formatFields : List (String × Value) → List (String × String)
  | [] => []
  | (k, v) :: rest => (k, Value.format v) :: formatFields rest
/-- The printed elements of a slice. -/
def formatItems : List Value → List String
  | [] => []
  | v :: rest => Value.format v :: formatItems rest
/-- The printed elements of a slice of maps. -/
def formatMaps : List (List (String × Value)) → List String
  | [] => []
  | m :: rest =>
    ("map[" ++ " ".intercalate ((sortPairs (formatFields m)).map
      (fun kv => kv.1 ++ ":" ++ kv.2)) ++ "]") :: formatMaps rest
end

/-- The text of `%T`: the dynamic type of a value. -/
def Value.typeName : Value → String
  | .null => "<nil>"
  | .str _ => "string"
  | .int _ => "int"
  | .bool _ => "bool"
  | .other _ => "float64"
  | .object _ => "map[string]interface \x7b\x7d"
  | .array _ => "[]interface \x7b\x7d"
  | .maps _ => "[]map[string]interface \x7b\x7d"

/-- A runtime panic of the Go program, or the exhaustion of the recursion
budget of the model. -/
inductive Failure where
  | panic (reason : String)
  | fuel
deriving DecidableEq, Repr

/-! ## The gabs container (library `github.com/Jeffail/gabs`) -/

/-- Constructor `gabs.New()`: a container holding an empty map. -/
def gabs.New : Value := .object []

mutual
/-- The data of `g.Search(hierarchy...)`: follow the keys through nested maps;
on a slice, search every element and collect the hits; nil when nothing is
found. -/
def gabs.Search : Value → List String → Value
  | g, [] => g
  | .object mmap, k :: rest => gabs.searchMap mmap k rest
  | .array marray, k :: rest =>
    match gabs.searchArray marray (k :: rest) with
    | [] => .null
    | tmpArray => .array tmpArray
  | _, _ :: _ => .null
/-- Search below `mmap[k]`. -/
def gabs.searchMap : List (String × Value) → String → List String → Value
  | [], _, _ => .null
  | (k', v) :: tl, k, rest => if k' = k then gabs.Search v rest else gabs.searchMap tl k rest
/-- Non-nil results of the search in every element of a slice. -/
def gabs.searchArray : List Value → List String → List Value
  | [], _ => []
  | v :: tl, hierarchy =>
    match gabs.Search v hierarchy with
    | .null => gabs.searchArray tl hierarchy
    | res => res :: gabs.searchArray tl hierarchy
end

/-- Method `g.Exists(hierarchy...)`. -/
def gabs.Exists (g : Value) (hierarchy : List String) : Bool :=
  !(gabs.Search g hierarchy).isNil

/-- Method `g.Set(value, path...)`, returning the container afterwards.  Missing
or nil parts of the path are created as maps.  When the path runs into a value
that is not a map, gabs reports `ErrPathCollision` and has changed nothing; the
callers in this program discard that error. -/
def gabs.Set : Value → Value → List String → Value
  | _, value, [] => value
  | g, value, k :: rest =>
    match (if g.isNil then Value.object [] else g) with
    | .object mmap => .object (mapSet mmap k (gabs.Set (mapGet mmap k) value rest))
    | _ => g

/-- Method `g.Array(path...)`: an empty `[]interface{}` at the path. -/
def gabs.Array (g : Value) (path : List String) : Value :=
  gabs.Set g (.array []) path

/-- Method `g.ArrayAppend(value, path...)`: append to the slice at the path; a
target that is not a slice is first wrapped into one. -/
def gabs.ArrayAppend (g : Value) (value : Value) (path : List String) : Value :=
  match gabs.Search g path with
  | .array array => gabs.Set g (.array (array ++ [value])) path
  | data => gabs.Set g (.array [data, value]) path

/-- Method `g.ChildrenMap()`; for a container that holds no map the result map
is nil (the error is discarded by the caller). -/
def gabs.ChildrenMap : Value → List (String × Value)
  | .object mmap => mmap
  | _ => []

/-! ## The printed tree (library `github.com/xlab/treeprint`) and colors -/

/-- A node of a `treeprint` tree with its meta text, value text and children. -/
inductive treeprint.Node where
  | mk (Meta : Option String) (Value : Option String) (Nodes : List treeprint.Node)
deriving Repr

/-- Constructor `treeprint.New()`. -/
def treeprint.New : treeprint.Node := .mk none none []

/-- Children of a tree node. -/
def treeprint.Node.Nodes : treeprint.Node → List treeprint.Node
  | .mk _ _ ns => ns

/-- Method `wrap` of a color of library `github.com/fatih/color`: the text
unchanged when colour output is off, else the text between the escape code of
the color and the reset code.  The first argument is the package variable
`color.NoColor` of the library, which is true when the environment variable
`TERM` is `dumb` or standard output is not a terminal. -/
def color.wrap (NoColor : Bool) (code : String) (s : String) : String :=
  if NoColor then s else "\x1b[" ++ code ++ "m" ++ s ++ "\x1b[0m"

/-- Function `color.RedString`. -/
def color.RedString (NoColor : Bool) (s : String) : String := color.wrap NoColor "31" s
/-- Function `color.GreenString`. -/
def color.GreenString (NoColor : Bool) (s : String) : String := color.wrap NoColor "32" s
/-- Function `color.YellowString`. -/
def color.YellowString (NoColor : Bool) (s : String) : String := color.wrap NoColor "33" s
/-- Function `color.BlueString`. -/
def color.BlueString (NoColor : Bool) (s : String) : String := color.wrap NoColor "34" s
/-- Function `color.CyanString`. -/
def color.CyanString (NoColor : Bool) (s : String) : String := color.wrap NoColor "36" s
/-- What `color.HiRed` writes for a format without a newline at its end: the
text and a newline, between the escape code of the color and the reset code
unless colour output is off. -/
def color.HiRed (NoColor : Bool) (s : String) : String :=
  if NoColor then s ++ "\n" else "\x1b[91m" ++ s ++ "\n" ++ "\x1b[0m"

/-! ## Helpers of package `utils` and the error values of package `errors` -/

/-- Modelled from the spec: package `drawbridge/pkg/errors` is not among the
sources; ListEmpty and IndexInvalid are its two error kinds used by the project
list, each carrying its message. -/
inductive Error where
  | ProjectListEmptyError (msg : String)
  | ProjectListIndexInvalidError (msg : String)
deriving DecidableEq, Repr

/-- Modelled from the spec: `utils.MapKeys` is not among the sources; it lists
the keys of a record in the record's own stable key order. -/
def utils.MapKeys (m : GoMap) : List String :=
  m.map Prod.fst

/-- Modelled from the spec: `utils.SliceIncludes` is not among the sources;
membership of a string in a slice. -/
def utils.SliceIncludes (slice : List String) (needle : String) : Bool :=
  decide (needle ∈ slice)

/-- Digits of a base-10 natural number, read left to right. -/
def utils.parseDigits : List Char → Nat → Option Nat
  | [], acc => some acc
  | c :: rest, acc =>
    if c.isDigit then utils.parseDigits rest (acc * 10 + (c.toNat - 48)) else none

/-- Base-10 integer with an optional sign. -/
def utils.parseInt : List Char → Option Int
  | [] => none
  | '-' :: d :: rest => (utils.parseDigits (d :: rest) 0).map (fun n => - (n : Int))
  | '+' :: d :: rest => (utils.parseDigits (d :: rest) 0).map (fun n => (n : Int))
  | cs => if cs = ['-'] ∨ cs = ['+'] then none else (utils.parseDigits cs 0).map (fun n => (n : Int))

/-- Library `unicode.IsSpace`: the white space of Unicode. -/
def unicode.IsSpace (c : Char) : Bool :=
  c.toNat ∈ [0x09, 0x0A, 0x0B, 0x0C, 0x0D, 0x20, 0x85, 0xA0, 0x1680, 0x2028, 0x2029, 0x202F,
    0x205F, 0x3000] || (0x2000 ≤ c.toNat && c.toNat ≤ 0x200A)

/-- Text without the white space at its two ends (`strings.TrimSpace` in
`utils.StdinQuery`). -/
def utils.trimSpace (s : String) : String :=
  String.mk ((s.data.dropWhile unicode.IsSpace).reverse.dropWhile unicode.IsSpace).reverse

/-- Modelled from the spec: `utils.StdinQueryInt` is not among the sources; it
prints the question, reads one line of input (`utils.StdinQuery`) and parses
the trimmed text as a base-10 integer.  The result is the parsed number (or the
parse error) and the printed lines. -/
def utils.StdinQueryInt (question : String) (line : String) : Except String Int × List String :=
  let text := utils.trimSpace line
  (match utils.parseInt text.data with
   | some n =>
     if -(2 : Int) ^ 63 ≤ n ∧ n < 2 ^ 63 then .ok n
     else .error ("strconv.Atoi: parsing " ++ text ++ ": value out of range")
   | none => .error ("strconv.Atoi: parsing " ++ text ++ ": invalid syntax"),
   [question ++ "\n", line ++ "\n"])

/-! ## The project list -/

/-- Modelled from the spec: the declaration of `projectData` is not among the
sources; a stored project is read only through its mapping of answers. -/
structure projectData where
  Answers : Answers
deriving Repr

/-- The receiver of all methods.  `groupedAnswers` is the data of the gabs
container and `groupedTree` the tree to print (none before the first
grouping).  `noColor` is no field of the Go struct: it carries the package
variable `color.NoColor` of the color library, which the color functions
called by the methods read and which no method writes. -/
structure ProjectList where
  projects : List projectData
  groupByKeys : List String
  hiddenKeys : List String
  groupedAnswers : Value
  groupedAnswersList : List Answers
  groupedTree : Option treeprint.Node
  noColor : Bool
deriving Repr

/-- Modelled from the spec: the constructor of the project list is not among
the sources; the store and the key lists are given at construction and nothing
is grouped yet.  The project list is made with colour output on, as on a
terminal. -/
def ProjectList.new (projects : List projectData) (groupByKeys hiddenKeys : List String) :
    ProjectList :=
  { projects := projects, groupByKeys := groupByKeys, hiddenKeys := hiddenKeys,
    groupedAnswers := .null, groupedAnswersList := [], groupedTree := none, noColor := false }

/-- Method `Length`. -/
def ProjectList.Length (p : ProjectList) : Nat :=
  p.projects.length

/-- The bucket path of a record: for every grouping key the `%v` text of the
record's value, or the empty string when the value is missing or nil (the inner
loop of `groupProjectAnswers`). -/
def keyValues (groupByKeys : List String) (answers : Answers) : List String :=
  groupByKeys.map (fun questionKey =>
    match mapLookup answers questionKey with
    | some value => if !value.isNil then value.format else ""
    | none => "")

/-- The body of the loop over the projects in `groupProjectAnswers`. -/
def groupProjectAnswersStep (groupByKeys : List String) (groupedAnswers : Value)
    (project : projectData) : Value :=
  let keyValues := keyValues groupByKeys project.Answers
  let groupedAnswers :=
    if !gabs.Exists groupedAnswers keyValues then gabs.Array groupedAnswers keyValues
    else groupedAnswers
  gabs.ArrayAppend groupedAnswers (.object project.Answers) keyValues

/-- Method `groupProjectAnswers`. -/
def ProjectList.groupProjectAnswers (p : ProjectList) : ProjectList :=
  if p.groupByKeys.length > 0 then
    { p with groupedAnswers :=
        p.projects.foldl (groupProjectAnswersStep p.groupByKeys) p.groupedAnswers }
  else
    let answersList := p.projects.map (fun project => project.Answers)
    { p with groupedAnswers := gabs.Set p.groupedAnswers (.maps answersList) [""] }

/-- Type assertion `x.(map[string]interface{})`. -/
def assertMap : Value → Except Failure GoMap
  | .object m => .ok m
  | v => .error (.panic ("interface conversion: interface \x7b\x7d is " ++ v.typeName ++
      ", not map[string]interface \x7b\x7d"))

/-- Type assertion `x.(string)`. -/
def assertString : Value → Except Failure String
  | .str s => .ok s
  | v => .error (.panic ("interface conversion: interface \x7b\x7d is " ++ v.typeName ++
      ", not string"))

/-- Indexing `s[i]` of a string slice. -/
def sliceIndex (s : List String) (i : Nat) : Except Failure String :=
  match s.get? i with
  | some x => .ok x
  | none => .error (.panic "index out of range")

/-- The comparison function handed to `sort.Slice` for a leaf, applied to the
two elements it is called on. -/
def leafLess (groupKey : String) (iElem jElem : Value) : Except Failure Bool := do
  let iItem ← assertMap iElem
  let jItem ← assertMap jElem
  if !(mapGet iItem groupKey).isNil && !(mapGet jItem groupKey).isNil then
    let a ← assertString (mapGet iItem groupKey)
    let b ← assertString (mapGet jItem groupKey)
    pure (strLess b a)
  else
    pure false

/-- The inner loop of insertion sort: the element `x` moves left past every
neighbour it is less than.  The sorted part is given nearest neighbour first. -/
def insertLeft (less : Value → Value → Except Failure Bool) (x : Value) :
    List Value → Except Failure (List Value)
  | [] => pure [x]
  | y :: ys => do
    if (← less x y) then
      let rest ← insertLeft less x ys
      pure (y :: rest)
    else
      pure (x :: y :: ys)

/-- Library `sort.Slice`, as the insertion sort that the Go library runs on a
short slice (at most 12 elements since Go 1.19, fewer than 7 before): every
element in turn is swapped leftwards while it is less than its left neighbour.
A panic of the comparison ends the sort.  On a longer slice the library runs
another algorithm, which can compare other pairs of elements and leave ties in
another order; the model is exact for slices of at most 12 elements and,
since Go 1.19, for every slice on which the comparison is false throughout,
which the library then leaves as it is. -/
def sortSlice (less : Value → Value → Except Failure Bool) (data : List Value) :
    Except Failure (List Value) := do
  let sortedRev ← data.foldlM (fun sortedRev x => insertLeft less x sortedRev) []
  pure sortedRev.reverse

/-- Method `coloredString`. -/
def ProjectList.coloredString (p : ProjectList) (level : Nat) (data : String) : String :=
  if level = 0 then color.RedString p.noColor data
  else if level = 1 then color.GreenString p.noColor data
  else if level = 2 then color.CyanString p.noColor data
  else data

/-- Method `answerString`. -/
def ProjectList.answerString (p : ProjectList) (highlightGroupKey : String) (answer : Answers) :
    String :=
  let answerStr :=
    [color.BlueString p.noColor
      (highlightGroupKey ++ ": " ++ (mapGet answer highlightGroupKey).format)]
  let keys := utils.MapKeys answer
  let answerStr := keys.foldl (fun answerStr k =>
    let v := mapGet answer k
    if utils.SliceIncludes p.hiddenKeys k || utils.SliceIncludes p.groupByKeys k then answerStr
    else if k = highlightGroupKey then answerStr
    else answerStr ++ [k ++ ": " ++ v.format]) answerStr
  ", ".intercalate answerStr

/-- One write to standard output: a text, or the rendering of a tree under the
start edge text in force. -/
inductive Output where
  | text (s : String)
  | tree (start : String) (tree : Option treeprint.Node)
deriving Repr

/-- What `recursivePopulateGroupListAndTree` has written so far: the flattened
list of the receiver, the nodes added to the tree it was handed, and the text
printed to standard output. -/
structure Walk where
  groupedAnswersList : List Answers
  nodes : List treeprint.Node
  stdout : List Output
deriving Repr

/-- The loop over the sorted leaf in `recursivePopulateGroupListAndTree`. -/
def addAnswers (p : ProjectList) (level : Nat) (answerList : List Value) (st : Walk) :
    Except Failure Walk :=
  answerList.foldlM (fun st answer => do
    let answerMap ← assertMap answer
    let groupedAnswersList := st.groupedAnswersList ++ [answerMap]
    let highlightGroupKey ← sliceIndex p.groupByKeys level
    pure { st with
      groupedAnswersList := groupedAnswersList,
      nodes := st.nodes ++ [treeprint.Node.mk
        (some (color.YellowString p.noColor (toString groupedAnswersList.length)))
        (some (p.answerString highlightGroupKey answerMap)) []] }) st

/-- Method `recursivePopulateGroupListAndTree`.  The first argument bounds the
depth of the recursion.  `current` stands for `currentTree`: the nodes added to
a new branch are collected apart and hung under the branch node, the others go
to the tree that was handed in.  The in-place sort of a leaf also reorders the
slice inside the container; the container is not read again before
`initGroups` rebuilds it, so that write is not carried along. -/
def ProjectList.recursivePopulateGroupListAndTree (p : ProjectList) :
    Nat → Nat → Value → Walk → Except Failure Walk
  | 0, _, _, _ => .error .fuel
  | fuel + 1, level, groupedAnswers, st =>
    let groupByKeys := p.groupByKeys
    let children := gabs.ChildrenMap groupedAnswers
    let groupKeys := sortStrings (children.map Prod.fst)
    groupKeys.foldlM (fun st groupKey => do
      let child := mapGet children groupKey
      let branch := decide (groupKey.length > 0) && decide (level + 1 < groupByKeys.length)
      let label ← (if branch then sliceIndex groupByKeys level else pure "")
      let current := if branch then { st with nodes := [] } else st
      let after ← (match child with
        | .object _ =>
          p.recursivePopulateGroupListAndTree fuel (level + 1) child current
        | .array answerList => do
          let answerList ← sortSlice (leafLess groupKey) answerList
          addAnswers p level answerList current
        | v =>
          pure { current with
            stdout := current.stdout ++
              [.text ("I don't know about type " ++ v.typeName ++ "!\n")] })
      pure (if branch then
          { after with nodes := st.nodes ++ [treeprint.Node.mk
              (some (p.coloredString level groupKey)) (some label) after.nodes] }
        else after)) st

mutual
/-- Number of nested map levels of a value. -/
def Value.nesting : Value → Nat
  | .object fields => nestingFields fields + 1
  | _ => 0
/-- Largest nesting among the values of a map. -/
def nestingFields : List (String × Value) → Nat
  | [] => 0
  | (_, v) :: rest => max (Value.nesting v) (nestingFields rest)
end

/-- Method `initGroups`, returning the receiver afterwards and the text printed
meanwhile. -/
def ProjectList.initGroups (p : ProjectList) : Except Failure (ProjectList × List Output) := do
  let p := { p with groupedAnswers := gabs.New, groupedAnswersList := [],
                    groupedTree := some treeprint.New }
  let p := p.groupProjectAnswers
  let st ← p.recursivePopulateGroupListAndTree (p.groupedAnswers.nesting + 1) 0 p.groupedAnswers
    { groupedAnswersList := p.groupedAnswersList, nodes := [], stdout := [] }
  pure ({ p with groupedAnswersList := st.groupedAnswersList,
                 groupedTree := some (.mk none none st.nodes) }, st.stdout)

/-- What a method call leaves behind: its return value, the receiver afterwards
and the text it printed. -/
structure Outcome (α : Type) where
  val : α
  self : ProjectList
  stdout : List Output

/-- Method `GetAll`. -/
def ProjectList.GetAll (p : ProjectList) : Except Failure (Outcome (List Answers)) :=
  if p.Length = 0 then
    pure { val := [], self := p, stdout := [] }
  else do
    let (p, out) ← (if p.groupedAnswersList.length = 0 then p.initGroups else pure (p, []))
    pure { val := p.groupedAnswersList, self := p, stdout := out }

/-- Arithmetic of the 64-bit Go `int`. -/
def wrapInt64 (i : Int) : Int :=
  (i + 2 ^ 63) % 2 ^ 64 - 2 ^ 63

/-- Method `GetIndex`.  The Go result pair (record, error) is the inner
`Except`. -/
def ProjectList.GetIndex (p : ProjectList) (index_0based : Int) :
    Except Failure (Outcome (Except Error Answers)) :=
  if p.Length = 0 then
    pure { val := .error (.ProjectListEmptyError
             "No answers found, please call `drawbridge create` first"),
           self := p, stdout := [] }
  else do
    let (p, out) ← (if p.groupedAnswersList.length = 0 then p.initGroups else pure (p, []))
    if index_0based < 0 ∨ index_0based ≥ (p.projects.length : Int) then
      pure { val := .error (.ProjectListIndexInvalidError
               ("Selected index (" ++ toString (wrapInt64 (index_0based + 1)) ++
                ") is invalid. Must be between 1-" ++ toString p.Length)),
             self := p, stdout := out }
    else
      match p.groupedAnswersList.get? index_0based.toNat with
      | some answer => pure { val := .ok answer, self := p, stdout := out }
      | none => .error (.panic "index out of range")

/-- Method `PrintTree`: the line it prints, the rendering of the grouped tree
under the start edge set just before. -/
def ProjectList.PrintTree (p : ProjectList) (_startMessage : String) : Output :=
  .tree "Rendered Drawbridge Configs:" p.groupedTree

/-- How `Prompt` ends: it returns the Go result pair (record, error), or it
never returns because the input is exhausted (every further read yields the
empty text, which is rejected again). -/
inductive Prompted where
  | returned (r : Except Error Answers)
  | endless

/-- What a call of `Prompt` leaves behind; `unread` is the input not yet
consumed. -/
structure PromptOutcome where
  val : Prompted
  self : ProjectList
  stdout : List Output
  unread : List String

/-- The retry loop of `Prompt`, one round for every line of input. -/
def ProjectList.promptLoop (p : ProjectList) (message : String) :
    List String → List Output → Except Failure PromptOutcome
  | [], out => pure { val := .endless, self := p, stdout := out, unread := [] }
  | line :: rest, out =>
    let (r, printed) :=
      utils.StdinQueryInt (message ++ " (1-" ++ toString p.Length ++ "):") line
    let out := out ++ printed.map Output.text
    match r with
    | .error err =>
      p.promptLoop message rest (out ++ [.text (color.HiRed p.noColor ("ERROR: " ++ err))])
    | .ok index_1based =>
      if !(decide (index_1based > 0) && decide (index_1based ≤ (p.Length : Int))) then
        p.promptLoop message rest (out ++ [.text (color.HiRed p.noColor
          ("Invalid selection. Must be between 1-" ++ toString p.Length))])
      else
        match p.groupedAnswersList.get? (index_1based - 1).toNat with
        | some answer =>
          pure { val := .returned (.ok answer), self := p, stdout := out, unread := rest }
        | none => .error (.panic "index out of range")

/-- Method `Prompt`, reading from the given lines of standard input. -/
def ProjectList.Prompt (p : ProjectList) (message : String) (stdin : List String) :
    Except Failure PromptOutcome :=
  if p.Length = 0 then
    pure { val := .returned (.error (.ProjectListEmptyError
             "No answers found, please call `drawbridge create` first")),
           self := p, stdout := [], unread := stdin }
  else do
    let (p, out) ← (if p.groupedAnswersList.length = 0 then p.initGroups else pure (p, []))
    p.promptLoop message stdin (out ++ [p.PrintTree ""])

/-! ## Specification-level descriptions used in the proofs -/

/-- The distinct strings of a list, each at its first occurrence. -/
def firsts : List String → List String
  | [] => []
  | a :: l => a :: (firsts l).filter (fun b => b ≠ a)

/-- The first label of the path of a record. -/
def headLabel (path : Answers → List String) (r : Answers) : String :=
  (path r).headD ""

/-- The records of a list whose path starts with the label `a`. -/
def bucket (path : Answers → List String) (a : String) (recs : List Answers) : List Answers :=
  recs.filter (fun r => headLabel path r = a)

/-- The container that holds the records `recs` under their paths, for paths
of length `n`: nested maps keyed by the labels, in order of first insertion,
with a slice of the records (in list order) at the end of every path. -/
def trieSpec : Nat → (Answers → List String) → List Answers → Value
  | 0, _, recs => .array (recs.map Value.object)
  | n + 1, path, recs =>
    .object ((firsts (recs.map (headLabel path))).map (fun a =>
      (a, trieSpec n (fun r => (path r).tail) (bucket path a recs))))

/-- Results of a fallible function along a list, concatenated. -/
def concatM {κ : Type} (f : κ → Except Failure (List Answers)) :
    List κ → Except Failure (List Answers)
  | [] => pure []
  | a :: ks => do
    let x ← f a
    let y ← concatM f ks
    pure (x ++ y)

/-- Every element of a slice read as a map, as the loop over a leaf does. -/
def assertMaps (items : List Value) : Except Failure (List Answers) :=
  concatM (fun v => (assertMap v).map (fun m => [m])) items

/-- The order in which a leaf is emitted: sorted by the comparison of the
leaf, every element read back as a map. -/
def leafOrder (groupKey : String) (recs : List Answers) : Except Failure (List Answers) := do
  let sorted ← sortSlice (leafLess groupKey) (recs.map Value.object)
  assertMaps sorted

/-- The flattened list for records with paths of length `n + 1`: the buckets in
ascending label order, each flattened in turn. -/
def flatSpec : Nat → (Answers → List String) → List Answers → Except Failure (List Answers)
  | 0, path, recs =>
    concatM (fun a => leafOrder a (bucket path a recs))
      (sortStrings (firsts (recs.map (headLabel path))))
  | n + 1, path, recs =>
    concatM (fun a => flatSpec n (fun r => (path r).tail) (bucket path a recs))
      (sortStrings (firsts (recs.map (headLabel path))))

/-- Strict order of two bucket paths: at the first level where they differ the
left label is the smaller one. -/
def pathLt : List String → List String → Prop
  | a :: p, b :: q => strLess a b = true ∨ (a = b ∧ pathLt p q)
  | _, _ => False

/-- The cache of the flattened list is empty or holds what `initGroups`
computes from the stored projects: the states a project list can be in. -/
def ProjectList.Coherent (p : ProjectList) : Prop :=
  p.groupedAnswersList = [] ∨
    ∃ q out, p.initGroups = .ok (q, out) ∧ q.groupedAnswersList = p.groupedAnswersList

/-- The records of the stored projects, in store order. -/
def ProjectList.records (p : ProjectList) : List Answers :=
  p.projects.map (fun project => project.Answers)

/-- The value that `ArrayAppend` writes back, from the data found at the path. -/
def appended (data : Value) (value : Value) : Value :=
  match data with
  | .array array => .array (array ++ [value])
  | data => .array [data, value]

/-- One round of the loop of `groupProjectAnswers` with the path made explicit. -/
def stepAt (path : List String) (value : Value) (g : Value) : Value :=
  gabs.ArrayAppend (if !gabs.Exists g path then gabs.Array g path else g) value path

/-- Reading of a wrapped record. -/
def unwrap : Value → Answers
  | .object m => m
  | _ => []


/-! ## Concrete project lists -/

/-- The scenario of the spec: two projects in `prod` around one in `dev`. -/
def scenario : ProjectList :=
  ProjectList.new
    [⟨[("env", .str "prod"), ("user", .str "a")]⟩,
     ⟨[("env", .str "dev"), ("user", .str "b")]⟩,
     ⟨[("env", .str "prod"), ("user", .str "c")]⟩] ["env"] []

/-- Two projects whose only grouping value descends in store order. -/
def descending : ProjectList :=
  ProjectList.new [⟨[("env", .str "b")]⟩, ⟨[("env", .str "a")]⟩] ["env"] []

/-- A store with a project that has no value for the first grouping key. -/
def withMissing : ProjectList :=
  ProjectList.new
    [⟨[("env", .str "prod"), ("user", .str "a")]⟩,
     ⟨[("user", .str "d")]⟩,
     ⟨[("env", .null), ("user", .str "e")]⟩] ["env", "user"] []

/-- The list that GetAll returns for `scenario`. -/
def scenarioFlattened : List Answers :=
  [[("env", .str "dev"), ("user", .str "b")],
   [("env", .str "prod"), ("user", .str "a")],
   [("env", .str "prod"), ("user", .str "c")]]

/-- A store that holds the same record twice, around another one. -/
def withDuplicate : ProjectList :=
  { ProjectList.new
      [⟨[("env", .str "prod"), ("user", .str "a")]⟩,
       ⟨[("env", .str "dev"), ("user", .str "b")]⟩,
       ⟨[("env", .str "prod"), ("user", .str "a")]⟩] ["env"] [] with
    groupedAnswers := gabs.New }

/-- Two projects in one bucket that both answer a question named like the
label of the bucket. -/
def labelAsKey : ProjectList :=
  ProjectList.new
    [⟨[("env", .str "prod"), ("prod", .str "a")]⟩,
     ⟨[("env", .str "prod"), ("prod", .str "b")]⟩] ["env"] []

/-- A store of one project in a project list without grouping keys. -/
def ungrouped : ProjectList :=
  ProjectList.new [⟨[("env", .str "prod")]⟩] [] []

/-- A project list without projects. -/
def emptyStore : ProjectList :=
  ProjectList.new [] ["env"] []

/-- A value that is nil or a string: the values on which the comparison of a
leaf cannot fail. -/
def Value.isText : Value → Bool
  | .null => true
  | .str _ => true
  | _ => false

/-! ## The printed tree read back -/

/-- The meta text and the value text of a tree node. -/
abbrev Tag := Option String × Option String

mutual
/-- The nodes without children below a tree node, in print order (depth first,
children in the order in which they were added), each with the tags of the
nodes above it, outermost first. -/
def trails : treeprint.Node → List (List Tag × Tag)
  | .mk m v [] => [([], (m, v))]
  | .mk m v (c :: cs) => (trailsList (c :: cs)).map (fun t => ((m, v) :: t.1, t.2))
/-- The trails of a list of sibling nodes, one after the other. -/
def trailsList : List treeprint.Node → List (List Tag × Tag)
  | [] => []
  | c :: cs => trails c ++ trailsList cs
end

/-- The record nodes of a printed tree: the nodes without children below the
root, in print order, with the branch tags above each. -/
def recordTrails (tree : treeprint.Node) : List (List Tag × Tag) :=
  trailsList tree.Nodes

/-- The last grouping key. -/
def ProjectList.lastGroupKey (p : ProjectList) : String :=
  p.groupByKeys.getD (p.groupByKeys.length - 1) ""

/-- The tag of the node of a record: its display number and its summary. -/
def leafTag (p : ProjectList) (k : Nat) (r : Answers) : Tag :=
  (some (color.YellowString p.noColor (toString k)), some (p.answerString p.lastGroupKey r))

/-- The branch tags expected above a record whose remaining bucket path starts
at the given level: one for every label that is not empty, the last label
excepted. -/
def relTrail (p : ProjectList) : Nat → List String → List Tag
  | level, a :: b :: rest =>
    (if a.length > 0 then
        [(some (p.coloredString level a), some (p.groupByKeys.getD level ""))]
      else []) ++ relTrail p (level + 1) (b :: rest)
  | _, _ => []

/-- Records numbered from `k + 1` on, each under its expected trail. -/
def numberedTrails (p : ProjectList) (tr : Answers → List Tag) :
    Nat → List Answers → List (List Tag × Tag)
  | _, [] => []
  | k, r :: rs => (tr r, leafTag p (k + 1) r) :: numberedTrails p tr (k + 1) rs

/-- The walk went from `st` to `st'` by adding records to the flattened list
and, for each of them in turn, a numbered record node under the trail `tr`. -/
def Grew (p : ProjectList) (tr : Answers → List Tag) (st st' : Walk) : Prop :=
  ∃ added, st'.groupedAnswersList = st.groupedAnswersList ++ added ∧
    trailsList st'.nodes =
      trailsList st.nodes ++ numberedTrails p tr st.groupedAnswersList.length added

/-- Two projects in one bucket that both hold a number under a question named
like the label of the bucket. -/
def numberUnderLabel : ProjectList :=
  ProjectList.new
    [⟨[("env", .str "prod"), ("prod", .int 1)]⟩,
     ⟨[("env", .str "prod"), ("prod", .int 2)]⟩] ["env"] []

/-- The shape of a grouping structure for `d` grouping keys: `d` levels of
non-empty maps above non-empty slices. -/
def wellShaped : Nat → Value → Bool
  | 0, .array items => !items.isEmpty
  | 0, _ => false
  | d + 1, .object fields => !fields.isEmpty && fields.all (fun field => wellShaped d field.2)
  | _ + 1, _ => false

/-- Two containers that hold the same maps, whatever the order in which a map
lists its keys: equal values, or maps with the same keys (each once) and the
same contents under every key. -/
inductive SameMaps : Value → Value → Prop
  | same (v : Value) : SameMaps v v
  | object (f g : List (String × Value)) (hf : (f.map Prod.fst).Nodup)
      (hg : (g.map Prod.fst).Nodup) (hkeys : ∀ k, k ∈ f.map Prod.fst ↔ k ∈ g.map Prod.fst)
      (hv : ∀ k, k ∈ f.map Prod.fst → SameMaps (mapGet f k) (mapGet g k)) :
      SameMaps (.object f) (.object g)

/-- The input read by `utils.StdinQueryInt` from a line, whatever the question. -/
def parsedLine (line : String) : Except String Int :=
  (utils.StdinQueryInt "" line).1

/-- A container of two buckets, and the same container with the keys of its
map in the opposite order. -/
def twoBuckets : Value × Value :=
  (.object [("b", .array [.object [("env", .str "b")]]),
            ("a", .array [.object [("env", .str "a")]])],
   .object [("a", .array [.object [("env", .str "a")]]),
            ("b", .array [.object [("env", .str "b")]])])

/-! ## The stable sort by bucket path -/

/-- Strict order of two bucket paths, computed: at the first level where they
differ the left label is the smaller one. -/
def pathLess : List String → List String → Bool
  | a :: p, b :: q => strLess a b || (decide (a = b) && pathLess p q)
  | _, _ => false

/-- Insertion of a record into a list ordered by bucket path: behind the
records with a smaller path and before all others. -/
def insertByPath (path : Answers → List String) (r : Answers) : List Answers → List Answers
  | [] => [r]
  | x :: rest =>
    if pathLess (path x) (path r) then x :: insertByPath path r rest else r :: x :: rest

/-- The stable sort of a list of records by bucket path: ascending paths,
records with the same path in the order of the list. -/
def sortByPath (path : Answers → List String) : List Answers → List Answers
  | [] => []
  | r :: rest => insertByPath path r (sortByPath path rest)

/-! ## Conversion of a typed answer (package `create`) -/

/-- The two causes of failure of the parsers of library `strconv`. -/
inductive strconv.Cause where
  | ErrSyntax
  | ErrRange
deriving DecidableEq, Repr

/-- Library type `strconv.NumError`: the failing function, the input and the
cause. -/
structure strconv.NumError where
  Func : String
  Num : String
  Err : strconv.Cause
deriving DecidableEq, Repr

/-- The loop of `strconv.ParseUint(s, 10, 64)` over the characters of the
input: a character that is no digit is a syntax error, a value beyond
`2^64 - 1` a range error, whichever comes first. -/
def strconv.parseUintLoop : List Char → Nat → Except strconv.Cause Nat
  | [], n => .ok n
  | c :: rest, n =>
    if c.isDigit then
      if n * 10 + (c.toNat - 48) ≥ 2 ^ 64 then .error .ErrRange
      else strconv.parseUintLoop rest (n * 10 + (c.toNat - 48))
    else .error .ErrSyntax

/-- Library `strconv.ParseUint(s, 10, 64)`, with the cause of a failure only. -/
def strconv.ParseUint (s : List Char) : Except strconv.Cause Nat :=
  if s.isEmpty then .error .ErrSyntax else strconv.parseUintLoop s 0

/-- Library `strconv.ParseInt(s, 10, 64)`: an optional sign and decimal digits,
within the range of `int64`. -/
def strconv.ParseInt (s : String) : Except strconv.NumError Int :=
  if s = "" then .error ⟨"ParseInt", s, .ErrSyntax⟩
  else
    let neg := s.data.head? = some '-'
    let digits := if s.data.head? = some '+' ∨ s.data.head? = some '-' then s.data.tail else s.data
    match strconv.ParseUint digits with
    | .error .ErrSyntax => .error ⟨"ParseInt", s, .ErrSyntax⟩
    | .error .ErrRange => .error ⟨"ParseInt", s, .ErrRange⟩
    | .ok un =>
      if ¬ neg ∧ un ≥ 2 ^ 63 then .error ⟨"ParseInt", s, .ErrRange⟩
      else if neg ∧ un > 2 ^ 63 then .error ⟨"ParseInt", s, .ErrRange⟩
      else .ok (if neg then -(un : Int) else (un : Int))

/-- Library `strconv.ParseBool`. -/
def strconv.ParseBool (str : String) : Except strconv.NumError Bool :=
  if str ∈ ["1", "t", "T", "true", "TRUE", "True"] then .ok true
  else if str ∈ ["0", "f", "F", "false", "FALSE", "False"] then .ok false
  else .error ⟨"ParseBool", str, .ErrSyntax⟩

/-- A `float64` as `strconv.ParseFloat` determines it: NaN, an infinity, or the
`float64` nearest to the decimal number `± mantissa * 10 ^ exp10`.  The
rounding to binary is not carried out. -/
inductive strconv.Float where
  | nan
  | inf (neg : Bool)
  | decimal (neg : Bool) (mantissa : Nat) (exp10 : Int)
deriving DecidableEq, Repr

/-- The special values that `strconv.ParseFloat` recognises by name, whatever
the case of the letters: `nan`, and `inf` or `infinity` with an optional
sign. -/
def strconv.special (s : List Char) : Option strconv.Float :=
  let lower := s.map Char.toLower
  if lower = "nan".data then some .nan
  else if lower = "inf".data ∨ lower = "infinity".data
      ∨ lower = "+inf".data ∨ lower = "+infinity".data then some (.inf false)
  else if lower = "-inf".data ∨ lower = "-infinity".data then some (.inf true)
  else none

/-- The digits of a mantissa up to the end of the input or the first character
that is neither a digit nor the first point: the number read so far, the count
of digits after the point, whether a point and whether a digit was seen, and
the rest of the input. -/
def strconv.readMantissa :
    List Char → Nat → Nat → Bool → Bool → Nat × Nat × Bool × List Char
  | [], m, frac, _, sawdigits => (m, frac, sawdigits, [])
  | c :: rest, m, frac, sawdot, sawdigits =>
    if c = '.' then
      if sawdot then (m, frac, sawdigits, c :: rest)
      else strconv.readMantissa rest m frac true sawdigits
    else if c.isDigit then
      strconv.readMantissa rest (m * 10 + (c.toNat - 48)) (if sawdot then frac + 1 else frac)
        sawdot true
    else (m, frac, sawdigits, c :: rest)

/-- The digits of an exponent: none unless every character is a digit and
there is at least one. -/
def strconv.readExponent (s : List Char) : Option Nat :=
  if s.isEmpty then none
  else s.foldl (fun acc c =>
    match acc with
    | some e => if c.isDigit then some (e * 10 + (c.toNat - 48)) else none
    | none => none) (some 0)

/-- The syntax of a decimal floating-point number as `strconv.ParseFloat` reads
it: an optional sign, digits with at most one point and at least one digit, and
an optional exponent `e` or `E` with an optional sign and at least one digit.
The result is the sign, the digits as a number and the power of ten. -/
def strconv.readFloat (s : List Char) : Option (Bool × Nat × Int) :=
  let neg := s.head? = some '-'
  let s := if s.head? = some '+' ∨ s.head? = some '-' then s.tail else s
  let (m, frac, sawdigits, rest) := strconv.readMantissa s 0 0 false false
  if !sawdigits then none
  else
    match rest with
    | [] => some (neg, m, -(frac : Int))
    | c :: rest =>
      if c = 'e' ∨ c = 'E' then
        let eneg := rest.head? = some '-'
        let rest := if rest.head? = some '+' ∨ rest.head? = some '-' then rest.tail else rest
        match strconv.readExponent rest with
        | some e => some (neg, m, (if eneg then -(e : Int) else (e : Int)) - (frac : Int))
        | none => none
      else none

/-- Whether the decimal number `mantissa * 10 ^ exp10` rounds to a `float64`
beyond the largest finite one, that is, whether it reaches
`2 ^ 1024 - 2 ^ 970`. -/
def strconv.overflows (mantissa : Nat) (exp10 : Int) : Bool :=
  if exp10 ≥ 0 then decide (mantissa * 10 ^ exp10.toNat ≥ 2 ^ 1024 - 2 ^ 970)
  else decide (mantissa ≥ (2 ^ 1024 - 2 ^ 970) * 10 ^ (-exp10).toNat)

/-- Library `strconv.ParseFloat(s, 64)` for the names of the special values and
for decimal numbers, the inputs every release of the library accepts
(hexadecimal mantissas and underscores between digits, which later releases
accept as well, are syntax errors here).  A number too large for a `float64`
is a range error. -/
def strconv.ParseFloat (s : String) : Except strconv.NumError strconv.Float :=
  match strconv.special s.data with
  | some f => .ok f
  | none =>
    match strconv.readFloat s.data with
    | none => .error ⟨"ParseFloat", s, .ErrSyntax⟩
    | some (neg, mantissa, exp10) =>
      if strconv.overflows mantissa exp10 then .error ⟨"ParseFloat", s, .ErrRange⟩
      else .ok (.decimal neg mantissa exp10)

/-- The value that `convertAnswerType` returns as an `interface{}`: an
`int64`, a `float64`, a `bool` or a `string`. -/
inductive TypedAnswer where
  | int64 (n : Int)
  | float64 (f : strconv.Float)
  | bool (b : Bool)
  | string (s : String)
deriving DecidableEq, Repr

/-- Modelled from the spec: package `drawbridge/pkg/errors` is not among the
sources; `AnswerFormatError` is its error kind for an answer that cannot be
converted, carrying its message.  The other `error` values that
`convertAnswerType` returns are the `*strconv.NumError` of the library. -/
inductive ConversionError where
  | AnswerFormatError (msg : String)
  | NumError (err : strconv.NumError)
deriving DecidableEq, Repr

/-- Function `convertAnswerType` of package `create`.  The Go result pair
(value, error) is the `Except`: every error is returned with the value nil. -/
def convertAnswerType (answer : String) (questionType : String) :
    Except ConversionError TypedAnswer :=
  if questionType = "integer" then
    match strconv.ParseInt answer with
    | .error err => .error (.NumError err)
    | .ok answer => .ok (.int64 answer)
  else if questionType = "number" then
    match strconv.ParseFloat answer with
    | .error err => .error (.NumError err)
    | .ok answer => .ok (.float64 answer)
  else if questionType = "boolean" then
    match strconv.ParseBool answer with
    | .error err => .error (.NumError err)
    | .ok answer => .ok (.bool answer)
  else if questionType = "string" then
    .ok (.string answer)
  else
    .error (.AnswerFormatError
      ("could not convert " ++ answer ++ " to unknown " ++ questionType ++ " type"))

/-- The values that the schema in `ValidateConfigFile` (package `config`)
accepts for the `type` of a question. -/
def config.questionTypes : List String :=
  ["integer", "number", "string", "boolean", "null"]

/-- The scenario with colour output off, as when standard output is no
terminal. -/
def scenarioWithoutColor : ProjectList :=
  { scenario with noColor := true }

/-- The store of `ungrouped` with the fresh container that `initGroups` hands
to `groupProjectAnswers`. -/
def ungroupedFresh : ProjectList :=
  { ungrouped with groupedAnswers := gabs.New }

/-! ## The tree of a flattened list -/

/-- The nodes of records in a row: each a node without children that shows
its display number, counted on from `k`, and its summary for the last grouping
key. -/
def leafNodes (p : ProjectList) : Nat → List Answers → List treeprint.Node
  | _, [] => []
  | k, r :: rs =>
    .mk (some (color.YellowString p.noColor (toString (k + 1))))
        (some (p.answerString p.lastGroupKey r)) [] :: leafNodes p (k + 1) rs

/-- The nodes of the buckets of a list of records, one bucket after the other
in the order of the given labels: for the bucket of a label, what `nodesOf`
makes of the label, the count of records before the bucket and the records of
the bucket. -/
def bucketNodes (nodesOf : String → Nat → List Answers → List treeprint.Node)
    (path : Answers → List String) (recs : List Answers) :
    List String → Nat → List treeprint.Node
  | [], _ => []
  | a :: labels, k =>
    nodesOf a k (bucket path a recs) ++
      bucketNodes nodesOf path recs labels (k + (bucket path a recs).length)

/-- The nodes that stand for a list of records with `n + 1` grouping levels
left, `k` records being numbered already.  At the last level every record is a
node of its own and no bucket has a node.  At every level before, the buckets
follow one another in the order in which their labels first occur in the list;
a bucket with a non-empty label is one branch node, which shows the label
styled for the level and the grouping key of the level, over the nodes of its
records; the nodes of the records of the bucket with the empty label stand in
the place of the bucket. -/
def forest (p : ProjectList) :
    Nat → Nat → (Answers → List String) → Nat → List Answers → List treeprint.Node
  | 0, _, _, k, recs => leafNodes p k recs
  | n + 1, level, path, k, recs =>
    bucketNodes (fun a k inBucket =>
        if a.length > 0 then
          [.mk (some (p.coloredString level a)) (some (p.groupByKeys.getD level ""))
            (forest p n (level + 1) (fun r => (path r).tail) k inBucket)]
        else forest p n (level + 1) (fun r => (path r).tail) k inBucket)
      path recs (firsts (recs.map (headLabel path))) k

/-- A store with two grouping keys where two projects share the bucket `prod`
of the first key. -/
def twoLevels : ProjectList :=
  ProjectList.new
    [⟨[("env", .str "prod"), ("user", .str "a")]⟩,
     ⟨[("env", .str "dev"), ("user", .str "b")]⟩,
     ⟨[("env", .str "prod"), ("user", .str "c")]⟩] ["env", "user"] []

/-! ## The gabs operations on nested maps -/

theorem searchMap_eq (mmap : GoMap) (k : String) (rest : List String) :
    gabs.searchMap mmap k rest =
      match mapLookup mmap k with
      | some v => gabs.Search v rest
      | none => .null := by
  induction mmap with
  | nil => simp [gabs.searchMap, mapLookup]
  | cons kv tl ih =>
    obtain ⟨k', v⟩ := kv
    by_cases h : k' = k
    · simp [gabs.searchMap, mapLookup, h]
    · simp [gabs.searchMap, mapLookup, h, ih]

theorem search_null (path : List String) : gabs.Search .null path = .null := by
  cases path <;> simp [gabs.Search]

theorem search_object_cons (mmap : GoMap) (k : String) (rest : List String) :
    gabs.Search (.object mmap) (k :: rest) = gabs.Search (mapGet mmap k) rest := by
  rw [gabs.Search, searchMap_eq, mapGet]
  cases mapLookup mmap k with
  | none => simp [search_null]
  | some v => simp

theorem mapLookup_mapSet_self (m : GoMap) (k : String) (v : Value) :
    mapLookup (mapSet m k v) k = some v := by
  induction m with
  | nil => simp [mapSet, mapLookup]
  | cons kv tl ih =>
    obtain ⟨k', v'⟩ := kv
    by_cases h : k' = k
    · simp [mapSet, mapLookup, h]
    · simp [mapSet, mapLookup, h, ih]

theorem mapGet_mapSet_self (m : GoMap) (k : String) (v : Value) :
    mapGet (mapSet m k v) k = v := by
  simp [mapGet, mapLookup_mapSet_self]

theorem mapSet_mapSet (m : GoMap) (k : String) (v w : Value) :
    mapSet (mapSet m k v) k w = mapSet m k w := by
  induction m with
  | nil => simp [mapSet]
  | cons kv tl ih =>
    obtain ⟨k', v'⟩ := kv
    by_cases h : k' = k
    · simp [mapSet, h]
    · simp [mapSet, h, ih]

theorem arrayAppend_eq (g value : Value) (path : List String) :
    gabs.ArrayAppend g value path = gabs.Set g (appended (gabs.Search g path) value) path := by
  unfold gabs.ArrayAppend appended
  split <;> simp_all

theorem set_object_cons (mmap : GoMap) (value : Value) (k : String) (rest : List String) :
    gabs.Set (.object mmap) value (k :: rest) =
      .object (mapSet mmap k (gabs.Set (mapGet mmap k) value rest)) := by
  simp [gabs.Set, Value.isNil]

theorem stepAt_object_cons (mmap : GoMap) (value : Value) (k : String) (rest : List String) :
    stepAt (k :: rest) value (.object mmap) =
      .object (mapSet mmap k (stepAt rest value (mapGet mmap k))) := by
  unfold stepAt
  simp only [arrayAppend_eq, gabs.Exists, gabs.Array, search_object_cons]
  by_cases h : (gabs.Search (mapGet mmap k) rest).isNil
  · simp [h, set_object_cons, search_object_cons, mapGet_mapSet_self, mapSet_mapSet]
  · simp [h, set_object_cons, search_object_cons, mapGet_mapSet_self, mapSet_mapSet]


/-! ## The container built by groupProjectAnswers -/

theorem stepAt_null_cons (value : Value) (k : String) (rest : List String) :
    stepAt (k :: rest) value .null = .object [(k, stepAt rest value .null)] := by
  have h : stepAt (k :: rest) value .null = stepAt (k :: rest) value (.object []) := by
    simp [stepAt, gabs.Exists, gabs.Array, search_null, search_object_cons, mapGet, mapLookup,
      gabs.Set, Value.isNil]
  rw [h, stepAt_object_cons]
  simp [mapGet, mapLookup, mapSet]

theorem search_nil (g : Value) : gabs.Search g [] = g := by
  cases g <;> rfl

theorem stepAt_nil_array (value : Value) (items : List Value) :
    stepAt [] value (.array items) = .array (items ++ [value]) := by
  simp [stepAt, gabs.Exists, search_nil, Value.isNil, arrayAppend_eq, appended, gabs.Set]

theorem stepAt_null_nil (value : Value) : stepAt [] value .null = .array [value] := by
  simp [stepAt, gabs.Exists, gabs.Array, search_nil, gabs.Set, Value.isNil, arrayAppend_eq,
    appended]

theorem mem_firsts (l : List String) (a : String) : a ∈ firsts l ↔ a ∈ l := by
  induction l with
  | nil => simp [firsts]
  | cons b l ih =>
    simp only [firsts, List.mem_cons, List.mem_filter, ih]
    by_cases h : a = b <;> simp [h]

theorem firsts_nodup (l : List String) : (firsts l).Nodup := by
  induction l with
  | nil => simp [firsts]
  | cons b l ih =>
    simp only [firsts, List.nodup_cons, List.mem_filter]
    exact ⟨by simp, ih.filter _⟩

theorem firsts_append_single (l : List String) (a : String) :
    firsts (l ++ [a]) = if a ∈ l then firsts l else firsts l ++ [a] := by
  induction l with
  | nil => simp [firsts]
  | cons b l ih =>
    rw [List.cons_append]
    simp only [firsts]
    rw [ih]
    by_cases hab : a = b
    · subst hab
      by_cases hl : a ∈ l <;> simp [hl, List.filter_append]
    · by_cases hl : a ∈ l <;> simp [hl, hab, List.filter_append]

theorem mapLookup_map (ks : List String) (f : String → Value) (a : String) :
    mapLookup (ks.map (fun b => (b, f b))) a = if a ∈ ks then some (f a) else none := by
  induction ks with
  | nil => simp [mapLookup]
  | cons b ks ih =>
    by_cases h : b = a
    · simp [mapLookup, h]
    · have h' : ¬ a = b := fun e => h e.symm
      simp [mapLookup, h, h', ih]

theorem mapSet_map_of_mem (ks : List String) (f : String → Value) (a : String) (v : Value)
    (hnd : ks.Nodup) (ha : a ∈ ks) :
    mapSet (ks.map (fun b => (b, f b))) a v = ks.map (fun b => (b, if b = a then v else f b)) := by
  induction ks with
  | nil => simp at ha
  | cons b ks ih =>
    rw [List.nodup_cons] at hnd
    by_cases h : b = a
    · subst h
      have : ∀ c ∈ ks, ¬ c = b := fun c hc e => hnd.1 (e ▸ hc)
      simp only [List.map_cons, mapSet, if_true, List.cons.injEq, true_and]
      exact List.map_congr_left (fun c hc => by simp [this c hc])
    · have ha' : a ∈ ks := by
        rcases List.mem_cons.1 ha with e | e
        · exact absurd e.symm h
        · exact e
      simp [mapSet, h, ih hnd.2 ha']

theorem mapSet_map_of_not_mem (ks : List String) (f : String → Value) (a : String) (v : Value)
    (ha : a ∉ ks) :
    mapSet (ks.map (fun b => (b, f b))) a v = ks.map (fun b => (b, f b)) ++ [(a, v)] := by
  induction ks with
  | nil => simp [mapSet]
  | cons b ks ih =>
    have h : ¬ b = a := fun e => ha (by simp [e])
    have ha' : a ∉ ks := fun e => ha (by simp [e])
    simp [mapSet, h, ih ha']

theorem bucket_append_single (path : Answers → List String) (a : String) (recs : List Answers)
    (r : Answers) :
    bucket path a (recs ++ [r]) =
      if headLabel path r = a then bucket path a recs ++ [r] else bucket path a recs := by
  by_cases h : headLabel path r = a <;> simp [bucket, List.filter_append, h]

theorem bucket_eq_nil (path : Answers → List String) (a : String) (recs : List Answers)
    (h : a ∉ recs.map (headLabel path)) : bucket path a recs = [] := by
  simp only [bucket, List.filter_eq_nil_iff]
  intro r hr
  simp only [decide_eq_true_eq]
  intro e
  exact h (List.mem_map.2 ⟨r, hr, e⟩)

theorem stepAt_null_trie (n : Nat) (path : Answers → List String) (r : Answers)
    (h : (path r).length = n) :
    stepAt (path r) (.object r) .null = trieSpec n path [r] := by
  induction n generalizing path with
  | zero =>
    have hp : path r = [] := List.length_eq_zero.1 h
    simp [hp, stepAt_null_nil, trieSpec]
  | succ n ih =>
    obtain ⟨a, P, hp⟩ : ∃ a P, path r = a :: P := by
      cases hpr : path r with
      | nil => simp [hpr] at h
      | cons a P => exact ⟨a, P, rfl⟩
    have hlen : P.length = n := by simpa [hp] using h
    have ih' := ih (fun r => (path r).tail) (by simp [hp, hlen])
    simp only [hp, List.tail_cons] at ih'
    rw [hp, stepAt_null_cons, ih']
    simp [trieSpec, firsts, headLabel, hp, bucket]

theorem stepAt_trieSpec (n : Nat) (path : Answers → List String) (recs : List Answers)
    (r : Answers) (h : (path r).length = n) :
    stepAt (path r) (.object r) (trieSpec n path recs) = trieSpec n path (recs ++ [r]) := by
  induction n generalizing path recs with
  | zero =>
    have hp : path r = [] := List.length_eq_zero.1 h
    simp [hp, trieSpec, stepAt_nil_array]
  | succ n ih =>
    obtain ⟨a, P, hp⟩ : ∃ a P, path r = a :: P := by
      cases hpr : path r with
      | nil => simp [hpr] at h
      | cons a P => exact ⟨a, P, rfl⟩
    have hlen : P.length = n := by simpa [hp] using h
    have hhead : headLabel path r = a := by simp [headLabel, hp]
    have htail : (fun r => (path r).tail) r = P := by simp [hp]
    rw [hp]
    simp only [trieSpec, stepAt_object_cons, List.map_append, List.map_cons, List.map_nil, hhead,
      firsts_append_single, mapGet, mapLookup_map, mem_firsts]
    by_cases hmem : a ∈ recs.map (headLabel path)
    · have ih' := ih (fun r => (path r).tail) (bucket path a recs) (by simp [hp, hlen])
      simp only [hp, List.tail_cons] at ih'
      simp only [hmem, if_true, Option.getD_some, ih']
      rw [mapSet_map_of_mem _ _ _ _ (firsts_nodup _) ((mem_firsts _ _).2 hmem)]
      congr 1
      apply List.map_congr_left
      intro b _
      by_cases hb : b = a
      · simp [hb, bucket_append_single, hhead]
      · have hb' : ¬ a = b := fun e => hb e.symm
        simp [hb, hb', bucket_append_single, hhead]
    · have h0 := stepAt_null_trie n (fun r => (path r).tail) r (by simp [hp, hlen])
      simp only [hp, List.tail_cons] at h0
      simp only [hmem, if_false, Option.getD_none, h0]
      rw [mapSet_map_of_not_mem _ _ _ _ (fun e => hmem ((mem_firsts _ _).1 e))]
      simp only [List.map_append, List.map_cons, List.map_nil]
      congr 2
      · apply List.map_congr_left
        intro b hb
        have hb' : ¬ a = b := fun e => hmem ((mem_firsts _ _).1 (e ▸ hb))
        simp [bucket_append_single, hhead, hb']
      · simp [bucket_append_single, hhead, bucket_eq_nil _ _ _ hmem]

/-! ## The container after groupProjectAnswers -/

theorem keyValues_length (groupByKeys : List String) (answers : Answers) :
    (keyValues groupByKeys answers).length = groupByKeys.length := by
  simp [keyValues]

theorem groupProjectAnswersStep_eq (groupByKeys : List String) (g : Value) (project : projectData) :
    groupProjectAnswersStep groupByKeys g project =
      stepAt (keyValues groupByKeys project.Answers) (.object project.Answers) g := rfl

theorem foldl_step_trieSpec (groupByKeys : List String) (projects : List projectData)
    (recs : List Answers) :
    projects.foldl (groupProjectAnswersStep groupByKeys)
        (trieSpec groupByKeys.length (keyValues groupByKeys) recs) =
      trieSpec groupByKeys.length (keyValues groupByKeys)
        (recs ++ projects.map (fun project => project.Answers)) := by
  induction projects generalizing recs with
  | nil => simp
  | cons project rest ih =>
    rw [List.foldl_cons, groupProjectAnswersStep_eq,
      stepAt_trieSpec _ _ _ _ (keyValues_length _ _), ih]
    simp

theorem groupProjectAnswers_eq (p : ProjectList) (hk : p.groupByKeys ≠ [])
    (hg : p.groupedAnswers = gabs.New) :
    p.groupProjectAnswers.groupedAnswers =
      trieSpec p.groupByKeys.length (keyValues p.groupByKeys)
        (p.projects.map (fun project => project.Answers)) := by
  have hlen : p.groupByKeys.length > 0 := List.length_pos.2 hk
  obtain ⟨n, hn⟩ : ∃ n, p.groupByKeys.length = n + 1 := ⟨p.groupByKeys.length - 1, by omega⟩
  have h0 : gabs.New = trieSpec p.groupByKeys.length (keyValues p.groupByKeys) [] := by
    rw [hn]; simp [trieSpec, firsts, gabs.New]
  have := foldl_step_trieSpec p.groupByKeys p.projects []
  rw [← h0] at this
  simp [ProjectList.groupProjectAnswers, hlen, hg, this]

/-! ## Fallible computations -/

theorem foldlM_concat {σ κ : Type} (proj : σ → List Answers)
    (body : σ → κ → Except Failure σ) (f : κ → Except Failure (List Answers)) (ks : List κ)
    (h : ∀ a ∈ ks, ∀ st, (body st a).map proj = (f a).map (fun x => proj st ++ x)) :
    ∀ st, (ks.foldlM body st).map proj = (concatM f ks).map (fun x => proj st ++ x) := by
  induction ks with
  | nil => intro st; simp [concatM, Except.map, pure, Except.pure]
  | cons a ks ih =>
    intro st
    have ha := h a (List.mem_cons_self _ _) st
    have ih' := ih (fun b hb => h b (List.mem_cons_of_mem _ hb))
    rw [List.foldlM_cons]
    cases hb : body st a with
    | error e =>
      cases hf : f a with
      | error e' =>
        rw [hb, hf] at ha
        simp only [Except.map, Except.error.injEq] at ha
        simp [concatM, hf, bind, Except.bind, Except.map, ha]
      | ok x => rw [hb, hf] at ha; simp [Except.map] at ha
    | ok st' =>
      cases hf : f a with
      | error e' => rw [hb, hf] at ha; simp [Except.map] at ha
      | ok x =>
        rw [hb, hf] at ha
        simp only [Except.map, Except.ok.injEq] at ha
        have := ih' st'
        simp only [bind, Except.bind, concatM, hf]
        rw [this, ha]
        cases concatM f ks <;> simp [Except.map, pure, Except.pure]

theorem addAnswers_list (p : ProjectList) (level : Nat) (hl : level < p.groupByKeys.length)
    (items : List Value) (st : Walk) :
    (addAnswers p level items st).map (fun w => w.groupedAnswersList) =
      (assertMaps items).map (fun x => st.groupedAnswersList ++ x) := by
  obtain ⟨key, hkey⟩ : ∃ key, sliceIndex p.groupByKeys level = .ok key := by
    unfold sliceIndex
    rw [List.get?_eq_get hl]
    exact ⟨_, rfl⟩
  unfold addAnswers assertMaps
  refine foldlM_concat (fun w : Walk => w.groupedAnswersList) _ _ items ?_ st
  intro v _ st
  cases hv : assertMap v with
  | error e => simp [bind, Except.bind, Except.map]
  | ok m => simp [bind, Except.bind, Except.map, hkey, pure, Except.pure]

/-! ## Sorted bucket labels -/

theorem insertString_perm (a : String) (l : List String) : (insertString a l).Perm (a :: l) := by
  induction l with
  | nil => simp [insertString]
  | cons b l ih =>
    unfold insertString
    split
    · exact (List.Perm.cons b ih).trans (List.Perm.swap a b l)
    · exact List.Perm.refl _

theorem sortStrings_perm (l : List String) : (sortStrings l).Perm l := by
  induction l with
  | nil => simp [sortStrings]
  | cons a l ih =>
    unfold sortStrings
    exact (insertString_perm a _).trans (List.Perm.cons a ih)

theorem mem_sortStrings (l : List String) (a : String) : a ∈ sortStrings l ↔ a ∈ l :=
  (sortStrings_perm l).mem_iff

theorem map_fst_map (ks : List String) (f : String → Value) :
    (ks.map (fun b => (b, f b))).map Prod.fst = ks := by
  induction ks with
  | nil => rfl
  | cons b ks ih => simpa using ih

/-! ## The walk over the container -/

theorem map_list_bind (x : Except Failure Walk) (k : Walk → Except Failure Walk)
    (rhs : Except Failure (List Answers))
    (hx : x.map (fun w => w.groupedAnswersList) = rhs)
    (hk : ∀ w, (k w).map (fun w => w.groupedAnswersList) = .ok w.groupedAnswersList) :
    (x >>= k).map (fun w => w.groupedAnswersList) = rhs := by
  subst hx
  cases x with
  | error e => rfl
  | ok w => exact hk w

theorem map_bind_congr {α : Type} (x : Except Failure α) (k : α → Except Failure Walk)
    (k' : α → Except Failure (List Answers)) (g : List Answers → List Answers)
    (h : ∀ v, (k v).map (fun w => w.groupedAnswersList) = (k' v).map g) :
    (x >>= k).map (fun w => w.groupedAnswersList) = (x >>= k').map g := by
  cases x with
  | error e => rfl
  | ok v => exact h v

theorem sliceIndex_ok (s : List String) (i : Nat) (h : i < s.length) :
    ∃ key, sliceIndex s i = .ok key := by
  unfold sliceIndex
  rw [List.get?_eq_get h]
  exact ⟨_, rfl⟩

theorem except_ok_bind {α β : Type} (a : α) (f : α → Except Failure β) :
    (Except.ok a >>= f) = f a := rfl

theorem label_ok (s : List String) (level : Nat) (hl : level < s.length) (branch : Bool) :
    ∃ label, (if branch = true then sliceIndex s level else pure "" : Except Failure String) =
      .ok label := by
  cases branch with
  | false => exact ⟨"", rfl⟩
  | true => exact sliceIndex_ok s level hl

theorem branch_keeps_list (p : ProjectList) (level : Nat) (a label : String)
    (nodes : List treeprint.Node) (branch : Bool) (w : Walk) :
    (pure (if branch = true then
        { w with nodes := nodes ++ [treeprint.Node.mk
          (some (p.coloredString level a)) (some label) w.nodes] }
      else w) : Except Failure Walk).map (fun w => w.groupedAnswersList) =
      .ok w.groupedAnswersList := by
  cases branch <;> rfl

theorem populate_trieSpec (p : ProjectList) (n : Nat) :
    ∀ (path : Answers → List String) (recs : List Answers) (level fuel : Nat) (st : Walk),
      level + n + 1 = p.groupByKeys.length → n + 1 ≤ fuel →
      (p.recursivePopulateGroupListAndTree fuel level (trieSpec (n + 1) path recs) st).map
          (fun w => w.groupedAnswersList) =
        (flatSpec n path recs).map (fun x => st.groupedAnswersList ++ x) := by
  induction n with
  | zero =>
    intro path recs level fuel st hlevel hfuel
    obtain ⟨fuel', rfl⟩ : ∃ fuel', fuel = fuel' + 1 := ⟨fuel - 1, by omega⟩
    rw [ProjectList.recursivePopulateGroupListAndTree]
    simp only [trieSpec, gabs.ChildrenMap, map_fst_map, flatSpec]
    refine foldlM_concat (fun w : Walk => w.groupedAnswersList) _ _ _ ?_ st
    intro a ha st
    have ha' : a ∈ firsts (recs.map (headLabel path)) := (mem_sortStrings _ _).1 ha
    have hl : level < p.groupByKeys.length := by omega
    simp only [mapGet, mapLookup_map, ha', if_true, Option.getD_some]
    obtain ⟨label, hlabel⟩ := label_ok p.groupByKeys level hl
      (decide (a.length > 0) && decide (level + 1 < p.groupByKeys.length))
    rw [hlabel, except_ok_bind]
    refine map_list_bind _ _ _ ?_ (branch_keeps_list p level a label st.nodes _)
    unfold leafOrder
    refine map_bind_congr _ _ _ _ ?_
    intro sorted
    rw [addAnswers_list p level hl]
    congr 1
    split <;> rfl
  | succ n ih =>
    intro path recs level fuel st hlevel hfuel
    obtain ⟨fuel', rfl⟩ : ∃ fuel', fuel = fuel' + 1 := ⟨fuel - 1, by omega⟩
    rw [ProjectList.recursivePopulateGroupListAndTree]
    simp only [gabs.ChildrenMap, flatSpec]
    rw [trieSpec]
    simp only [map_fst_map]
    refine foldlM_concat (fun w : Walk => w.groupedAnswersList) _ _ _ ?_ st
    intro a ha st
    have ha' : a ∈ firsts (recs.map (headLabel path)) := (mem_sortStrings _ _).1 ha
    have hl : level < p.groupByKeys.length := by omega
    simp only [mapGet, mapLookup_map, ha', if_true, Option.getD_some]
    obtain ⟨label, hlabel⟩ := label_ok p.groupByKeys level hl
      (decide (a.length > 0) && decide (level + 1 < p.groupByKeys.length))
    rw [hlabel, except_ok_bind]
    refine map_list_bind _ _ _ ?_ (branch_keeps_list p level a label st.nodes _)
    rw [trieSpec]
    simp only []
    have := ih (fun r => (path r).tail) (bucket path a recs) (level + 1) fuel'
      (if (decide (a.length > 0) && decide (level + 1 < p.groupByKeys.length)) = true
        then { st with nodes := [] } else st) (by omega) (by omega)
    rw [trieSpec] at this
    rw [this]
    congr 1
    split <;> rfl

/-! ## initGroups and GetAll in terms of the specification -/

theorem nesting_le_nestingFields (fields : List (String × Value)) (k : String) (v : Value)
    (h : (k, v) ∈ fields) : v.nesting ≤ nestingFields fields := by
  induction fields with
  | nil => simp at h
  | cons kv tl ih =>
    obtain ⟨k', v'⟩ := kv
    rw [nestingFields]
    rcases List.mem_cons.1 h with e | e
    · cases e
      exact le_max_left _ _
    · exact le_trans (ih e) (le_max_right _ _)

theorem nesting_trieSpec (n : Nat) (path : Answers → List String) (recs : List Answers)
    (h : recs ≠ []) : n ≤ (trieSpec n path recs).nesting := by
  induction n generalizing path recs with
  | zero => exact Nat.zero_le _
  | succ n ih =>
    obtain ⟨r, rest, rfl⟩ : ∃ r rest, recs = r :: rest := by
      cases recs with
      | nil => exact absurd rfl h
      | cons r rest => exact ⟨r, rest, rfl⟩
    rw [trieSpec, Value.nesting]
    have hb : bucket path (headLabel path r) (r :: rest) ≠ [] := by
      simp [bucket, List.filter_cons]
    have hmem : (headLabel path r, trieSpec n (fun r => (path r).tail)
        (bucket path (headLabel path r) (r :: rest))) ∈
        (firsts ((r :: rest).map (headLabel path))).map (fun a =>
          (a, trieSpec n (fun r => (path r).tail) (bucket path a (r :: rest)))) := by
      apply List.mem_map.2
      exact ⟨headLabel path r, (mem_firsts _ _).2 (by simp), rfl⟩
    have := nesting_le_nestingFields _ _ _ hmem
    have := ih (fun r => (path r).tail) _ hb
    omega

theorem except_map_id {α : Type} (x : Except Failure α) : x.map (fun a => a) = x := by
  cases x <;> rfl

theorem initGroups_unfold (p : ProjectList) :
    p.initGroups =
      ((ProjectList.mk p.projects p.groupByKeys p.hiddenKeys gabs.New []
          (some treeprint.New) p.noColor).groupProjectAnswers.recursivePopulateGroupListAndTree
        ((ProjectList.mk p.projects p.groupByKeys p.hiddenKeys gabs.New []
          (some treeprint.New) p.noColor).groupProjectAnswers.groupedAnswers.nesting + 1) 0
        (ProjectList.mk p.projects p.groupByKeys p.hiddenKeys gabs.New []
          (some treeprint.New) p.noColor).groupProjectAnswers.groupedAnswers
        { groupedAnswersList := (ProjectList.mk p.projects p.groupByKeys p.hiddenKeys gabs.New []
            (some treeprint.New) p.noColor).groupProjectAnswers.groupedAnswersList,
          nodes := [], stdout := [] }) >>= fun st =>
      pure ({ (ProjectList.mk p.projects p.groupByKeys p.hiddenKeys gabs.New []
                (some treeprint.New) p.noColor).groupProjectAnswers with
              groupedAnswersList := st.groupedAnswersList,
              groupedTree := some (.mk none none st.nodes) }, st.stdout) := rfl

theorem initGroups_list (p : ProjectList) (hk : p.groupByKeys ≠ []) (hp : p.projects ≠ []) :
    p.initGroups.map (fun r => r.1.groupedAnswersList) =
      flatSpec (p.groupByKeys.length - 1) (keyValues p.groupByKeys) p.records := by
  have hlen : p.groupByKeys.length > 0 := List.length_pos.2 hk
  obtain ⟨n, hn⟩ : ∃ n, p.groupByKeys.length = n + 1 := ⟨p.groupByKeys.length - 1, by omega⟩
  have hrecs : p.records ≠ [] := by simpa [ProjectList.records] using hp
  rw [initGroups_unfold]
  have hg := groupProjectAnswers_eq
    (ProjectList.mk p.projects p.groupByKeys p.hiddenKeys gabs.New [] (some treeprint.New)
      p.noColor) hk rfl
  have hl : (ProjectList.mk p.projects p.groupByKeys p.hiddenKeys gabs.New []
      (some treeprint.New) p.noColor).groupProjectAnswers.groupedAnswersList = [] := by
    simp [ProjectList.groupProjectAnswers, hlen]
  have hk' : (ProjectList.mk p.projects p.groupByKeys p.hiddenKeys gabs.New []
      (some treeprint.New) p.noColor).groupProjectAnswers.groupByKeys = p.groupByKeys := by
    simp [ProjectList.groupProjectAnswers, hlen]
  simp only [] at hg
  generalize (ProjectList.mk p.projects p.groupByKeys p.hiddenKeys gabs.New []
      (some treeprint.New) p.noColor).groupProjectAnswers = q at hg hl hk' ⊢
  rw [← ProjectList.records] at hg
  have hnest := nesting_trieSpec (n + 1) (keyValues p.groupByKeys) _ hrecs
  have := populate_trieSpec q n (keyValues p.groupByKeys) p.records 0
    (q.groupedAnswers.nesting + 1)
    { groupedAnswersList := q.groupedAnswersList, nodes := [], stdout := [] }
    (by rw [hk']; omega)
    (by rw [hg, hn]; omega)
  rw [hn] at hg
  rw [← hg] at this
  simp only [hl, List.nil_append, except_map_id] at this
  rw [hn, Nat.add_sub_cancel, hl]
  cases hrun : q.recursivePopulateGroupListAndTree (q.groupedAnswers.nesting + 1) 0
      q.groupedAnswers { groupedAnswersList := [], nodes := [], stdout := [] } with
  | error e =>
    rw [hrun] at this
    rw [← this]
    rfl
  | ok w =>
    rw [hrun] at this
    rw [← this]
    rfl

/-- With grouping keys and a store that is not empty, GetAll returns what the
specification of the flattened list gives, failure included; the right side
has no recursion budget, so the budget of the walk never runs out. -/
theorem GetAll_val (p : ProjectList) (hc : p.Coherent) (hk : p.groupByKeys ≠ [])
    (hp : p.projects ≠ []) :
    p.GetAll.map (fun o => o.val) =
      flatSpec (p.groupByKeys.length - 1) (keyValues p.groupByKeys) p.records := by
  have hlen : ¬ p.Length = 0 := by
    simpa [ProjectList.Length, List.length_eq_zero] using hp
  have hinit := initGroups_list p hk hp
  unfold ProjectList.GetAll
  simp only [hlen, if_false]
  by_cases hcache : p.groupedAnswersList.length = 0
  · simp only [hcache, if_true]
    rw [← hinit]
    cases p.initGroups with
    | error e => rfl
    | ok r => rfl
  · simp only [hcache, if_false]
    rcases hc with h0 | ⟨q, out, hq, hql⟩
    · simp [h0] at hcache
    · rw [← hinit, hq]
      simp [bind, Except.bind, Except.map, pure, Except.pure, hql]

/-! ## Order of strings -/

theorem strLess_iff (a b : String) : strLess a b = true ↔ a < b := by
  simp [strLess, String.lt_iff_toList_lt]

theorem strLess_irrefl (a : String) : strLess a a = false := by
  cases h : strLess a a with
  | false => rfl
  | true => exact absurd ((strLess_iff a a).1 h) (lt_irrefl a)

theorem strLess_empty (b : String) (h : b ≠ "") : strLess "" b = true := by
  rw [strLess_iff, String.lt_iff_toList_lt]
  obtain ⟨l⟩ := b
  cases l with
  | nil => exact absurd rfl h
  | cons c cs => exact List.nil_lt_cons c cs

theorem insertString_sorted (a : String) (l : List String)
    (h : l.Pairwise (fun x y => x ≤ y)) : (insertString a l).Pairwise (fun x y => x ≤ y) := by
  induction l with
  | nil => simp [insertString]
  | cons b l ih =>
    rw [List.pairwise_cons] at h
    unfold insertString
    by_cases hba : strLess b a = true
    · simp only [hba, if_true]
      rw [List.pairwise_cons]
      refine ⟨?_, ih h.2⟩
      intro c hc
      rcases List.mem_cons.1 ((insertString_perm a l).mem_iff.1 hc) with e | e
      · rw [e]; exact le_of_lt ((strLess_iff _ _).1 hba)
      · exact h.1 c e
    · have hba' : strLess b a = false := by simpa using hba
      simp only [hba', Bool.false_eq_true, if_false]
      have hab : a ≤ b := not_lt.1 (fun hlt => hba ((strLess_iff _ _).2 hlt))
      rw [List.pairwise_cons]
      refine ⟨?_, List.pairwise_cons.2 h⟩
      intro c hc
      rcases List.mem_cons.1 hc with e | e
      · rw [e]; exact hab
      · exact le_trans hab (h.1 c e)

theorem sortStrings_sorted (l : List String) : (sortStrings l).Pairwise (fun x y => x ≤ y) := by
  induction l with
  | nil => simp [sortStrings]
  | cons a l ih => exact insertString_sorted a _ ih

theorem sortStrings_strict (l : List String) (h : l.Nodup) :
    (sortStrings l).Pairwise (fun x y => strLess x y = true) := by
  have hs := sortStrings_sorted l
  have hn : (sortStrings l).Nodup := (sortStrings_perm l).nodup_iff.2 h
  have := hs.and hn
  refine this.imp ?_
  intro x y hxy
  exact (strLess_iff x y).2 (lt_of_le_of_ne hxy.1 hxy.2)

/-! ## The sort of a leaf permutes it -/

theorem insertLeft_perm (less : Value → Value → Except Failure Bool) (x : Value)
    (ys zs : List Value) (h : insertLeft less x ys = .ok zs) : zs.Perm (x :: ys) := by
  induction ys generalizing zs with
  | nil =>
    simp only [insertLeft, pure, Except.pure, Except.ok.injEq] at h
    subst h
    exact List.Perm.refl _
  | cons y ys ih =>
    simp only [insertLeft, bind, Except.bind] at h
    cases hl : less x y with
    | error e => rw [hl] at h; cases h
    | ok b =>
      rw [hl] at h
      cases b with
      | false =>
        simp only [Bool.false_eq_true, if_false, pure, Except.pure, Except.ok.injEq] at h
        subst h
        exact List.Perm.refl _
      | true =>
        simp only [if_true] at h
        cases hr : insertLeft less x ys with
        | error e => rw [hr] at h; cases h
        | ok rest =>
          rw [hr] at h
          simp only [pure, Except.pure, Except.ok.injEq] at h
          subst h
          exact (List.Perm.cons y (ih rest hr)).trans (List.Perm.swap x y ys)

theorem foldlM_insertLeft_perm (less : Value → Value → Except Failure Bool) (data : List Value) :
    ∀ (acc out : List Value),
      data.foldlM (fun sortedRev x => insertLeft less x sortedRev) acc = .ok out →
      out.Perm (data ++ acc) := by
  induction data with
  | nil =>
    intro acc out h
    simp only [List.foldlM_nil, pure, Except.pure, Except.ok.injEq] at h
    subst h
    simp
  | cons x data ih =>
    intro acc out h
    rw [List.foldlM_cons] at h
    cases hx : insertLeft less x acc with
    | error e => rw [hx] at h; cases h
    | ok acc' =>
      rw [hx] at h
      have h1 := ih acc' out h
      have h2 := insertLeft_perm less x acc acc' hx
      refine h1.trans ?_
      refine (List.Perm.append_left data h2).trans ?_
      simp [List.perm_middle]

theorem sortSlice_perm (less : Value → Value → Except Failure Bool) (data out : List Value)
    (h : sortSlice less data = .ok out) : out.Perm data := by
  unfold sortSlice at h
  cases hf : data.foldlM (fun sortedRev x => insertLeft less x sortedRev) [] with
  | error e => rw [hf] at h; cases h
  | ok r =>
    rw [hf] at h
    simp only [bind, Except.bind, pure, Except.pure, Except.ok.injEq] at h
    subst h
    have := foldlM_insertLeft_perm less data [] r hf
    simp only [List.append_nil] at this
    exact (List.reverse_perm r).trans this

/-! ## Concatenated results -/

theorem concatM_nil_ok {κ : Type} (f : κ → Except Failure (List Answers)) (L : List Answers)
    (h : concatM f [] = .ok L) : L = [] := by
  simp only [concatM, pure, Except.pure, Except.ok.injEq] at h
  exact h.symm

theorem concatM_cons_ok {κ : Type} (f : κ → Except Failure (List Answers)) (a : κ) (ks : List κ)
    (L : List Answers) (h : concatM f (a :: ks) = .ok L) :
    ∃ x y, f a = .ok x ∧ concatM f ks = .ok y ∧ L = x ++ y := by
  simp only [concatM, bind, Except.bind] at h
  cases hx : f a with
  | error e => rw [hx] at h; cases h
  | ok x =>
    rw [hx] at h
    cases hy : concatM f ks with
    | error e => rw [hy] at h; cases h
    | ok y =>
      rw [hy] at h
      simp only [pure, Except.pure, Except.ok.injEq] at h
      exact ⟨x, y, rfl, rfl, h.symm⟩

/-- The elements of an emitted leaf, wrapped again, are the sorted slice. -/
theorem assertMaps_ok (vs : List Value) (L : List Answers) (h : assertMaps vs = .ok L) :
    vs = L.map Value.object := by
  unfold assertMaps at h
  induction vs generalizing L with
  | nil => rw [concatM_nil_ok _ _ h]; rfl
  | cons v vs ih =>
    obtain ⟨x, y, hx, hy, rfl⟩ := concatM_cons_ok _ _ _ _ h
    cases v with
    | object m =>
      simp only [assertMap, Except.map, Except.ok.injEq] at hx
      subst hx
      simp [ih y hy]
    | null => simp [assertMap, Except.map] at hx
    | str s => simp [assertMap, Except.map] at hx
    | int n => simp [assertMap, Except.map] at hx
    | bool b => simp [assertMap, Except.map] at hx
    | other t => simp [assertMap, Except.map] at hx
    | array items => simp [assertMap, Except.map] at hx
    | maps items => simp [assertMap, Except.map] at hx

theorem map_unwrap_object (L : List Answers) : (L.map Value.object).map unwrap = L := by
  induction L with
  | nil => rfl
  | cons a L ih => simpa [unwrap] using ih

theorem leafOrder_perm (groupKey : String) (recs L : List Answers)
    (h : leafOrder groupKey recs = .ok L) : L.Perm recs := by
  unfold leafOrder at h
  cases hs : sortSlice (leafLess groupKey) (recs.map Value.object) with
  | error e => rw [hs] at h; cases h
  | ok sorted =>
    rw [hs] at h
    have h' : assertMaps sorted = .ok L := h
    have h1 := sortSlice_perm _ _ _ hs
    rw [assertMaps_ok _ _ h'] at h1
    have := h1.map unwrap
    rwa [map_unwrap_object, map_unwrap_object] at this

/-! ## The flattened list is a permutation of the records -/

theorem concatM_perm {κ : Type} (f : κ → Except Failure (List Answers)) (g : κ → List Answers)
    (ks : List κ) (h : ∀ a ∈ ks, ∀ x, f a = .ok x → x.Perm (g a)) (L : List Answers)
    (hL : concatM f ks = .ok L) : L.Perm (ks.flatMap g) := by
  induction ks generalizing L with
  | nil => rw [concatM_nil_ok _ _ hL]; simp
  | cons a ks ih =>
    obtain ⟨x, y, hx, hy, rfl⟩ := concatM_cons_ok _ _ _ _ hL
    rw [List.flatMap_cons]
    exact List.Perm.append (h a (List.mem_cons_self _ _) x hx)
      (ih (fun b hb => h b (List.mem_cons_of_mem _ hb)) y hy)

theorem bucket_cons (path : Answers → List String) (a : String) (r : Answers)
    (recs : List Answers) :
    bucket path a (r :: recs) =
      if headLabel path r = a then r :: bucket path a recs else bucket path a recs := by
  by_cases h : headLabel path r = a <;> simp [bucket, List.filter_cons, h]

theorem bind_bucket_cons (path : Answers → List String) (r : Answers) (recs : List Answers)
    (ks : List String) (hnd : ks.Nodup) (hr : headLabel path r ∈ ks) :
    (ks.flatMap (fun a => bucket path a (r :: recs))).Perm (r :: ks.flatMap (fun a => bucket path a recs)) := by
  induction ks with
  | nil => simp at hr
  | cons k ks ih =>
    rw [List.nodup_cons] at hnd
    rw [List.flatMap_cons, List.flatMap_cons, bucket_cons]
    by_cases hk : headLabel path r = k
    · have hrest : ∀ a ∈ ks, bucket path a (r :: recs) = bucket path a recs := by
        intro a ha
        rw [bucket_cons]
        have : ¬ headLabel path r = a := fun e => hnd.1 (by rw [← hk, e]; exact ha)
        simp [this]
      rw [List.flatMap_congr hrest]
      simp [hk]
    · have hr' : headLabel path r ∈ ks := by
        rcases List.mem_cons.1 hr with e | e
        · exact absurd e hk
        · exact e
      simp only [hk, if_false]
      exact (List.Perm.append_left _ (ih hnd.2 hr')).trans List.perm_middle

theorem bind_bucket_perm (path : Answers → List String) (recs : List Answers) (ks : List String)
    (hnd : ks.Nodup) (hall : ∀ r ∈ recs, headLabel path r ∈ ks) :
    (ks.flatMap (fun a => bucket path a recs)).Perm recs := by
  induction recs with
  | nil =>
    have : ks.flatMap (fun a => bucket path a []) = [] := by
      simp [bucket]
    rw [this]
  | cons r recs ih =>
    refine (bind_bucket_cons path r recs ks hnd (hall r (List.mem_cons_self _ _))).trans ?_
    exact List.Perm.cons r (ih (fun r' hr' => hall r' (List.mem_cons_of_mem _ hr')))

theorem labels_nodup (path : Answers → List String) (recs : List Answers) :
    (sortStrings (firsts (recs.map (headLabel path)))).Nodup :=
  (sortStrings_perm _).nodup_iff.2 (firsts_nodup _)

theorem mem_labels (path : Answers → List String) (recs : List Answers) (a : String) :
    a ∈ sortStrings (firsts (recs.map (headLabel path))) ↔ ∃ r ∈ recs, headLabel path r = a := by
  rw [mem_sortStrings, mem_firsts, List.mem_map]

theorem flatSpec_perm (n : Nat) (path : Answers → List String) (recs L : List Answers)
    (h : flatSpec n path recs = .ok L) : L.Perm recs := by
  induction n generalizing path recs L with
  | zero =>
    rw [flatSpec] at h
    refine (concatM_perm _ (fun a => bucket path a recs) _ ?_ L h).trans ?_
    · intro a _ x hx
      exact leafOrder_perm a _ x hx
    · exact bind_bucket_perm path recs _ (labels_nodup path recs)
        (fun r hr => (mem_labels path recs _).2 ⟨r, hr, rfl⟩)
  | succ n ih =>
    rw [flatSpec] at h
    refine (concatM_perm _ (fun a => bucket path a recs) _ ?_ L h).trans ?_
    · intro a _ x hx
      exact ih _ _ x hx
    · exact bind_bucket_perm path recs _ (labels_nodup path recs)
        (fun r hr => (mem_labels path recs _).2 ⟨r, hr, rfl⟩)

/-! ## The flattened list is ordered by bucket path -/

theorem concatM_pairwise {κ : Type} (f : κ → Except Failure (List Answers))
    (R : Answers → Answers → Prop) (S : κ → κ → Prop) (ks : List κ) (hks : ks.Pairwise S)
    (hin : ∀ a ∈ ks, ∀ x, f a = .ok x → x.Pairwise R)
    (hcross : ∀ a b, S a b → ∀ x y, f a = .ok x → f b = .ok y → ∀ u ∈ x, ∀ v ∈ y, R u v)
    (L : List Answers) (hL : concatM f ks = .ok L) :
    L.Pairwise R ∧ ∀ u ∈ L, ∃ a ∈ ks, ∃ x, f a = .ok x ∧ u ∈ x := by
  induction ks generalizing L with
  | nil => rw [concatM_nil_ok _ _ hL]; simp
  | cons a ks ih =>
    obtain ⟨x, y, hx, hy, rfl⟩ := concatM_cons_ok _ _ _ _ hL
    rw [List.pairwise_cons] at hks
    obtain ⟨hy1, hy2⟩ := ih hks.2 (fun b hb => hin b (List.mem_cons_of_mem _ hb)) y hy
    constructor
    · rw [List.pairwise_append]
      refine ⟨hin a (List.mem_cons_self _ _) x hx, hy1, ?_⟩
      intro u hu v hv
      obtain ⟨b, hb, z, hz, hvz⟩ := hy2 v hv
      exact hcross a b (hks.1 b hb) x z hx hz u hu v hvz
    · intro u hu
      rcases List.mem_append.1 hu with e | e
      · exact ⟨a, List.mem_cons_self _ _, x, hx, e⟩
      · obtain ⟨b, hb, z, hz, hvz⟩ := hy2 u e
        exact ⟨b, List.mem_cons_of_mem _ hb, z, hz, hvz⟩

theorem mem_bucket (path : Answers → List String) (a : String) (recs : List Answers)
    (r : Answers) : r ∈ bucket path a recs ↔ r ∈ recs ∧ headLabel path r = a := by
  simp [bucket]

theorem pathLt_of_heads (path : Answers → List String) (u v : Answers)
    (h : pathLt (path v) (path u)) :
    strLess (headLabel path v) (headLabel path u) = true ∨
      (headLabel path v = headLabel path u ∧ pathLt (path v).tail (path u).tail) := by
  unfold headLabel
  cases hv : path v with
  | nil => rw [hv] at h; simp [pathLt] at h
  | cons b q =>
    cases hu : path u with
    | nil => rw [hv, hu] at h; simp [pathLt] at h
    | cons a p =>
      rw [hv, hu] at h
      simpa [pathLt] using h

theorem strLess_asymm (a b : String) (h : strLess a b = true) : strLess b a = false := by
  cases h' : strLess b a with
  | false => rfl
  | true => exact absurd ((strLess_iff _ _).1 h) (lt_asymm ((strLess_iff _ _).1 h'))

theorem pathLt_nil_right (P : List String) : ¬ pathLt P [] := by
  cases P <;> simp [pathLt]

theorem cross_buckets (path : Answers → List String) (recs : List Answers)
    (f : String → Except Failure (List Answers))
    (hf : ∀ a x, f a = .ok x → x.Perm (bucket path a recs))
    (a b : String) (hab : strLess a b = true) (x y : List Answers)
    (hx : f a = .ok x) (hy : f b = .ok y) :
    ∀ u ∈ x, ∀ v ∈ y, ¬ pathLt (path v) (path u) := by
  intro u hu v hv hlt
  have hu' := ((mem_bucket path a recs u).1 ((hf a x hx).mem_iff.1 hu)).2
  have hv' := ((mem_bucket path b recs v).1 ((hf b y hy).mem_iff.1 hv)).2
  rcases pathLt_of_heads path u v hlt with e | e
  · rw [hu', hv', strLess_asymm a b hab] at e
    cases e
  · rw [hu', hv'] at e
    rw [e.1, strLess_irrefl] at hab
    cases hab

theorem flatSpec_sorted (n : Nat) (path : Answers → List String) (recs L : List Answers)
    (hlen : ∀ r ∈ recs, (path r).length = n + 1)
    (h : flatSpec n path recs = .ok L) :
    L.Pairwise (fun x y => ¬ pathLt (path y) (path x)) := by
  induction n generalizing path recs L with
  | zero =>
    rw [flatSpec] at h
    refine (concatM_pairwise _ _ (fun a b => strLess a b = true) _
      (sortStrings_strict _ (firsts_nodup _)) ?_
      (cross_buckets path recs _ (fun a x hx => leafOrder_perm a _ x hx)) L h).1
    intro a _ x hx
    have hperm := leafOrder_perm a _ x hx
    apply List.pairwise_of_forall_mem_list
    intro u hu v hv hlt
    have hu' := (mem_bucket path a recs u).1 (hperm.mem_iff.1 hu)
    have hv' := (mem_bucket path a recs v).1 (hperm.mem_iff.1 hv)
    rcases pathLt_of_heads path u v hlt with e | e
    · rw [hu'.2, hv'.2, strLess_irrefl] at e
      cases e
    · have : (path u).tail = [] := by
        apply List.length_eq_zero.1
        rw [List.length_tail, hlen u hu'.1]
      rw [this] at e
      exact pathLt_nil_right _ e.2
  | succ n ih =>
    rw [flatSpec] at h
    refine (concatM_pairwise _ _ (fun a b => strLess a b = true) _
      (sortStrings_strict _ (firsts_nodup _)) ?_
      (cross_buckets path recs _ (fun a x hx => flatSpec_perm _ _ _ x hx)) L h).1
    intro a _ x hx
    have hperm := flatSpec_perm _ _ _ x hx
    have hsub : ∀ r ∈ bucket path a recs, ((fun r => (path r).tail) r).length = n + 1 := by
      intro r hr
      have := hlen r ((mem_bucket path a recs r).1 hr).1
      simp only [List.length_tail, this]
      omega
    have hih := ih (fun r => (path r).tail) (bucket path a recs) x hsub hx
    refine hih.imp_of_mem ?_
    intro u v hu hv hnot hlt
    have hu' := (mem_bucket path a recs u).1 (hperm.mem_iff.1 hu)
    have hv' := (mem_bucket path a recs v).1 (hperm.mem_iff.1 hv)
    rcases pathLt_of_heads path u v hlt with e | e
    · rw [hu'.2, hv'.2, strLess_irrefl] at e
      cases e
    · exact hnot e.2

/-! ## From paths given level by level to the path order -/

theorem pathLt_irrefl (P : List String) : ¬ pathLt P P := by
  induction P with
  | nil => simp [pathLt]
  | cons a P ih => simp [pathLt, strLess_irrefl, ih]

theorem pathLt_of_levels (P Q : List String) (hlen : P.length = Q.length) (k : Nat)
    (hpre : ∀ m, m < k → P.getD m "" = Q.getD m "")
    (hlt : strLess (P.getD k "") (Q.getD k "") = true) : pathLt P Q := by
  induction P generalizing Q k with
  | nil =>
    have hQ : Q = [] := List.length_eq_zero.1 hlen.symm
    subst hQ
    simp [strLess_irrefl] at hlt
  | cons a P ih =>
    cases Q with
    | nil => simp at hlen
    | cons b Q =>
      cases k with
      | zero => exact Or.inl (by simpa using hlt)
      | succ k =>
        refine Or.inr ⟨by simpa using hpre 0 (Nat.succ_pos k), ?_⟩
        refine ih Q (by simpa using hlen) k ?_ (by simpa using hlt)
        intro m hm
        simpa using hpre (m + 1) (Nat.succ_lt_succ hm)

theorem before_of_sorted (L : List Answers) (path : Answers → List String)
    (hs : L.Pairwise (fun x y => ¬ pathLt (path y) (path x)))
    (i j : Nat) (hi : i < L.length) (hj : j < L.length)
    (hlt : pathLt (path (L.get ⟨i, hi⟩)) (path (L.get ⟨j, hj⟩))) : i < j := by
  by_contra hij
  rcases Nat.lt_or_ge j i with h | h
  · exact List.pairwise_iff_get.1 hs ⟨j, hj⟩ ⟨i, hi⟩ h hlt
  · have : i = j := by omega
    subst this
    exact pathLt_irrefl _ hlt

theorem records_length (p : ProjectList) (r : Answers) :
    (keyValues p.groupByKeys r).length = (p.groupByKeys.length - 1) + 1 ∨ p.groupByKeys = [] := by
  cases h : p.groupByKeys with
  | nil => exact Or.inr rfl
  | cons a l => left; simp [keyValues]

/-- The flattened list of a project list with grouping keys: a permutation of
the records, ordered by bucket path. -/
theorem getAll_sorted_perm (p : ProjectList) (L : List Answers) (hc : p.Coherent)
    (hk : p.groupByKeys ≠ []) (h : p.GetAll.map (fun o => o.val) = .ok L) :
    L.Perm p.records ∧
      L.Pairwise (fun x y =>
        ¬ pathLt (keyValues p.groupByKeys y) (keyValues p.groupByKeys x)) := by
  by_cases hp : p.projects = []
  · have : L = [] := by
      simp only [ProjectList.GetAll, ProjectList.Length, hp, List.length_nil, if_true, pure,
        Except.pure, Except.map, Except.ok.injEq] at h
      exact h.symm
    subst this
    simp [ProjectList.records, hp]
  · rw [GetAll_val p hc hk hp] at h
    refine ⟨flatSpec_perm _ _ _ _ h, flatSpec_sorted _ _ _ _ ?_ h⟩
    intro r _
    rcases records_length p r with e | e
    · exact e
    · exact absurd e hk

/-! ## The leaves of the container -/

theorem filter_path_cons (path : Answers → List String) (a : String) (P : List String)
    (recs : List Answers) (hlen : ∀ r ∈ recs, (path r) ≠ []) :
    (bucket path a recs).filter (fun r => (path r).tail = P) =
      recs.filter (fun r => path r = a :: P) := by
  unfold bucket
  rw [List.filter_filter]
  apply List.filter_congr
  intro r hr
  have hne := hlen r hr
  cases hp : path r with
  | nil => exact absurd hp hne
  | cons b Q =>
    simp only [headLabel, hp, List.headD_cons, List.tail_cons, List.cons.injEq]
    by_cases h1 : Q = P <;> by_cases h2 : b = a <;> simp [h1, h2]

theorem search_trieSpec (n : Nat) (path : Answers → List String) (recs : List Answers)
    (hlen : ∀ r ∈ recs, (path r).length = n + 1) (P : List String) (hP : P.length = n + 1) :
    gabs.Search (trieSpec (n + 1) path recs) P =
      if (recs.filter (fun r => path r = P)).isEmpty then .null
      else .array ((recs.filter (fun r => path r = P)).map Value.object) := by
  induction n generalizing path recs P with
  | zero =>
    obtain ⟨a, rfl⟩ : ∃ a, P = [a] := List.length_eq_one.1 hP
    have hne : ∀ r ∈ recs, path r ≠ [] := fun r hr e => by
      have := hlen r hr
      rw [e] at this
      simp at this
    have hf := filter_path_cons path a [] recs hne
    have hb : (bucket path a recs).filter (fun r => (path r).tail = []) = bucket path a recs := by
      apply List.filter_eq_self.2
      intro r hr
      have := hlen r ((mem_bucket path a recs r).1 hr).1
      simp only [decide_eq_true_eq]
      apply List.length_eq_zero.1
      rw [List.length_tail, this]
    rw [hb] at hf
    rw [trieSpec, search_object_cons, search_nil, mapGet, mapLookup_map]
    simp only [mem_firsts, ← hf]
    by_cases hmem : a ∈ recs.map (headLabel path)
    · obtain ⟨r, hr, hra⟩ := List.mem_map.1 hmem
      have hbne : (bucket path a recs).isEmpty = false := by
        cases hb' : bucket path a recs with
        | nil =>
          have := (mem_bucket path a recs r).2 ⟨hr, hra⟩
          rw [hb'] at this
          cases this
        | cons x xs => rfl
      simp [hmem, hbne, trieSpec]
    · simp [hmem, bucket_eq_nil path a recs hmem]
  | succ n ih =>
    obtain ⟨a, P', rfl⟩ : ∃ a P', P = a :: P' := by
      cases P with
      | nil => simp at hP
      | cons a P' => exact ⟨a, P', rfl⟩
    have hne : ∀ r ∈ recs, path r ≠ [] := fun r hr e => by
      have := hlen r hr
      rw [e] at this
      simp at this
    have hf := filter_path_cons path a P' recs hne
    rw [trieSpec, search_object_cons, mapGet, mapLookup_map]
    simp only [mem_firsts, ← hf]
    by_cases hmem : a ∈ recs.map (headLabel path)
    · simp only [hmem, if_true, Option.getD_some]
      apply ih
      · intro r hr
        have := hlen r ((mem_bucket path a recs r).1 hr).1
        simp only [List.length_tail, this]
        omega
      · simpa using hP
    · simp [hmem, bucket_eq_nil path a recs hmem, search_null]


/-! ## The order inside one leaf -/

theorem foldlM_insertLeft_of_never_less (less : Value → Value → Except Failure Bool)
    (S : Value → Prop) (hS : ∀ x y, S x → S y → less x y = .ok false) (data : List Value) :
    ∀ (acc : List Value), (∀ x ∈ data, S x) → (∀ y ∈ acc, S y) →
      data.foldlM (fun sortedRev x => insertLeft less x sortedRev) acc =
        .ok (data.reverse ++ acc) := by
  induction data with
  | nil => intro acc _ _; rfl
  | cons x data ih =>
    intro acc hd ha
    rw [List.foldlM_cons]
    have hx : insertLeft less x acc = .ok (x :: acc) := by
      cases acc with
      | nil => rfl
      | cons y ys =>
        simp only [insertLeft, hS x y (hd x (List.mem_cons_self _ _)) (ha y (List.mem_cons_self _ _)),
          bind, Except.bind, Bool.false_eq_true, if_false, pure, Except.pure]
    rw [hx]
    simp only [bind, Except.bind]
    rw [ih (x :: acc) (fun z hz => hd z (List.mem_cons_of_mem _ hz))]
    · simp
    · intro y hy
      rcases List.mem_cons.1 hy with e | e
      · rw [e]; exact hd x (List.mem_cons_self _ _)
      · exact ha y e

theorem sortSlice_of_never_less (less : Value → Value → Except Failure Bool) (data : List Value)
    (h : ∀ x ∈ data, ∀ y ∈ data, less x y = .ok false) : sortSlice less data = .ok data := by
  unfold sortSlice
  rw [foldlM_insertLeft_of_never_less less (fun x => x ∈ data) (fun x y hx hy => h x hx y hy) data
    [] (fun x hx => hx) (fun y hy => by cases hy)]
  simp [bind, Except.bind, pure, Except.pure]

theorem assertMaps_map_object (recs : List Answers) :
    assertMaps (recs.map Value.object) = .ok recs := by
  unfold assertMaps
  induction recs with
  | nil => rfl
  | cons r recs ih =>
    rw [List.map_cons, concatM, ih]
    rfl

theorem leafOrder_of_nil_values (groupKey : String) (recs : List Answers)
    (h : ∀ r ∈ recs, (mapGet r groupKey).isNil = true) : leafOrder groupKey recs = .ok recs := by
  unfold leafOrder
  rw [sortSlice_of_never_less]
  · exact assertMaps_map_object recs
  · intro x hx y _
    obtain ⟨r, hr, rfl⟩ := List.mem_map.1 hx
    cases y with
    | object m =>
      simp [leafLess, assertMap, bind, Except.bind, h r hr, pure, Except.pure]
    | null => simp at *
    | str s => simp at *
    | int n => simp at *
    | bool b => simp at *
    | other t => simp at *
    | array items => simp at *
    | maps items => simp at *

theorem leafOrder_nil (groupKey : String) : leafOrder groupKey [] = .ok [] := rfl

theorem concatM_filter (f : String → Except Failure (List Answers)) (q : Answers → Bool)
    (ks : List String) (L : List Answers) (hL : concatM f ks = .ok L) (a : String)
    (hnd : ks.Nodup)
    (hother : ∀ b ∈ ks, b ≠ a → ∀ x, f b = .ok x → x.filter q = []) :
    (a ∈ ks → ∃ x, f a = .ok x ∧ L.filter q = x.filter q) ∧ (a ∉ ks → L.filter q = []) := by
  induction ks generalizing L with
  | nil =>
    rw [concatM_nil_ok _ _ hL]
    simp
  | cons k ks ih =>
    obtain ⟨x, y, hx, hy, rfl⟩ := concatM_cons_ok _ _ _ _ hL
    rw [List.nodup_cons] at hnd
    obtain ⟨ih1, ih2⟩ := ih y hy hnd.2 (fun b hb => hother b (List.mem_cons_of_mem _ hb))
    by_cases hka : k = a
    · subst hka
      constructor
      · intro _
        exact ⟨x, hx, by rw [List.filter_append, ih2 hnd.1, List.append_nil]⟩
      · intro hnot
        exact absurd (List.mem_cons_self _ _) hnot
    · have hxq := hother k (List.mem_cons_self _ _) hka x hx
      constructor
      · intro hmem
        have hmem' : a ∈ ks := by
          rcases List.mem_cons.1 hmem with e | e
          · exact absurd e.symm hka
          · exact e
        obtain ⟨z, hz, hzq⟩ := ih1 hmem'
        exact ⟨z, hz, by rw [List.filter_append, hxq, List.nil_append, hzq]⟩
      · intro hnot
        have hnot' : a ∉ ks := fun e => hnot (List.mem_cons_of_mem _ e)
        rw [List.filter_append, hxq, ih2 hnot', List.append_nil]

theorem flatSpec_filter (n : Nat) (path : Answers → List String) (recs L : List Answers)
    (hlen : ∀ r ∈ recs, (path r).length = n + 1) (h : flatSpec n path recs = .ok L)
    (P : List String) (hP : P.length = n + 1) :
    leafOrder (P.getLastD "") (recs.filter (fun r => path r = P)) =
      .ok (L.filter (fun r => path r = P)) := by
  have hne : ∀ r ∈ recs, path r ≠ [] := fun r hr e => by
    have := hlen r hr
    rw [e] at this
    simp at this
  induction n generalizing path recs L P with
  | zero =>
    obtain ⟨a, rfl⟩ : ∃ a, P = [a] := List.length_eq_one.1 hP
    have hf := filter_path_cons path a [] recs hne
    have hb : (bucket path a recs).filter (fun r => (path r).tail = []) = bucket path a recs := by
      apply List.filter_eq_self.2
      intro r hr
      have := hlen r ((mem_bucket path a recs r).1 hr).1
      simp only [decide_eq_true_eq]
      apply List.length_eq_zero.1
      rw [List.length_tail, this]
    rw [hb] at hf
    rw [flatSpec] at h
    obtain ⟨h1, h2⟩ := concatM_filter _ (fun r => decide (path r = [a])) _ L h a
      (labels_nodup path recs) (by
        intro b _ hba x hx
        apply List.filter_eq_nil_iff.2
        intro u hu
        have := ((mem_bucket path b recs u).1 ((leafOrder_perm b _ x hx).mem_iff.1 hu)).2
        simp only [decide_eq_true_eq]
        intro e
        apply hba
        rw [← this, headLabel, e]
        rfl)
    rw [← hf]
    simp only [List.getLastD_cons, List.getLastD_nil]
    by_cases hmem : a ∈ sortStrings (firsts (recs.map (headLabel path)))
    · obtain ⟨x, hx, hxq⟩ := h1 hmem
      have hxall : x.filter (fun r => decide (path r = [a])) = x := by
        apply List.filter_eq_self.2
        intro u hu
        have hu' := (leafOrder_perm a _ x hx).mem_iff.1 hu
        rw [hf] at hu'
        simpa using (List.mem_filter.1 hu').2
      rw [hxq, hxall, hx]
    · have hnone : a ∉ recs.map (headLabel path) := fun e =>
        hmem ((mem_sortStrings _ _).2 ((mem_firsts _ _).2 e))
      rw [h2 hmem, bucket_eq_nil path a recs hnone]
      rfl
  | succ n ih =>
    obtain ⟨a, P', rfl⟩ : ∃ a P', P = a :: P' := by
      cases P with
      | nil => simp at hP
      | cons a P' => exact ⟨a, P', rfl⟩
    have hP' : P'.length = n + 1 := by simpa using hP
    have hP'ne : P' ≠ [] := fun e => by rw [e] at hP'; simp at hP'
    have hlast : (a :: P').getLastD "" = P'.getLastD "" := by
      cases P' with
      | nil => exact absurd rfl hP'ne
      | cons b Q => simp [List.getLastD]
    have hf := filter_path_cons path a P' recs hne
    rw [flatSpec] at h
    obtain ⟨h1, h2⟩ := concatM_filter _ (fun r => decide (path r = a :: P')) _ L h a
      (labels_nodup path recs) (by
        intro b _ hba x hx
        apply List.filter_eq_nil_iff.2
        intro u hu
        have := ((mem_bucket path b recs u).1 ((flatSpec_perm _ _ _ x hx).mem_iff.1 hu)).2
        simp only [decide_eq_true_eq]
        intro e
        apply hba
        rw [← this, headLabel, e]
        rfl)
    rw [← hf, hlast]
    by_cases hmem : a ∈ sortStrings (firsts (recs.map (headLabel path)))
    · obtain ⟨x, hx, hxq⟩ := h1 hmem
      have hsub : ∀ r ∈ bucket path a recs, ((fun r => (path r).tail) r).length = n + 1 := by
        intro r hr
        have := hlen r ((mem_bucket path a recs r).1 hr).1
        simp only [List.length_tail, this]
        omega
      have hsubne : ∀ r ∈ bucket path a recs, (fun r => (path r).tail) r ≠ [] := by
        intro r hr e
        have := hsub r hr
        rw [e] at this
        simp at this
      have hih := ih (fun r => (path r).tail) (bucket path a recs) x hsub hx P' hP' hsubne
      have hxf : x.filter (fun r => decide (path r = a :: P')) =
          x.filter (fun r => decide ((path r).tail = P')) := by
        apply List.filter_congr
        intro u hu
        have hu' := (mem_bucket path a recs u).1 ((flatSpec_perm _ _ _ x hx).mem_iff.1 hu)
        have hune := hne u hu'.1
        cases hp : path u with
        | nil => exact absurd hp hune
        | cons b Q =>
          have hb : b = a := by simpa [headLabel, hp] using hu'.2
          simp [hb]
      rw [hxq, hxf]
      exact hih
    · have hnone : a ∉ recs.map (headLabel path) := fun e =>
        hmem ((mem_sortStrings _ _).2 ((mem_firsts _ _).2 e))
      rw [h2 hmem, bucket_eq_nil path a recs hnone]
      rfl

/-- The records of the flattened list that have the bucket path `P` are the
stored records with that path, in the order in which their leaf is emitted. -/
theorem getAll_filter_path (p : ProjectList) (L : List Answers) (hc : p.Coherent)
    (hk : p.groupByKeys ≠ []) (h : p.GetAll.map (fun o => o.val) = .ok L) (P : List String) :
    leafOrder (P.getLastD "") (p.records.filter (fun r => keyValues p.groupByKeys r = P)) =
      .ok (L.filter (fun r => keyValues p.groupByKeys r = P)) := by
  by_cases hp : p.projects = []
  · have : L = [] := by
      simp only [ProjectList.GetAll, ProjectList.Length, hp, List.length_nil, if_true, pure,
        Except.pure, Except.map, Except.ok.injEq] at h
      exact h.symm
    subst this
    simp only [ProjectList.records, hp, List.map_nil, List.filter_nil]
    rfl
  · rw [GetAll_val p hc hk hp] at h
    have hlen : ∀ r ∈ p.records,
        (keyValues p.groupByKeys r).length = (p.groupByKeys.length - 1) + 1 := by
      intro r _
      rcases records_length p r with e | e
      · exact e
      · exact absurd e hk
    by_cases hP : P.length = (p.groupByKeys.length - 1) + 1
    · exact flatSpec_filter _ _ _ _ hlen h P hP
    · have h1 : p.records.filter (fun r => keyValues p.groupByKeys r = P) = [] := by
        apply List.filter_eq_nil_iff.2
        intro r hr
        simp only [decide_eq_true_eq]
        intro e
        exact hP (by rw [← e]; exact hlen r hr)
      have h2 : L.filter (fun r => keyValues p.groupByKeys r = P) = [] := by
        apply List.filter_eq_nil_iff.2
        intro r hr
        simp only [decide_eq_true_eq]
        intro e
        exact hP (by rw [← e]; exact hlen r ((flatSpec_perm _ _ _ _ h).mem_iff.1 hr))
      rw [h1, h2]
      rfl


/-! ## GetAll returns when the answers are strings -/

theorem insertLeft_total (less : Value → Value → Except Failure Bool) (S : Value → Prop)
    (hS : ∀ x y, S x → S y → ∃ b, less x y = .ok b) (x : Value) (hx : S x) (ys : List Value)
    (hys : ∀ y ∈ ys, S y) : ∃ zs, insertLeft less x ys = .ok zs := by
  induction ys with
  | nil => exact ⟨[x], rfl⟩
  | cons y ys ih =>
    obtain ⟨b, hb⟩ := hS x y hx (hys y (List.mem_cons_self _ _))
    obtain ⟨zs, hzs⟩ := ih (fun z hz => hys z (List.mem_cons_of_mem _ hz))
    cases b with
    | false => exact ⟨x :: y :: ys, by simp [insertLeft, hb, bind, Except.bind, pure, Except.pure]⟩
    | true => exact ⟨y :: zs, by simp [insertLeft, hb, hzs, bind, Except.bind, pure, Except.pure]⟩

theorem foldlM_insertLeft_total (less : Value → Value → Except Failure Bool) (S : Value → Prop)
    (hS : ∀ x y, S x → S y → ∃ b, less x y = .ok b) (data : List Value) :
    ∀ (acc : List Value), (∀ x ∈ data, S x) → (∀ y ∈ acc, S y) →
      ∃ out, data.foldlM (fun sortedRev x => insertLeft less x sortedRev) acc = .ok out := by
  induction data with
  | nil => intro acc _ _; exact ⟨acc, rfl⟩
  | cons x data ih =>
    intro acc hd ha
    obtain ⟨zs, hzs⟩ := insertLeft_total less S hS x (hd x (List.mem_cons_self _ _)) acc ha
    rw [List.foldlM_cons, hzs]
    apply ih zs (fun z hz => hd z (List.mem_cons_of_mem _ hz))
    intro y hy
    rcases List.mem_cons.1 ((insertLeft_perm less x acc zs hzs).mem_iff.1 hy) with e | e
    · rw [e]; exact hd x (List.mem_cons_self _ _)
    · exact ha y e

theorem sortSlice_total (less : Value → Value → Except Failure Bool) (S : Value → Prop)
    (hS : ∀ x y, S x → S y → ∃ b, less x y = .ok b) (data : List Value)
    (hd : ∀ x ∈ data, S x) : ∃ out, sortSlice less data = .ok out := by
  obtain ⟨out, hout⟩ := foldlM_insertLeft_total less S hS data [] hd (fun y hy => by cases hy)
  exact ⟨out.reverse, by simp [sortSlice, hout, bind, Except.bind, pure, Except.pure]⟩

theorem leafLess_total (groupKey : String) (x y : Answers)
    (hx : (mapGet x groupKey).isText = true) (hy : (mapGet y groupKey).isText = true) :
    ∃ b, leafLess groupKey (.object x) (.object y) = .ok b := by
  unfold leafLess
  simp only [assertMap, bind, Except.bind]
  cases hvx : mapGet x groupKey <;> rw [hvx] at hx <;>
    cases hvy : mapGet y groupKey <;> rw [hvy] at hy <;>
    simp_all [Value.isText, Value.isNil, assertString, pure, Except.pure]

theorem leafOrder_total (groupKey : String) (recs : List Answers)
    (h : ∀ r ∈ recs, (mapGet r groupKey).isText = true) :
    ∃ L, leafOrder groupKey recs = .ok L := by
  obtain ⟨out, hout⟩ := sortSlice_total (leafLess groupKey)
    (fun v => ∃ r, v = .object r ∧ (mapGet r groupKey).isText = true)
    (by
      rintro x y ⟨rx, rfl, hx⟩ ⟨ry, rfl, hy⟩
      exact leafLess_total groupKey rx ry hx hy)
    (recs.map Value.object)
    (by
      intro v hv
      obtain ⟨r, hr, rfl⟩ := List.mem_map.1 hv
      exact ⟨r, rfl, h r hr⟩)
  have hperm := sortSlice_perm _ _ _ hout
  obtain ⟨L, hL⟩ : ∃ L : List Answers, out = L.map Value.object := by
    refine ⟨out.map unwrap, ?_⟩
    rw [List.map_map]
    symm
    conv_rhs => rw [← List.map_id out]
    apply List.map_congr_left
    intro v hv
    obtain ⟨r, _, rfl⟩ := List.mem_map.1 (hperm.mem_iff.1 hv)
    rfl
  refine ⟨L, ?_⟩
  unfold leafOrder
  rw [hout, hL]
  exact assertMaps_map_object L

theorem concatM_total {κ : Type} (f : κ → Except Failure (List Answers)) (ks : List κ)
    (h : ∀ a ∈ ks, ∃ x, f a = .ok x) : ∃ L, concatM f ks = .ok L := by
  induction ks with
  | nil => exact ⟨[], rfl⟩
  | cons a ks ih =>
    obtain ⟨x, hx⟩ := h a (List.mem_cons_self _ _)
    obtain ⟨y, hy⟩ := ih (fun b hb => h b (List.mem_cons_of_mem _ hb))
    exact ⟨x ++ y, by simp [concatM, hx, hy, bind, Except.bind, pure, Except.pure]⟩

theorem flatSpec_total (n : Nat) (path : Answers → List String) (recs : List Answers)
    (h : ∀ r ∈ recs, ∀ k, (mapGet r k).isText = true) : ∃ L, flatSpec n path recs = .ok L := by
  induction n generalizing path recs with
  | zero =>
    rw [flatSpec]
    apply concatM_total
    intro a _
    exact leafOrder_total a _ (fun r hr => h r ((mem_bucket path a recs r).1 hr).1 a)
  | succ n ih =>
    rw [flatSpec]
    apply concatM_total
    intro a _
    exact ih _ _ (fun r hr => h r ((mem_bucket path a recs r).1 hr).1)

/-- With grouping keys, GetAll returns a list whenever every answer of every
stored project is a string or nil. -/
theorem getAll_returns_of_text_answers (p : ProjectList) (hc : p.Coherent)
    (hk : p.groupByKeys ≠ [])
    (h : ∀ project ∈ p.projects, ∀ k, (mapGet project.Answers k).isText = true) :
    ∃ L, p.GetAll.map (fun o => o.val) = .ok L := by
  by_cases hp : p.projects = []
  · exact ⟨[], by simp [ProjectList.GetAll, ProjectList.Length, hp, pure, Except.pure,
      Except.map]⟩
  · rw [GetAll_val p hc hk hp]
    apply flatSpec_total
    intro r hr
    obtain ⟨project, hproject, rfl⟩ := List.mem_map.1 hr
    exact h project hproject

/-! ## initGroups, GetAll and GetIndex -/

theorem initGroups_empty_keys (p : ProjectList) (hk : p.groupByKeys = []) :
    p.initGroups.map (fun r => r.1.groupedAnswersList) = .ok [] := by
  rw [initGroups_unfold]
  simp only [ProjectList.groupProjectAnswers, hk, List.length_nil, gt_iff_lt, lt_self_iff_false,
    if_false]
  simp [gabs.Set, gabs.New, Value.isNil, mapGet, mapLookup, mapSet, Value.nesting, nestingFields,
    ProjectList.recursivePopulateGroupListAndTree, gabs.ChildrenMap, sortStrings, insertString,
    bind, Except.bind, pure, Except.pure, Except.map]

theorem initGroups_projects (p q : ProjectList) (out : List Output)
    (h : p.initGroups = .ok (q, out)) : q.projects = p.projects := by
  rw [initGroups_unfold] at h
  cases hr : (ProjectList.mk p.projects p.groupByKeys p.hiddenKeys gabs.New []
      (some treeprint.New) p.noColor).groupProjectAnswers.recursivePopulateGroupListAndTree
        ((ProjectList.mk p.projects p.groupByKeys p.hiddenKeys gabs.New []
          (some treeprint.New) p.noColor).groupProjectAnswers.groupedAnswers.nesting + 1) 0
        (ProjectList.mk p.projects p.groupByKeys p.hiddenKeys gabs.New []
          (some treeprint.New) p.noColor).groupProjectAnswers.groupedAnswers
        { groupedAnswersList := (ProjectList.mk p.projects p.groupByKeys p.hiddenKeys gabs.New []
            (some treeprint.New) p.noColor).groupProjectAnswers.groupedAnswersList,
          nodes := [], stdout := [] } with
  | error e => rw [hr] at h; cases h
  | ok w =>
    rw [hr] at h
    simp only [bind, Except.bind, pure, Except.pure, Except.ok.injEq, Prod.mk.injEq] at h
    rw [← h.1]
    simp only [ProjectList.groupProjectAnswers]
    split <;> rfl

/-- GetIndex in terms of GetAll, on a store that is not empty. -/
theorem getIndex_via_getAll (p : ProjectList) (hp : p.Length ≠ 0) (i : Int) :
    p.GetIndex i =
      p.GetAll >>= fun o =>
        if i < 0 ∨ i ≥ (o.self.projects.length : Int) then
          pure { val := .error (.ProjectListIndexInvalidError
                   ("Selected index (" ++ toString (wrapInt64 (i + 1)) ++
                    ") is invalid. Must be between 1-" ++ toString o.self.Length)),
                 self := o.self, stdout := o.stdout }
        else
          match o.val.get? i.toNat with
          | some answer => pure { val := .ok answer, self := o.self, stdout := o.stdout }
          | none => .error (.panic "index out of range") := by
  unfold ProjectList.GetIndex ProjectList.GetAll
  simp only [hp, if_false]
  by_cases hcache : p.groupedAnswersList.length = 0
  · simp only [hcache, if_true]
    cases p.initGroups with
    | error e => rfl
    | ok r => rfl
  · simp only [hcache, if_false]
    rfl

theorem getAll_self_projects (p : ProjectList) (o : Outcome (List Answers))
    (h : p.GetAll = .ok o) : o.self.projects = p.projects := by
  unfold ProjectList.GetAll at h
  by_cases hlen : p.Length = 0
  · simp only [hlen, if_true, pure, Except.pure, Except.ok.injEq] at h
    rw [← h]
  · by_cases hcache : p.groupedAnswersList.length = 0
    · simp only [hlen, if_false, hcache, if_true] at h
      cases hr : p.initGroups with
      | error e => rw [hr] at h; cases h
      | ok r =>
        obtain ⟨q, out⟩ := r
        rw [hr] at h
        simp only [bind, Except.bind, pure, Except.pure, Except.ok.injEq] at h
        rw [← h]
        exact initGroups_projects p q out hr
    · simp only [hlen, if_false, hcache, bind, Except.bind, pure, Except.pure,
        Except.ok.injEq] at h
      rw [← h]

/-- With grouping keys, GetIndex at an index within `[0, Length())` returns
the record at that position of the list of GetAll. -/
theorem getIndex_eq_getAll (p : ProjectList) (hc : p.Coherent) (hk : p.groupByKeys ≠ [])
    (o : Outcome (List Answers)) (h : p.GetAll = .ok o) (i : Nat) (hi : i < p.Length) :
    ∃ answer, o.val.get? i = some answer ∧
      p.GetIndex (i : Int) = .ok { val := .ok answer, self := o.self, stdout := o.stdout } := by
  have hlen : p.Length ≠ 0 := by omega
  have hperm := (getAll_sorted_perm p o.val hc hk (by rw [h]; rfl)).1
  have hl : o.val.length = p.Length := by
    rw [hperm.length_eq, ProjectList.records, List.length_map, ProjectList.Length]
  have hproj := getAll_self_projects p o h
  obtain ⟨answer, ha⟩ : ∃ answer, o.val.get? i = some answer :=
    ⟨o.val.get ⟨i, by omega⟩, List.get?_eq_get _⟩
  refine ⟨answer, ha, ?_⟩
  rw [getIndex_via_getAll p hlen, h]
  have hnot : ¬ ((i : Int) < 0 ∨ (i : Int) ≥ (o.self.projects.length : Int)) := by
    rw [hproj]
    unfold ProjectList.Length at hi
    omega
  simp only [bind, Except.bind, hnot, if_false, Int.toNat_ofNat, ha]
  rfl

/-! ## The states of a project list -/

theorem new_coherent (projects : List projectData) (groupByKeys hiddenKeys : List String) :
    (ProjectList.new projects groupByKeys hiddenKeys).Coherent :=
  Or.inl rfl

theorem initGroups_congr (p q : ProjectList) (h1 : q.projects = p.projects)
    (h2 : q.groupByKeys = p.groupByKeys) (h3 : q.hiddenKeys = p.hiddenKeys)
    (h4 : q.noColor = p.noColor) :
    q.initGroups = p.initGroups := by
  rw [initGroups_unfold, initGroups_unfold, h1, h2, h3, h4]

theorem initGroups_keys (p q : ProjectList) (out : List Output)
    (h : p.initGroups = .ok (q, out)) :
    q.groupByKeys = p.groupByKeys ∧ q.hiddenKeys = p.hiddenKeys := by
  rw [initGroups_unfold] at h
  cases hr : (ProjectList.mk p.projects p.groupByKeys p.hiddenKeys gabs.New []
      (some treeprint.New) p.noColor).groupProjectAnswers.recursivePopulateGroupListAndTree
        ((ProjectList.mk p.projects p.groupByKeys p.hiddenKeys gabs.New []
          (some treeprint.New) p.noColor).groupProjectAnswers.groupedAnswers.nesting + 1) 0
        (ProjectList.mk p.projects p.groupByKeys p.hiddenKeys gabs.New []
          (some treeprint.New) p.noColor).groupProjectAnswers.groupedAnswers
        { groupedAnswersList := (ProjectList.mk p.projects p.groupByKeys p.hiddenKeys gabs.New []
            (some treeprint.New) p.noColor).groupProjectAnswers.groupedAnswersList,
          nodes := [], stdout := [] } with
  | error e => rw [hr] at h; cases h
  | ok w =>
    rw [hr] at h
    simp only [bind, Except.bind, pure, Except.pure, Except.ok.injEq, Prod.mk.injEq] at h
    rw [← h.1]
    simp only [ProjectList.groupProjectAnswers]
    split <;> exact ⟨rfl, rfl⟩

theorem initGroups_noColor (p q : ProjectList) (out : List Output)
    (h : p.initGroups = .ok (q, out)) :
    q.noColor = p.noColor := by
  rw [initGroups_unfold] at h
  cases hr : (ProjectList.mk p.projects p.groupByKeys p.hiddenKeys gabs.New []
      (some treeprint.New) p.noColor).groupProjectAnswers.recursivePopulateGroupListAndTree
        ((ProjectList.mk p.projects p.groupByKeys p.hiddenKeys gabs.New []
          (some treeprint.New) p.noColor).groupProjectAnswers.groupedAnswers.nesting + 1) 0
        (ProjectList.mk p.projects p.groupByKeys p.hiddenKeys gabs.New []
          (some treeprint.New) p.noColor).groupProjectAnswers.groupedAnswers
        { groupedAnswersList := (ProjectList.mk p.projects p.groupByKeys p.hiddenKeys gabs.New []
            (some treeprint.New) p.noColor).groupProjectAnswers.groupedAnswersList,
          nodes := [], stdout := [] } with
  | error e => rw [hr] at h; cases h
  | ok w =>
    rw [hr] at h
    simp only [bind, Except.bind, pure, Except.pure, Except.ok.injEq, Prod.mk.injEq] at h
    rw [← h.1]
    simp only [ProjectList.groupProjectAnswers]
    split <;> rfl

/-- The receiver that GetAll leaves behind is coherent again. -/
theorem getAll_coherent (p : ProjectList) (hc : p.Coherent) (o : Outcome (List Answers))
    (h : p.GetAll = .ok o) : o.self.Coherent := by
  unfold ProjectList.GetAll at h
  by_cases hlen : p.Length = 0
  · simp only [hlen, if_true, pure, Except.pure, Except.ok.injEq] at h
    rw [← h]
    exact hc
  · by_cases hcache : p.groupedAnswersList.length = 0
    · simp only [hlen, if_false, hcache, if_true] at h
      cases hr : p.initGroups with
      | error e => rw [hr] at h; cases h
      | ok r =>
        obtain ⟨q, out⟩ := r
        rw [hr] at h
        simp only [bind, Except.bind, pure, Except.pure, Except.ok.injEq] at h
        rw [← h]
        refine Or.inr ⟨q, out, ?_, rfl⟩
        rw [initGroups_congr p q (initGroups_projects p q out hr) (initGroups_keys p q out hr).1
          (initGroups_keys p q out hr).2 (initGroups_noColor p q out hr)]
        exact hr
    · simp only [hlen, if_false, hcache, bind, Except.bind, pure, Except.pure,
        Except.ok.injEq] at h
      rw [← h]
      exact hc

theorem getAll_prepare (p : ProjectList) (hlen : p.Length ≠ 0) (q : ProjectList)
    (out : List Output)
    (h : (if p.groupedAnswersList.length = 0 then p.initGroups else pure (p, [])) = .ok (q, out)) :
    p.GetAll = .ok { val := q.groupedAnswersList, self := q, stdout := out } := by
  unfold ProjectList.GetAll
  simp only [hlen, if_false]
  rw [h]
  rfl

/-- The receiver that GetIndex leaves behind is coherent again. -/
theorem getIndex_coherent (p : ProjectList) (hc : p.Coherent) (i : Int)
    (o : Outcome (Except Error Answers)) (h : p.GetIndex i = .ok o) : o.self.Coherent := by
  by_cases hlen : p.Length = 0
  · simp only [ProjectList.GetIndex, hlen, if_true, pure, Except.pure, Except.ok.injEq] at h
    rw [← h]
    exact hc
  · rw [getIndex_via_getAll p hlen] at h
    cases hg : p.GetAll with
    | error e => rw [hg] at h; cases h
    | ok o' =>
      have hco := getAll_coherent p hc o' hg
      rw [hg] at h
      simp only [bind, Except.bind] at h
      split at h
      · simp only [pure, Except.pure, Except.ok.injEq] at h
        rw [← h]
        exact hco
      · split at h
        · simp only [pure, Except.pure, Except.ok.injEq] at h
          rw [← h]
          exact hco
        · cases h

theorem promptLoop_self (p : ProjectList) (message : String) (stdin : List String) :
    ∀ (out : List Output) (o : PromptOutcome), p.promptLoop message stdin out = .ok o →
      o.self = p := by
  induction stdin with
  | nil =>
    intro out o h
    simp only [ProjectList.promptLoop, pure, Except.pure, Except.ok.injEq] at h
    rw [← h]
  | cons line rest ih =>
    intro out o h
    rw [ProjectList.promptLoop] at h
    simp only [] at h
    split at h
    · exact ih _ o h
    · split at h
      · exact ih _ o h
      · split at h
        · simp only [pure, Except.pure, Except.ok.injEq] at h
          rw [← h]
        · cases h

/-- The receiver that Prompt leaves behind is coherent again. -/
theorem prompt_coherent (p : ProjectList) (hc : p.Coherent) (message : String)
    (stdin : List String) (o : PromptOutcome) (h : p.Prompt message stdin = .ok o) :
    o.self.Coherent := by
  unfold ProjectList.Prompt at h
  by_cases hlen : p.Length = 0
  · simp only [hlen, if_true, pure, Except.pure, Except.ok.injEq] at h
    rw [← h]
    exact hc
  · simp only [hlen, if_false] at h
    cases hr : (if p.groupedAnswersList.length = 0 then p.initGroups else pure (p, [])) with
    | error e => rw [hr] at h; cases h
    | ok r =>
      obtain ⟨q, out⟩ := r
      rw [hr] at h
      have hq := getAll_coherent p hc _ (getAll_prepare p hlen q out hr)
      have := promptLoop_self q message stdin _ o h
      rw [this]
      exact hq

/-! ## The nodes that the walk adds to the tree -/

theorem trailsList_append (xs ys : List treeprint.Node) :
    trailsList (xs ++ ys) = trailsList xs ++ trailsList ys := by
  induction xs with
  | nil => simp [trailsList]
  | cons x xs ih => simp [trailsList, ih]

theorem trails_leaf (m v : Option String) : trails (.mk m v []) = [([], (m, v))] := by
  simp [trails]

theorem trails_branch (m v : Option String) (cs : List treeprint.Node) (h : cs ≠ []) :
    trails (.mk m v cs) = (trailsList cs).map (fun t => ((m, v) :: t.1, t.2)) := by
  cases cs with
  | nil => exact absurd rfl h
  | cons c cs => simp [trails]

theorem numberedTrails_append (p : ProjectList) (tr : Answers → List Tag) (k : Nat)
    (xs ys : List Answers) :
    numberedTrails p tr k (xs ++ ys) =
      numberedTrails p tr k xs ++ numberedTrails p tr (k + xs.length) ys := by
  induction xs generalizing k with
  | nil => simp [numberedTrails]
  | cons x xs ih =>
    rw [List.cons_append, numberedTrails, numberedTrails, ih (k + 1), List.length_cons,
      show k + 1 + xs.length = k + (xs.length + 1) by omega]
    rfl

theorem numberedTrails_congr (p : ProjectList) (tr tr' : Answers → List Tag) (k : Nat)
    (xs : List Answers) (h : ∀ r ∈ xs, tr r = tr' r) :
    numberedTrails p tr k xs = numberedTrails p tr' k xs := by
  induction xs generalizing k with
  | nil => rfl
  | cons x xs ih =>
    simp only [numberedTrails]
    rw [h x (List.mem_cons_self _ _), ih (k + 1) (fun r hr => h r (List.mem_cons_of_mem _ hr))]

theorem numberedTrails_map (p : ProjectList) (tr : Answers → List Tag) (tag : Tag) (k : Nat)
    (xs : List Answers) :
    (numberedTrails p tr k xs).map (fun t => (tag :: t.1, t.2)) =
      numberedTrails p (fun r => tag :: tr r) k xs := by
  induction xs generalizing k with
  | nil => rfl
  | cons x xs ih => simp [numberedTrails, ih]

theorem numberedTrails_eq_nil (p : ProjectList) (tr : Answers → List Tag) (k : Nat)
    (xs : List Answers) (h : numberedTrails p tr k xs = []) : xs = [] := by
  cases xs with
  | nil => rfl
  | cons x xs => simp [numberedTrails] at h

theorem grew_refl (p : ProjectList) (tr : Answers → List Tag) (st : Walk) : Grew p tr st st :=
  ⟨[], by simp, by simp [numberedTrails]⟩

theorem grew_trans (p : ProjectList) (tr : Answers → List Tag) (a b c : Walk)
    (h1 : Grew p tr a b) (h2 : Grew p tr b c) : Grew p tr a c := by
  obtain ⟨x, hx1, hx2⟩ := h1
  obtain ⟨y, hy1, hy2⟩ := h2
  refine ⟨x ++ y, by rw [hy1, hx1, List.append_assoc], ?_⟩
  rw [hy2, hx2, hx1, numberedTrails_append, List.length_append, List.append_assoc]

theorem foldlM_grew {κ : Type} (p : ProjectList) (tr : Answers → List Tag)
    (body : Walk → κ → Except Failure Walk) (ks : List κ)
    (h : ∀ a ∈ ks, ∀ s s', body s a = .ok s' → Grew p tr s s') :
    ∀ s s', ks.foldlM body s = .ok s' → Grew p tr s s' := by
  induction ks with
  | nil =>
    intro s s' hs
    simp only [List.foldlM_nil, pure, Except.pure, Except.ok.injEq] at hs
    rw [← hs]
    exact grew_refl p tr s
  | cons a ks ih =>
    intro s s' hs
    rw [List.foldlM_cons] at hs
    cases hb : body s a with
    | error e => rw [hb] at hs; cases hs
    | ok s1 =>
      rw [hb] at hs
      exact grew_trans p tr s s1 s' (h a (List.mem_cons_self _ _) s s1 hb)
        (ih (fun b hb' => h b (List.mem_cons_of_mem _ hb')) s1 s' hs)

theorem sliceIndex_eq (s : List String) (i : Nat) (h : i < s.length) :
    sliceIndex s i = .ok (s.getD i "") := by
  unfold sliceIndex
  rw [List.get?_eq_get h, List.getD_eq_getElem _ _ h]
  rfl

theorem addAnswers_grew (p : ProjectList) (level : Nat)
    (hl : level + 1 = p.groupByKeys.length) (items : List Value) (st st' : Walk)
    (h : addAnswers p level items st = .ok st') : Grew p (fun _ => []) st st' := by
  have hkey : sliceIndex p.groupByKeys level = .ok p.lastGroupKey := by
    rw [sliceIndex_eq _ _ (by omega), ProjectList.lastGroupKey, ← hl]
    rfl
  unfold addAnswers at h
  refine foldlM_grew p (fun _ => []) _ items ?_ st st' h
  intro v _ s s' hs
  cases hv : assertMap v with
  | error e => simp [hv, bind, Except.bind] at hs
  | ok m =>
    simp only [hv, hkey, bind, Except.bind, pure, Except.pure, Except.ok.injEq] at hs
    rw [← hs]
    refine ⟨[m], rfl, ?_⟩
    simp [trailsList_append, trailsList, trails_leaf, numberedTrails, leafTag]

theorem relTrail_cons_cons (p : ProjectList) (level : Nat) (a b : String) (rest : List String) :
    relTrail p level (a :: b :: rest) =
      (if a.length > 0 then
          [(some (p.coloredString level a), some (p.groupByKeys.getD level ""))]
        else []) ++ relTrail p (level + 1) (b :: rest) := by
  rw [relTrail]

theorem relTrail_single (p : ProjectList) (level : Nat) (a : String) :
    relTrail p level [a] = [] := by
  rw [relTrail]
  intros; simp_all

theorem populate_ok_added (p : ProjectList) (n : Nat) (path : Answers → List String)
    (recs : List Answers) (level fuel : Nat) (st st' : Walk)
    (hlevel : level + n + 1 = p.groupByKeys.length) (hfuel : n + 1 ≤ fuel)
    (h : p.recursivePopulateGroupListAndTree fuel level (trieSpec (n + 1) path recs) st =
      .ok st') :
    ∃ added, added.Perm recs ∧ st'.groupedAnswersList = st.groupedAnswersList ++ added := by
  have := populate_trieSpec p n path recs level fuel st hlevel hfuel
  rw [h] at this
  cases hf : flatSpec n path recs with
  | error e => rw [hf] at this; cases this
  | ok added =>
    rw [hf] at this
    exact ⟨added, flatSpec_perm n path recs added hf, Except.ok.inj this⟩

theorem populate_grew (p : ProjectList) (n : Nat) :
    ∀ (path : Answers → List String) (recs : List Answers) (level fuel : Nat) (st st' : Walk),
      level + n + 1 = p.groupByKeys.length → n + 1 ≤ fuel →
      (∀ r, (path r).length = n + 1) →
      p.recursivePopulateGroupListAndTree fuel level (trieSpec (n + 1) path recs) st = .ok st' →
      Grew p (fun r => relTrail p level (path r)) st st' := by
  induction n with
  | zero =>
    intro path recs level fuel st st' hlevel hfuel hlen h
    obtain ⟨fuel', rfl⟩ : ∃ fuel', fuel = fuel' + 1 := ⟨fuel - 1, by omega⟩
    rw [ProjectList.recursivePopulateGroupListAndTree] at h
    simp only [trieSpec, gabs.ChildrenMap, map_fst_map] at h
    refine foldlM_grew p _ _ _ ?_ st st' h
    intro a ha s s' hs
    have ha' : a ∈ firsts (recs.map (headLabel path)) := (mem_sortStrings _ _).1 ha
    have hbranch : (decide (a.length > 0) && decide (level + 1 < p.groupByKeys.length)) = false := by
      have : ¬ (level + 1 < p.groupByKeys.length) := by omega
      simp [this]
    simp only [mapGet, mapLookup_map, ha', if_true, Option.getD_some, hbranch,
      Bool.false_eq_true, if_false, pure, Except.pure, bind, Except.bind] at hs
    cases hsort : sortSlice (leafLess a) (List.map Value.object (bucket path a recs)) with
    | error e => rw [hsort] at hs; cases hs
    | ok sorted =>
      rw [hsort] at hs
      simp only [] at hs
      cases hadd : addAnswers p level sorted s with
      | error e => rw [hadd] at hs; cases hs
      | ok after =>
        rw [hadd] at hs
        simp only [Except.ok.injEq] at hs
        subst hs
        have htr : (fun r => relTrail p level (path r)) = fun _ => [] := by
          funext r
          obtain ⟨b, hb⟩ := List.length_eq_one.1 (hlen r)
          rw [hb, relTrail_single]
        rw [htr]
        exact addAnswers_grew p level (by omega) sorted s after hadd
  | succ n ih =>
    intro path recs level fuel st st' hlevel hfuel hlen h
    obtain ⟨fuel', rfl⟩ : ∃ fuel', fuel = fuel' + 1 := ⟨fuel - 1, by omega⟩
    rw [ProjectList.recursivePopulateGroupListAndTree] at h
    simp only [gabs.ChildrenMap] at h
    rw [trieSpec] at h
    simp only [map_fst_map] at h
    refine foldlM_grew p _ _ _ ?_ st st' h
    intro a ha s s' hs
    have ha' : a ∈ firsts (recs.map (headLabel path)) := (mem_sortStrings _ _).1 ha
    have hl : level < p.groupByKeys.length := by omega
    have hbne : bucket path a recs ≠ [] := by
      obtain ⟨r, hr, hra⟩ := (mem_labels path recs a).1 ha
      exact List.ne_nil_of_mem ((mem_bucket path a recs r).2 ⟨hr, hra⟩)
    have hbranch : (decide (a.length > 0) && decide (level + 1 < p.groupByKeys.length)) =
        decide (a.length > 0) := by
      have : level + 1 < p.groupByKeys.length := by omega
      simp [this]
    simp only [mapGet, mapLookup_map, ha', if_true, Option.getD_some, hbranch] at hs
    rw [trieSpec] at hs
    simp only [] at hs
    have htail : ∀ r, ((fun r => (path r).tail) r).length = n + 1 := by
      intro r
      simp only [List.length_tail, hlen r]
      omega
    have hconv : ∀ (tag : List Tag) (added : List Answers), added.Perm (bucket path a recs) →
        tag = (if a.length > 0 then
          [(some (p.coloredString level a), some (p.groupByKeys.getD level ""))] else []) →
        ∀ r ∈ added, tag ++ relTrail p (level + 1) (path r).tail = relTrail p level (path r) := by
      intro tag added hperm htag r hr
      have hra := ((mem_bucket path a recs r).1 (hperm.mem_iff.1 hr)).2
      have hlr := hlen r
      cases hp : path r with
      | nil => rw [hp] at hlr; simp at hlr
      | cons a' rest =>
        cases rest with
        | nil => rw [hp] at hlr; simp at hlr
        | cons b rest' =>
          have : a' = a := by simpa [headLabel, hp] using hra
          subst this
          rw [relTrail_cons_cons, htag, List.tail_cons]
    by_cases hapos : a.length > 0
    · simp only [hapos, decide_True, if_true, sliceIndex_eq _ _ hl, bind, Except.bind] at hs
      cases hrec : p.recursivePopulateGroupListAndTree fuel' (level + 1)
          (trieSpec (n + 1) (fun r => (path r).tail) (bucket path a recs))
          { s with nodes := [] } with
      | error e => rw [trieSpec] at hrec; rw [hrec] at hs; cases hs
      | ok after =>
        have hgrew := ih _ _ _ _ _ _ (by omega) (by omega) htail hrec
        obtain ⟨added', hperm', hlist'⟩ := populate_ok_added p n _ _ _ _ _ _ (by omega) (by omega) hrec
        rw [trieSpec] at hrec
        rw [hrec] at hs
        simp only [pure, Except.pure, Except.ok.injEq] at hs
        subst hs
        obtain ⟨added, hlist, htrails⟩ := hgrew
        have hadd : added = added' := List.append_cancel_left (hlist.symm.trans hlist')
        subst hadd
        have hne : added ≠ [] := fun e => hbne (by rw [e] at hperm'; exact hperm'.symm.eq_nil)
        simp only [trailsList, List.nil_append] at htrails
        have hnodes : after.nodes ≠ [] := by
          intro e
          rw [e] at htrails
          exact hne (numberedTrails_eq_nil _ _ _ _ htrails.symm)
        refine ⟨added, hlist, ?_⟩
        simp only [trailsList_append, trailsList, List.append_nil]
        rw [trails_branch _ _ _ hnodes, htrails, numberedTrails_map]
        congr 1
        apply numberedTrails_congr
        intro r hr
        have := hconv _ added hperm' rfl r hr
        simpa [hapos] using this
    · simp only [hapos, decide_False, Bool.false_eq_true, if_false, bind, Except.bind, pure,
        Except.pure] at hs
      cases hrec : p.recursivePopulateGroupListAndTree fuel' (level + 1)
          (trieSpec (n + 1) (fun r => (path r).tail) (bucket path a recs)) s with
      | error e => rw [trieSpec] at hrec; rw [hrec] at hs; cases hs
      | ok after =>
        have hgrew := ih _ _ _ _ _ _ (by omega) (by omega) htail hrec
        obtain ⟨added', hperm', hlist'⟩ := populate_ok_added p n _ _ _ _ _ _ (by omega) (by omega) hrec
        rw [trieSpec] at hrec
        rw [hrec] at hs
        simp only [Except.ok.injEq] at hs
        subst hs
        obtain ⟨added, hlist, htrails⟩ := hgrew
        have hadd : added = added' := List.append_cancel_left (hlist.symm.trans hlist')
        subst hadd
        refine ⟨added, hlist, ?_⟩
        rw [htrails]
        congr 1
        apply numberedTrails_congr
        intro r hr
        have := hconv _ added hperm' rfl r hr
        simpa [hapos] using this

theorem relTrail_congr (p q : ProjectList) (hk : q.groupByKeys = p.groupByKeys)
    (hn : q.noColor = p.noColor) (level : Nat) (P : List String) :
    relTrail q level P = relTrail p level P := by
  induction P generalizing level with
  | nil => simp [relTrail]
  | cons a rest ih =>
    cases rest with
    | nil => rw [relTrail_single, relTrail_single]
    | cons b rest' =>
      rw [relTrail_cons_cons, relTrail_cons_cons, ih (level + 1), hk]
      simp only [ProjectList.coloredString, hn]

theorem numberedTrails_walker (p q : ProjectList) (hk : q.groupByKeys = p.groupByKeys)
    (hh : q.hiddenKeys = p.hiddenKeys) (hn : q.noColor = p.noColor) (tr : Answers → List Tag)
    (k : Nat) (xs : List Answers) :
    numberedTrails q tr k xs = numberedTrails p tr k xs := by
  induction xs generalizing k with
  | nil => rfl
  | cons x xs ih =>
    simp only [numberedTrails, ih, leafTag, ProjectList.lastGroupKey, ProjectList.answerString,
      hk, hh, hn]

theorem populate_empty (p : ProjectList) (fuel level : Nat) (st : Walk) :
    p.recursivePopulateGroupListAndTree (fuel + 1) level (.object []) st = .ok st := by
  rw [ProjectList.recursivePopulateGroupListAndTree]
  rfl

theorem initGroups_empty_keys_eq (p : ProjectList) (hk : p.groupByKeys = []) :
    p.initGroups =
      .ok ({ projects := p.projects, groupByKeys := p.groupByKeys, hiddenKeys := p.hiddenKeys,
             groupedAnswers := .object [("", .maps p.records)], groupedAnswersList := [],
             groupedTree := some (.mk none none []), noColor := p.noColor },
           [.text "I don't know about type []map[string]interface \x7b\x7d!\n"]) := by
  rw [initGroups_unfold]
  simp only [ProjectList.groupProjectAnswers, hk, List.length_nil, gt_iff_lt, lt_self_iff_false,
    if_false]
  simp [gabs.Set, gabs.New, Value.isNil, mapGet, mapLookup, mapSet, Value.nesting, nestingFields,
    ProjectList.recursivePopulateGroupListAndTree, gabs.ChildrenMap, sortStrings, insertString,
    bind, Except.bind, pure, Except.pure, ProjectList.records, Value.typeName, hk]

/-- After `initGroups` the tree is a root over the nodes of the walk, and its
record nodes are those of the flattened list: the record at position `i` has
the display number `i + 1`, its summary, and above it the branches of its
bucket path. -/
theorem initGroups_trails (p q : ProjectList) (out : List Output)
    (h : p.initGroups = .ok (q, out)) :
    ∃ nodes, q.groupedTree = some (.mk none none nodes) ∧
      trailsList nodes =
        numberedTrails p (fun r => relTrail p 0 (keyValues p.groupByKeys r)) 0
          q.groupedAnswersList := by
  by_cases hk : p.groupByKeys = []
  · rw [initGroups_empty_keys_eq p hk] at h
    simp only [Except.ok.injEq, Prod.mk.injEq] at h
    rw [← h.1]
    exact ⟨[], rfl, rfl⟩
  · have hlen : p.groupByKeys.length > 0 := List.length_pos.2 hk
    obtain ⟨n, hn⟩ : ∃ n, p.groupByKeys.length = n + 1 := ⟨p.groupByKeys.length - 1, by omega⟩
    rw [initGroups_unfold] at h
    have hg := groupProjectAnswers_eq
      (ProjectList.mk p.projects p.groupByKeys p.hiddenKeys gabs.New [] (some treeprint.New)
      p.noColor)
      hk rfl
    have hl : (ProjectList.mk p.projects p.groupByKeys p.hiddenKeys gabs.New []
        (some treeprint.New) p.noColor).groupProjectAnswers.groupedAnswersList = [] := by
      simp [ProjectList.groupProjectAnswers, hlen]
    have hk' : (ProjectList.mk p.projects p.groupByKeys p.hiddenKeys gabs.New []
        (some treeprint.New) p.noColor).groupProjectAnswers.groupByKeys = p.groupByKeys := by
      simp [ProjectList.groupProjectAnswers, hlen]
    have hh' : (ProjectList.mk p.projects p.groupByKeys p.hiddenKeys gabs.New []
        (some treeprint.New) p.noColor).groupProjectAnswers.hiddenKeys = p.hiddenKeys := by
      simp [ProjectList.groupProjectAnswers, hlen]
    have hn' : (ProjectList.mk p.projects p.groupByKeys p.hiddenKeys gabs.New []
        (some treeprint.New) p.noColor).groupProjectAnswers.noColor = p.noColor := by
      simp [ProjectList.groupProjectAnswers, hlen]
    simp only [] at hg
    generalize (ProjectList.mk p.projects p.groupByKeys p.hiddenKeys gabs.New []
        (some treeprint.New) p.noColor).groupProjectAnswers = q0 at hg hl hk' hh' hn' h
    rw [← ProjectList.records, hn] at hg
    rw [hl] at h
    cases hrun : q0.recursivePopulateGroupListAndTree (q0.groupedAnswers.nesting + 1) 0
        q0.groupedAnswers { groupedAnswersList := [], nodes := [], stdout := [] } with
    | error e => rw [hrun] at h; cases h
    | ok w =>
      rw [hrun] at h
      simp only [bind, Except.bind, pure, Except.pure, Except.ok.injEq, Prod.mk.injEq] at h
      rw [← h.1]
      refine ⟨w.nodes, rfl, ?_⟩
      simp only []
      have hgrew : Grew q0 (fun r => relTrail q0 0 (keyValues p.groupByKeys r))
          { groupedAnswersList := [], nodes := [], stdout := [] } w := by
        by_cases hp : p.records = []
        · rw [hg, hp] at hrun
          have : trieSpec (n + 1) (keyValues p.groupByKeys) [] = .object [] := by
            simp [trieSpec, firsts]
          rw [this, populate_empty] at hrun
          rw [← Except.ok.inj hrun]
          exact grew_refl _ _ _
        · have hnest := nesting_trieSpec (n + 1) (keyValues p.groupByKeys) _ hp
          rw [hg] at hrun
          exact populate_grew q0 n (keyValues p.groupByKeys) p.records 0 _ _ w
            (by rw [hk']; omega) (by omega) (fun r => by rw [keyValues_length, hn]) hrun
      obtain ⟨added, hlist, htrails⟩ := hgrew
      simp only [List.nil_append, trailsList, List.length_nil] at hlist htrails
      rw [htrails, hlist, numberedTrails_walker p q0 hk' hh' hn']
      apply numberedTrails_congr
      intro r _
      exact relTrail_congr p q0 hk' hn' 0 _

theorem numberedTrails_length (p : ProjectList) (tr : Answers → List Tag) (k : Nat)
    (xs : List Answers) : (numberedTrails p tr k xs).length = xs.length := by
  induction xs generalizing k with
  | nil => rfl
  | cons x xs ih => simp [numberedTrails, ih]

theorem numberedTrails_get (p : ProjectList) (tr : Answers → List Tag) (k : Nat)
    (xs : List Answers) (i : Nat) (hi : i < xs.length)
    (ht : i < (numberedTrails p tr k xs).length) :
    (numberedTrails p tr k xs).get ⟨i, ht⟩ =
      (tr (xs.get ⟨i, hi⟩), leafTag p (k + i + 1) (xs.get ⟨i, hi⟩)) := by
  induction xs generalizing k i with
  | nil => simp at hi
  | cons x xs ih =>
    cases i with
    | zero => simp [numberedTrails]
    | succ i =>
      simp only [numberedTrails, List.get_eq_getElem, List.getElem_cons_succ]
      have := ih (k + 1) i (by simpa using hi) (by simpa [numberedTrails] using ht)
      simp only [List.get_eq_getElem] at this
      rw [this, show k + 1 + i + 1 = k + (i + 1) + 1 by omega]

theorem string_length_pos (a : String) : a.length > 0 ↔ a ≠ "" := by
  obtain ⟨l⟩ := a
  cases l with
  | nil => simp [String.length]
  | cons c cs =>
    simp only [String.length, List.length_cons, gt_iff_lt, Nat.zero_lt_succ, ne_eq, true_iff]
    intro h
    have := congrArg String.length h
    simp [String.length] at this

theorem mem_relTrail_of_label (p : ProjectList) (P : List String) :
    ∀ (level l : Nat), l + 1 < P.length → P.getD l "" ≠ "" →
      (some (p.coloredString (level + l) (P.getD l "")),
        some (p.groupByKeys.getD (level + l) "")) ∈ relTrail p level P := by
  induction P with
  | nil => intro level l hl; simp at hl
  | cons a rest ih =>
    intro level l hl hne
    cases rest with
    | nil => simp at hl
    | cons b rest' =>
      rw [relTrail_cons_cons]
      cases l with
      | zero =>
        have : a.length > 0 := (string_length_pos a).2 (by simpa using hne)
        simp [this]
      | succ l =>
        apply List.mem_append_right
        have := ih (level + 1) l (by simpa using hl) (by simpa using hne)
        rw [show level + 1 + l = level + (l + 1) by omega] at this
        simpa using this

theorem label_of_mem_relTrail (p : ProjectList) (P : List String) :
    ∀ (level : Nat) (t : Tag), t ∈ relTrail p level P →
      ∃ l, l + 1 < P.length ∧ P.getD l "" ≠ "" ∧
        t = (some (p.coloredString (level + l) (P.getD l "")),
          some (p.groupByKeys.getD (level + l) "")) := by
  induction P with
  | nil => intro level t ht; simp [relTrail] at ht
  | cons a rest ih =>
    intro level t ht
    cases rest with
    | nil => rw [relTrail_single] at ht; cases ht
    | cons b rest' =>
      rw [relTrail_cons_cons] at ht
      rcases List.mem_append.1 ht with h | h
      · by_cases ha : a.length > 0
        · simp only [ha, if_true, List.mem_singleton] at h
          exact ⟨0, by simp, by simpa using (string_length_pos a).1 ha, by simpa using h⟩
        · simp [ha] at h
      · obtain ⟨l, hl, hne, ht'⟩ := ih (level + 1) t h
        refine ⟨l + 1, by simpa using hl, by simpa using hne, ?_⟩
        rw [ht', show level + 1 + l = level + (l + 1) by omega]
        simp

theorem initGroups_list_length (p q : ProjectList) (out : List Output)
    (h : p.initGroups = .ok (q, out)) : q.groupedAnswersList.length ≤ p.projects.length := by
  by_cases hk : p.groupByKeys = []
  · have := initGroups_empty_keys p hk
    rw [h] at this
    simp only [Except.map, Except.ok.injEq] at this
    simp [this]
  · by_cases hp : p.projects = []
    · obtain ⟨pr, keys, hid, ga, gl, gt, nc⟩ := p
      simp only at hp hk ⊢
      subst hp
      rw [initGroups_unfold] at h
      simp only at h
      have hlen : keys.length > 0 := List.length_pos.2 hk
      obtain ⟨n, hn⟩ : ∃ n, keys.length = n + 1 := ⟨keys.length - 1, by omega⟩
      have hg := groupProjectAnswers_eq
        (ProjectList.mk [] keys hid gabs.New [] (some treeprint.New) nc) hk rfl
      have hl : (ProjectList.mk [] keys hid gabs.New []
          (some treeprint.New) nc).groupProjectAnswers.groupedAnswersList = [] := by
        simp [ProjectList.groupProjectAnswers, hlen]
      simp only [List.map_nil, hn] at hg
      have ht : trieSpec (n + 1) (keyValues keys) [] = .object [] := by
        simp [trieSpec, firsts]
      rw [ht] at hg
      rw [hg, hl] at h
      simp only [Value.nesting, nestingFields, populate_empty, bind, Except.bind, pure,
        Except.pure, Except.ok.injEq, Prod.mk.injEq] at h
      rw [← h.1]
      simp
    · have := initGroups_list p hk hp
      rw [h] at this
      have hperm := flatSpec_perm _ _ _ _ this.symm
      simp only [] at hperm
      rw [hperm.length_eq, ProjectList.records, List.length_map]

/-- A mapped result that is a value comes from a value. -/
theorem ok_of_map_ok {ε α β : Type} (x : Except ε α) (f : α → β) (b : β)
    (h : x.map f = .ok b) : ∃ a, x = .ok a ∧ f a = b := by
  cases x with
  | error e => cases h
  | ok a => exact ⟨a, rfl, by simpa [Except.map] using h⟩

/-- After `initGroups` a call of GetAll returns the cached flattened list. -/
theorem initGroups_getAll (p q : ProjectList) (out : List Output)
    (h : p.initGroups = .ok (q, out)) :
    q.GetAll.map (fun o => o.val) = .ok q.groupedAnswersList := by
  have hproj := initGroups_projects p q out h
  have hkeys := initGroups_keys p q out h
  have hle := initGroups_list_length p q out h
  unfold ProjectList.GetAll
  by_cases hlen : q.Length = 0
  · have : q.groupedAnswersList = [] := by
      apply List.length_eq_zero.1
      rw [ProjectList.Length, hproj] at hlen
      omega
    simp [hlen, this, pure, Except.pure, Except.map]
  · simp only [hlen, if_false]
    by_cases hcache : q.groupedAnswersList.length = 0
    · simp only [hcache, if_true]
      rw [initGroups_congr p q hproj hkeys.1 hkeys.2 (initGroups_noColor p q out h), h]
      rfl
    · simp only [hcache, if_false]
      rfl

/-- After `initGroups` a call of GetIndex within the cached list returns the
record at that position and leaves the receiver as it is. -/
theorem initGroups_getIndex (p q : ProjectList) (out : List Output)
    (h : p.initGroups = .ok (q, out)) (i : Nat) (hi : i < q.groupedAnswersList.length) :
    q.GetIndex (i : Int) =
      .ok { val := .ok (q.groupedAnswersList.get ⟨i, hi⟩), self := q, stdout := [] } := by
  have hproj := initGroups_projects p q out h
  have hle := initGroups_list_length p q out h
  have hlen : ¬ q.Length = 0 := by
    rw [ProjectList.Length, hproj]
    omega
  have hcache : ¬ q.groupedAnswersList.length = 0 := by omega
  have hrange : ¬ ((i : Int) < 0 ∨ (i : Int) ≥ (q.projects.length : Int)) := by
    rw [hproj]
    omega
  unfold ProjectList.GetIndex
  simp only [hlen, if_false, hcache, pure, Except.pure, bind, Except.bind, hrange,
    Int.toNat_ofNat, List.get?_eq_get hi]


theorem stdinQueryInt_fst (question line : String) :
    (utils.StdinQueryInt question line).1 = parsedLine line := rfl

/-- The retry loop skips every rejected line and returns at the first line that
holds a number within the range. -/
theorem promptLoop_first_valid (q : ProjectList) (message : String) (bad : List String)
    (good : String) (rest : List String) (k : Int) (answer : Answers)
    (hbad : ∀ line ∈ bad, ∀ n, parsedLine line = .ok n → ¬ (1 ≤ n ∧ n ≤ (q.Length : Int)))
    (hgood : parsedLine good = .ok k) (hk1 : 1 ≤ k) (hk2 : k ≤ (q.Length : Int))
    (ha : q.groupedAnswersList.get? (k - 1).toNat = some answer) :
    ∀ out, ∃ o, q.promptLoop message (bad ++ good :: rest) out = .ok o ∧
      o.val = .returned (.ok answer) ∧ o.unread = rest ∧ o.self = q := by
  induction bad with
  | nil =>
    intro out
    have hr : (1 ≤ k ∧ k ≤ (q.Length : Int)) := ⟨hk1, hk2⟩
    have hk0 : k > 0 := by omega
    simp only [List.nil_append, ProjectList.promptLoop, stdinQueryInt_fst, hgood, hk0, hk2,
      decide_True, Bool.and_self, Bool.not_true, ha]
    exact ⟨_, rfl, rfl, rfl, rfl⟩
  | cons line bad ih =>
    intro out
    have hb := hbad line (List.mem_cons_self _ _)
    have ih' := ih (fun l hl => hbad l (List.mem_cons_of_mem _ hl))
    simp only [List.cons_append, ProjectList.promptLoop, stdinQueryInt_fst]
    cases hp : parsedLine line with
    | error err => exact ih' _
    | ok n =>
      have hn := hb n hp
      have : (!(decide (n > 0) && decide (n ≤ (q.Length : Int)))) = true := by
        simp only [Bool.not_eq_true', Bool.and_eq_false_iff, decide_eq_false_iff_not]
        omega
      simp only [this, if_true]
      exact ih' _

/-- With a flattened list as long as the store, Prompt returns the record at
position k - 1 of the list of GetAll for the first line that holds a number k
within `[1, Length()]`; the lines before it are rejected. -/
theorem prompt_first_valid (p : ProjectList) (hc : p.Coherent) (hk : p.groupByKeys ≠ [])
    (L : List Answers) (hL : p.GetAll.map (fun o => o.val) = .ok L)
    (message : String) (bad : List String) (good : String) (rest : List String) (k : Int)
    (hbad : ∀ line ∈ bad, ∀ n, parsedLine line = .ok n → ¬ (1 ≤ n ∧ n ≤ (p.Length : Int)))
    (hgood : parsedLine good = .ok k) (hk1 : 1 ≤ k) (hk2 : k ≤ (p.Length : Int)) :
    ∃ o answer, p.Prompt message (bad ++ good :: rest) = .ok o ∧
      L.get? (k - 1).toNat = some answer ∧
      o.val = .returned (.ok answer) ∧ o.unread = rest := by
  have hlen : p.Length ≠ 0 := by
    intro h0
    rw [h0] at hk2
    omega
  obtain ⟨o1, ho1, hval⟩ := ok_of_map_ok _ _ _ hL
  have hperm := (getAll_sorted_perm p L hc hk hL).1
  have hLlen : L.length = p.Length := by
    rw [hperm.length_eq, ProjectList.records, List.length_map, ProjectList.Length]
  have hproj := getAll_self_projects p o1 ho1
  unfold ProjectList.GetAll at ho1
  unfold ProjectList.Prompt
  simp only [hlen, if_false] at ho1 ⊢
  cases hr : (if p.groupedAnswersList.length = 0 then p.initGroups else pure (p, [])) with
  | error e => rw [hr] at ho1; cases ho1
  | ok r =>
    obtain ⟨q, out⟩ := r
    rw [hr] at ho1
    simp only [bind, Except.bind, pure, Except.pure, Except.ok.injEq] at ho1 ⊢
    have hq : q.groupedAnswersList = L := by rw [← hval, ← ho1]
    have hqp : q.projects = p.projects := by rw [← hproj, ← ho1]
    have hqlen : q.Length = p.Length := by rw [ProjectList.Length, hqp, ProjectList.Length]
    have hidx : (k - 1).toNat < L.length := by omega
    obtain ⟨o, ho, hv, hu, _⟩ := promptLoop_first_valid q message bad good rest k
      (L.get ⟨(k - 1).toNat, hidx⟩) (by rw [hqlen]; exact hbad) hgood hk1
      (by rw [hqlen]; exact hk2) (by rw [hq]; exact List.get?_eq_get hidx)
      (out ++ [q.PrintTree ""])
    exact ⟨o, _, ho, List.get?_eq_get hidx, hv, hu⟩

/-- The store GetAll and GetIndex leave behind is the store they found. -/
theorem getIndex_self_projects (p : ProjectList) (i : Int)
    (o : Outcome (Except Error Answers)) (h : p.GetIndex i = .ok o) :
    o.self.projects = p.projects := by
  by_cases hlen : p.Length = 0
  · simp only [ProjectList.GetIndex, hlen, if_true, pure, Except.pure, Except.ok.injEq] at h
    rw [← h]
  · rw [getIndex_via_getAll p hlen] at h
    cases hg : p.GetAll with
    | error e => rw [hg] at h; cases h
    | ok o' =>
      have hproj := getAll_self_projects p o' hg
      rw [hg] at h
      simp only [bind, Except.bind] at h
      split at h
      · simp only [pure, Except.pure, Except.ok.injEq] at h
        rw [← h]; exact hproj
      · split at h
        · simp only [pure, Except.pure, Except.ok.injEq] at h
          rw [← h]; exact hproj
        · cases h

theorem sortStrings_eq_of_perm (l l' : List String) (h : l.Perm l') :
    sortStrings l = sortStrings l' :=
  List.eq_of_perm_of_sorted
    (((sortStrings_perm l).trans h).trans (sortStrings_perm l').symm)
    (sortStrings_sorted l) (sortStrings_sorted l')

theorem foldlM_congr_mem {σ κ : Type} (f g : σ → κ → Except Failure σ) (l : List κ) :
    ∀ st, (∀ a ∈ l, ∀ s, f s a = g s a) → l.foldlM f st = l.foldlM g st := by
  induction l with
  | nil => intro st _; rfl
  | cons a l ih =>
    intro st h
    simp only [List.foldlM_cons, h a (List.mem_cons_self _ _)]
    cases g st a with
    | error e => rfl
    | ok s => exact ih s (fun b hb => h b (List.mem_cons_of_mem _ hb))

theorem keys_perm_of_same (f g : List (String × Value)) (hf : (f.map Prod.fst).Nodup)
    (hg : (g.map Prod.fst).Nodup) (hkeys : ∀ k, k ∈ f.map Prod.fst ↔ k ∈ g.map Prod.fst) :
    (f.map Prod.fst).Perm (g.map Prod.fst) :=
  (List.perm_ext_iff_of_nodup hf hg).2 hkeys

/-- The walk reads a container only through the keys of its maps and the
values under them: containers with the same maps are walked alike. -/
theorem populate_sameMaps (p : ProjectList) (fuel : Nat) :
    ∀ (v w : Value), SameMaps v w → ∀ (level : Nat) (st : Walk),
      p.recursivePopulateGroupListAndTree fuel level v st =
        p.recursivePopulateGroupListAndTree fuel level w st := by
  induction fuel with
  | zero => intro v w _ level st; rfl
  | succ fuel ih =>
    intro v w h level st
    cases h with
    | same => rfl
    | object f g hf hg hkeys hv =>
      simp only [ProjectList.recursivePopulateGroupListAndTree, gabs.ChildrenMap]
      rw [sortStrings_eq_of_perm _ _ (keys_perm_of_same f g hf hg hkeys)]
      apply foldlM_congr_mem
      intro k hk s
      have hkf : k ∈ f.map Prod.fst := (hkeys k).2 ((mem_sortStrings _ _).1 hk)
      have hs := hv k hkf
      generalize mapGet f k = x at hs
      generalize mapGet g k = y at hs
      cases hs with
      | same => rfl
      | object f' g' hf' hg' hkeys' hv' =>
        simp only []
        rw [ih (.object f') (.object g') (SameMaps.object f' g' hf' hg' hkeys' hv')]

theorem nestingFields_le (f : List (String × Value)) (n : Nat) :
    nestingFields f ≤ n ↔ ∀ x ∈ f, x.2.nesting ≤ n := by
  induction f with
  | nil => simp [nestingFields]
  | cons x f ih =>
    obtain ⟨k, v⟩ := x
    simp [nestingFields, ih]

theorem mapGet_of_mem (f : List (String × Value)) (hf : (f.map Prod.fst).Nodup)
    (x : String × Value) (hx : x ∈ f) : mapGet f x.1 = x.2 := by
  induction f with
  | nil => cases hx
  | cons y f ih =>
    obtain ⟨k, v⟩ := y
    simp only [List.map_cons, List.nodup_cons] at hf
    rcases List.mem_cons.1 hx with rfl | hx'
    · simp [mapGet, mapLookup]
    · have hne : ¬ k = x.1 := by
        intro e
        exact hf.1 (e ▸ List.mem_map_of_mem Prod.fst hx')
      have := ih hf.2 hx'
      simp only [mapGet, mapLookup, hne, if_false] at this ⊢
      exact this

theorem mem_of_key (f : List (String × Value)) (k : String) (hk : k ∈ f.map Prod.fst) :
    (k, mapGet f k) ∈ f := by
  induction f with
  | nil => simp at hk
  | cons y f ih =>
    obtain ⟨k', v⟩ := y
    by_cases h : k' = k
    · subst h
      simp [mapGet, mapLookup]
    · have hk' : k ∈ f.map Prod.fst := by
        simp only [List.map_cons, List.mem_cons] at hk
        rcases hk with e | hk
        · exact absurd e.symm h
        · exact hk
      have := ih hk'
      simp only [mapGet, mapLookup, h, if_false] at this ⊢
      exact List.mem_cons_of_mem _ this

/-- Containers with the same maps are nested equally deep, so that `initGroups`
walks them with the same budget. -/
theorem nesting_sameMaps (v w : Value) (h : SameMaps v w) : v.nesting = w.nesting := by
  induction h with
  | same => rfl
  | object f g hf hg hkeys _ ih =>
    simp only [Value.nesting, Nat.add_right_cancel_iff]
    apply le_antisymm
    · rw [nestingFields_le]
      intro x hx
      have hk : x.1 ∈ f.map Prod.fst := List.mem_map_of_mem Prod.fst hx
      have h1 := ih x.1 hk
      rw [mapGet_of_mem f hf x hx] at h1
      rw [h1]
      exact (nestingFields_le g _).1 (le_refl _) _ (mem_of_key g x.1 ((hkeys x.1).1 hk))
    · rw [nestingFields_le]
      intro y hy
      have hk : y.1 ∈ g.map Prod.fst := List.mem_map_of_mem Prod.fst hy
      have hk' : y.1 ∈ f.map Prod.fst := (hkeys y.1).2 hk
      have h1 := ih y.1 hk'
      rw [mapGet_of_mem g hg y hy] at h1
      rw [← h1]
      exact (nestingFields_le f _).1 (le_refl _) _ (mem_of_key f y.1 hk')

/-- A second call of GetAll, on the project list the first call left behind,
returns the same list. -/
theorem getAll_twice (p : ProjectList) (o : Outcome (List Answers)) (h : p.GetAll = .ok o) :
    ∃ o', o.self.GetAll = .ok o' ∧ o'.val = o.val := by
  unfold ProjectList.GetAll at h
  by_cases hlen : p.Length = 0
  · simp only [hlen, if_true, pure, Except.pure, Except.ok.injEq] at h
    subst h
    exact ⟨_, by simp [ProjectList.GetAll, hlen, pure, Except.pure], rfl⟩
  · simp only [hlen, if_false] at h
    by_cases hcache : p.groupedAnswersList.length = 0
    · simp only [hcache, if_true] at h
      cases hr : p.initGroups with
      | error e => rw [hr] at h; cases h
      | ok r =>
        obtain ⟨q, out⟩ := r
        rw [hr] at h
        simp only [bind, Except.bind, pure, Except.pure, Except.ok.injEq] at h
        subst h
        obtain ⟨L, hL⟩ : ∃ L, q.GetAll.map (fun o => o.val) = .ok L :=
          ⟨_, initGroups_getAll p q out hr⟩
        obtain ⟨o', ho', hv⟩ := ok_of_map_ok _ _ _ (initGroups_getAll p q out hr)
        exact ⟨o', ho', hv⟩
    · simp only [hcache, if_false, bind, Except.bind, pure, Except.pure, Except.ok.injEq] at h
      subst h
      exact ⟨_, by simp [ProjectList.GetAll, hlen, hcache, pure, Except.pure, bind, Except.bind],
        rfl⟩

/-- The list of GetAll in a coherent state: what `initGroups` computes, or the
empty list for an empty store. -/
theorem getAll_val_coherent (p : ProjectList) (hc : p.Coherent) :
    p.GetAll.map (fun o => o.val) =
      if p.Length = 0 then .ok []
      else p.initGroups.map (fun r => r.1.groupedAnswersList) := by
  by_cases hlen : p.Length = 0
  · simp [ProjectList.GetAll, hlen, pure, Except.pure, Except.map]
  · simp only [hlen, if_false]
    unfold ProjectList.GetAll
    simp only [hlen, if_false]
    by_cases hcache : p.groupedAnswersList.length = 0
    · simp only [hcache, if_true]
      cases p.initGroups with
      | error e => rfl
      | ok r => rfl
    · simp only [hcache, if_false]
      rcases hc with hnil | ⟨q, out, hq, hlist⟩
      · exact absurd (by simp [hnil]) hcache
      · rw [hq]
        simp [Except.map, bind, Except.bind, pure, Except.pure, hlist]

/-- The list of GetAll depends on the stored projects and the grouping keys
only. -/
theorem getAll_val_congr (p q : ProjectList) (hp : p.Coherent) (hq : q.Coherent)
    (h1 : q.projects = p.projects) (h2 : q.groupByKeys = p.groupByKeys) :
    q.GetAll.map (fun o => o.val) = p.GetAll.map (fun o => o.val) := by
  have hlen : q.Length = p.Length := by rw [ProjectList.Length, h1, ProjectList.Length]
  by_cases hk : p.groupByKeys = []
  · rw [getAll_val_coherent p hp, getAll_val_coherent q hq, hlen,
      initGroups_empty_keys p hk, initGroups_empty_keys q (by rw [h2]; exact hk)]
  · by_cases he : p.projects = []
    · simp [ProjectList.GetAll, ProjectList.Length, h1, he, pure, Except.pure, Except.map]
    · rw [GetAll_val p hp hk he, GetAll_val q hq (by rw [h2]; exact hk) (by rw [h1]; exact he),
        ProjectList.records, ProjectList.records, h1, h2]

theorem numberedTrails_get_some (p : ProjectList) (tr : Answers → List Tag) (k : Nat)
    (xs : List Answers) (i : Nat) (r : Answers) (h : xs.get? i = some r) :
    (numberedTrails p tr k xs).get? i = some (tr r, leafTag p (k + i + 1) r) := by
  obtain ⟨hi, hr⟩ := List.get?_eq_some.1 h
  have ht : i < (numberedTrails p tr k xs).length := by rw [numberedTrails_length]; exact hi
  rw [List.get?_eq_get ht, numberedTrails_get p tr k xs i hi ht]
  simp only [List.get_eq_getElem] at hr ⊢
  rw [hr]

/-- The node of the i-th record of the flattened list after `initGroups`: where
it hangs and what it shows. -/
theorem initGroups_record_node (p q : ProjectList) (out : List Output)
    (h : p.initGroups = .ok (q, out)) (i : Nat) (r : Answers)
    (hr : q.groupedAnswersList.get? i = some r) :
    ∃ tree, q.groupedTree = some tree ∧
      (recordTrails tree).get? i =
        some (relTrail p 0 (keyValues p.groupByKeys r), leafTag p (i + 1) r) := by
  obtain ⟨nodes, htree, htrails⟩ := initGroups_trails p q out h
  refine ⟨_, htree, ?_⟩
  show (trailsList nodes).get? i = _
  rw [htrails, numberedTrails_get_some p _ 0 _ i r hr, Nat.zero_add]

theorem answerString_fold (hidden keys : List String) (hk : String) (answer : Answers)
    (ks : List String) :
    ∀ acc : List String,
      ks.foldl (fun answerStr k =>
        if utils.SliceIncludes hidden k || utils.SliceIncludes keys k then answerStr
        else if k = hk then answerStr
        else answerStr ++ [k ++ ": " ++ (mapGet answer k).format]) acc =
      acc ++ (ks.filter (fun k => decide (k ∉ hidden ∧ k ∉ keys ∧ k ≠ hk))).map
        (fun k => k ++ ": " ++ (mapGet answer k).format) := by
  induction ks with
  | nil => intro acc; simp
  | cons k ks ih =>
    intro acc
    rw [List.foldl_cons, ih]
    by_cases h1 : k ∈ hidden
    · simp [utils.SliceIncludes, h1]
    · by_cases h2 : k ∈ keys
      · simp [utils.SliceIncludes, h1, h2]
      · by_cases h3 : k = hk
        · simp [utils.SliceIncludes, h1, h2, h3]
        · simp [utils.SliceIncludes, h1, h2, h3]

/-- The summary of a record: the highlighted entry of the highlight key, then
the entries of the keys that are neither hidden nor grouping keys nor the
highlight key, in the order of `utils.MapKeys`. -/
theorem answerString_eq (p : ProjectList) (hk : String) (answer : Answers) :
    p.answerString hk answer =
      ", ".intercalate
        (color.BlueString p.noColor (hk ++ ": " ++ (mapGet answer hk).format) ::
          ((utils.MapKeys answer).filter
            (fun k => decide (k ∉ p.hiddenKeys ∧ k ∉ p.groupByKeys ∧ k ≠ hk))).map
            (fun k => k ++ ": " ++ (mapGet answer k).format)) := by
  unfold ProjectList.answerString
  simp only []
  rw [answerString_fold]
  rfl

theorem wrap_data (code s : String) :
    (color.wrap false code s).data =
      ['\x1b', '['] ++ code.data ++ ['m'] ++ s.data ++ ['\x1b', '[', '0', 'm'] := by
  simp only [color.wrap, String.data_append, Bool.false_eq_true, if_false]

theorem wrap_ne (c1 c2 : Char) (d : Char) (s : String) (h : c1 ≠ c2) :
    color.wrap false (String.mk [d, c1]) s ≠ color.wrap false (String.mk [d, c2]) s := by
  intro e
  have := congrArg String.data e
  rw [wrap_data, wrap_data] at this
  simp at this
  exact h this

theorem firsts_ne_nil (l : List String) (h : l ≠ []) : firsts l ≠ [] := by
  cases l with
  | nil => exact absurd rfl h
  | cons a l => simp [firsts]

/-- The container of a non-empty list of records has maps that are not empty
down to slices that are not empty. -/
theorem wellShaped_trieSpec (n : Nat) :
    ∀ (path : Answers → List String) (recs : List Answers), recs ≠ [] →
      wellShaped n (trieSpec n path recs) = true := by
  induction n with
  | zero =>
    intro path recs h
    cases recs with
    | nil => exact absurd rfl h
    | cons r recs => simp [trieSpec, wellShaped]
  | succ n ih =>
    intro path recs h
    simp only [trieSpec, wellShaped, Bool.and_eq_true, Bool.not_eq_true', List.all_eq_true,
      List.mem_map, forall_exists_index, and_imp]
    constructor
    · have := firsts_ne_nil (recs.map (headLabel path)) (by simpa using h)
      cases hf : firsts (recs.map (headLabel path)) with
      | nil => exact absurd hf this
      | cons a l => rfl
    · intro field a ha hfield
      subst hfield
      apply ih
      have ha' : a ∈ recs.map (headLabel path) := by
        have := ha
        simp only [mem_firsts] at this
        exact this
      obtain ⟨r, hr, hra⟩ := List.mem_map.1 ha'
      intro hnil
      have : r ∈ bucket path a recs := by
        simp [bucket, hr, hra]
      rw [hnil] at this
      cases this

theorem pathLess_iff (P Q : List String) : pathLess P Q = true ↔ pathLt P Q := by
  induction P generalizing Q with
  | nil => simp [pathLess, pathLt]
  | cons a P ih =>
    cases Q with
    | nil => simp [pathLess, pathLt]
    | cons b Q => simp [pathLess, pathLt, ih]

theorem pathLt_asymm (P Q : List String) (h : pathLt P Q) : ¬ pathLt Q P := by
  induction P generalizing Q with
  | nil => simp [pathLt] at h
  | cons a P ih =>
    cases Q with
    | nil => simp [pathLt] at h
    | cons b Q =>
      simp only [pathLt] at h ⊢
      rintro (h' | ⟨e, h'⟩)
      · rcases h with h | ⟨e, _⟩
        · rw [strLess_asymm a b h] at h'; cases h'
        · rw [e, strLess_irrefl] at h'; cases h'
      · rcases h with h | ⟨_, h⟩
        · rw [e, strLess_irrefl] at h; cases h
        · exact ih Q h h'

theorem strLess_total (a b : String) (h1 : strLess a b = false) (h2 : strLess b a = false) :
    a = b := by
  have n1 : ¬ a < b := fun h => by rw [(strLess_iff a b).2 h] at h1; cases h1
  have n2 : ¬ b < a := fun h => by rw [(strLess_iff b a).2 h] at h2; cases h2
  exact le_antisymm (not_lt.1 n2) (not_lt.1 n1)

theorem strLess_trans (a b c : String) (h1 : strLess a b = true) (h2 : strLess b c = true) :
    strLess a c = true :=
  (strLess_iff a c).2 (lt_trans ((strLess_iff a b).1 h1) ((strLess_iff b c).1 h2))

theorem pathLt_total (P Q : List String) (hlen : P.length = Q.length)
    (h1 : ¬ pathLt P Q) (h2 : ¬ pathLt Q P) : P = Q := by
  induction P generalizing Q with
  | nil => exact (List.length_eq_zero.1 hlen.symm).symm
  | cons a P ih =>
    cases Q with
    | nil => simp at hlen
    | cons b Q =>
      simp only [pathLt, not_or, not_and] at h1 h2
      have hab : a = b := strLess_total a b (by simpa using h1.1) (by simpa using h2.1)
      subst hab
      rw [ih Q (by simpa using hlen) (h1.2 rfl) (h2.2 rfl)]

theorem pathLt_cut (P Q R : List String) (h1 : P.length = Q.length) (h2 : Q.length = R.length)
    (h : pathLt P R) : pathLt P Q ∨ pathLt Q R := by
  induction P generalizing Q R with
  | nil => simp [pathLt] at h
  | cons a P ih =>
    cases Q with
    | nil => simp at h1
    | cons b Q =>
      cases R with
      | nil => simp at h2
      | cons c R =>
        simp only [pathLt] at h ⊢
        cases hab : strLess a b with
        | true => exact Or.inl (Or.inl rfl)
        | false =>
          cases hba : strLess b a with
          | true =>
            right; left
            rcases h with h | ⟨e, _⟩
            · exact strLess_trans b a c hba h
            · rw [← e]; exact hba
          | false =>
            have e := strLess_total a b hab hba
            subst e
            rcases h with h | ⟨e, h⟩
            · exact Or.inr (Or.inl h)
            · rcases ih Q R (by simpa using h1) (by simpa using h2) h with h' | h'
              · exact Or.inl (Or.inr ⟨rfl, h'⟩)
              · exact Or.inr (Or.inr ⟨e, h'⟩)

theorem insertByPath_perm (path : Answers → List String) (r : Answers) (l : List Answers) :
    (insertByPath path r l).Perm (r :: l) := by
  induction l with
  | nil => exact List.Perm.refl _
  | cons x l ih =>
    unfold insertByPath
    split
    · exact (List.Perm.cons x ih).trans (List.Perm.swap r x l)
    · exact List.Perm.refl _

theorem sortByPath_perm (path : Answers → List String) (l : List Answers) :
    (sortByPath path l).Perm l := by
  induction l with
  | nil => exact List.Perm.refl _
  | cons r l ih => exact (insertByPath_perm path r _).trans (List.Perm.cons r ih)

theorem insertByPath_sorted (path : Answers → List String) (n : Nat)
    (hlen : ∀ r, (path r).length = n) (r : Answers) (l : List Answers)
    (h : l.Pairwise (fun x y => ¬ pathLt (path y) (path x))) :
    (insertByPath path r l).Pairwise (fun x y => ¬ pathLt (path y) (path x)) := by
  induction l with
  | nil => simp [insertByPath]
  | cons x l ih =>
    rw [List.pairwise_cons] at h
    unfold insertByPath
    split
    · rename_i hlt
      rw [List.pairwise_cons]
      refine ⟨?_, ih h.2⟩
      intro z hz
      rcases List.mem_cons.1 ((insertByPath_perm path r l).mem_iff.1 hz) with rfl | hz'
      · exact pathLt_asymm _ _ ((pathLess_iff _ _).1 hlt)
      · exact h.1 z hz'
    · rename_i hnlt
      have hn : ¬ pathLt (path x) (path r) := fun e => hnlt ((pathLess_iff _ _).2 e)
      rw [List.pairwise_cons]
      refine ⟨?_, List.pairwise_cons.2 h⟩
      intro z hz
      rcases List.mem_cons.1 hz with rfl | hz'
      · exact hn
      · intro hzr
        rcases pathLt_cut (path z) (path x) (path r) (by rw [hlen, hlen]) (by rw [hlen, hlen])
          hzr with e | e
        · exact h.1 z hz' e
        · exact hn e

theorem sortByPath_sorted (path : Answers → List String) (n : Nat)
    (hlen : ∀ r, (path r).length = n) (l : List Answers) :
    (sortByPath path l).Pairwise (fun x y => ¬ pathLt (path y) (path x)) := by
  induction l with
  | nil => exact List.Pairwise.nil
  | cons r l ih => exact insertByPath_sorted path n hlen r _ ih

theorem insertByPath_filter (path : Answers → List String) (P : List String) (r : Answers)
    (l : List Answers) :
    (insertByPath path r l).filter (fun x => path x = P) =
      (r :: l).filter (fun x => path x = P) := by
  induction l with
  | nil => rfl
  | cons x l ih =>
    unfold insertByPath
    split
    · rename_i hlt
      have hne : path x ≠ path r := by
        intro e
        rw [e] at hlt
        exact pathLt_irrefl _ ((pathLess_iff _ _).1 hlt)
      rw [List.filter_cons, ih]
      by_cases hx : path x = P
      · have hr : ¬ path r = P := fun e => hne (hx.trans e.symm)
        simp [List.filter_cons, hx, hr]
      · simp [List.filter_cons, hx]
    · rfl

theorem sortByPath_filter (path : Answers → List String) (P : List String) (l : List Answers) :
    (sortByPath path l).filter (fun x => path x = P) = l.filter (fun x => path x = P) := by
  induction l with
  | nil => rfl
  | cons r l ih =>
    rw [sortByPath, insertByPath_filter, List.filter_cons, List.filter_cons, ih]

/-- Two lists ordered by bucket path that hold, for every path, the same
records in the same order are equal. -/
theorem eq_of_sorted_of_filters (path : Answers → List String) (n : Nat)
    (hlen : ∀ r, (path r).length = n) :
    ∀ (L1 L2 : List Answers),
      L1.Pairwise (fun x y => ¬ pathLt (path y) (path x)) →
      L2.Pairwise (fun x y => ¬ pathLt (path y) (path x)) →
      (∀ P, L1.filter (fun x => path x = P) = L2.filter (fun x => path x = P)) →
      L1 = L2 := by
  intro L1
  induction L1 with
  | nil =>
    intro L2 _ _ hf
    cases L2 with
    | nil => rfl
    | cons y t =>
      have := hf (path y)
      simp [List.filter_cons] at this
  | cons x t ih =>
    intro L2 h1 h2 hf
    cases L2 with
    | nil =>
      have := hf (path x)
      simp [List.filter_cons] at this
    | cons y t2 =>
      rw [List.pairwise_cons] at h1 h2
      have hyx : ¬ pathLt (path y) (path x) := by
        have hy : y ∈ (x :: t).filter (fun z => path z = path y) := by
          rw [hf (path y)]
          simp [List.filter_cons]
        rcases List.mem_cons.1 (List.mem_filter.1 hy).1 with e | hy'
        · rw [e]; exact pathLt_irrefl _
        · exact h1.1 y hy'
      have hxy : ¬ pathLt (path x) (path y) := by
        have hx : x ∈ (y :: t2).filter (fun z => path z = path x) := by
          rw [← hf (path x)]
          simp [List.filter_cons]
        rcases List.mem_cons.1 (List.mem_filter.1 hx).1 with e | hx'
        · rw [e]; exact pathLt_irrefl _
        · exact h2.1 x hx'
      have hp : path x = path y := pathLt_total _ _ (by rw [hlen, hlen]) hxy hyx
      have h0 := hf (path x)
      simp only [List.filter_cons, hp, decide_True, if_true, List.cons.injEq] at h0
      obtain ⟨hxy', _⟩ := h0
      subst hxy'
      congr 1
      apply ih t2 h1.2 h2.2
      intro P
      have hP := hf P
      by_cases hx : path x = P
      · simp only [List.filter_cons, hx, decide_True, if_true, List.cons.injEq, true_and] at hP
        exact hP
      · simp only [List.filter_cons, hx, decide_False] at hP
        exact hP

theorem getLastD_tail (P : List String) (h : 2 ≤ P.length) :
    P.tail.getLastD "" = P.getLastD "" := by
  cases P with
  | nil => simp at h
  | cons a P =>
    cases P with
    | nil => simp at h
    | cons b P => simp [List.getLastD]

/-- When no record holds an answer under the last label of its own path, no
leaf comparison can fail and the flattening returns. -/
theorem flatSpec_of_nil_values (n : Nat) (path : Answers → List String) (recs : List Answers)
    (hlen : ∀ r ∈ recs, (path r).length = n + 1)
    (h : ∀ r ∈ recs, (mapGet r ((path r).getLastD "")).isNil = true) :
    ∃ L, flatSpec n path recs = .ok L := by
  induction n generalizing path recs with
  | zero =>
    rw [flatSpec]
    apply concatM_total
    intro a _
    refine ⟨_, leafOrder_of_nil_values a _ ?_⟩
    intro r hr
    obtain ⟨hr1, hr2⟩ := (mem_bucket path a recs r).1 hr
    have hl := hlen r hr1
    have hh := h r hr1
    obtain ⟨b, hb⟩ : ∃ b, path r = [b] := List.length_eq_one.1 hl
    rw [hb] at hh
    simp only [headLabel, hb, List.headD_cons] at hr2
    subst hr2
    simpa [List.getLastD] using hh
  | succ n ih =>
    rw [flatSpec]
    apply concatM_total
    intro a _
    apply ih
    · intro r hr
      have := hlen r ((mem_bucket path a recs r).1 hr).1
      simp [this]
    · intro r hr
      have hr1 := ((mem_bucket path a recs r).1 hr).1
      rw [getLastD_tail _ (by rw [hlen r hr1]; omega)]
      exact h r hr1

/-- With grouping keys, when no stored record holds an answer under the last
label of its own bucket path, GetAll returns the stable sort of the store by
bucket path. -/
theorem getAll_stable_sort (p : ProjectList) (hc : p.Coherent) (hk : p.groupByKeys ≠ [])
    (hnil : ∀ r ∈ p.records,
      (mapGet r ((keyValues p.groupByKeys r).getLastD "")).isNil = true) :
    p.GetAll.map (fun o => o.val) = .ok (sortByPath (keyValues p.groupByKeys) p.records) := by
  by_cases hp : p.projects = []
  · simp [ProjectList.GetAll, ProjectList.Length, ProjectList.records, hp, pure, Except.pure,
      Except.map, sortByPath]
  · have hlen : ∀ r ∈ p.records,
        (keyValues p.groupByKeys r).length = (p.groupByKeys.length - 1) + 1 := by
      intro r _
      rw [keyValues_length]
      have := List.length_pos.2 hk
      omega
    obtain ⟨L, hL⟩ := flatSpec_of_nil_values (p.groupByKeys.length - 1)
      (keyValues p.groupByKeys) p.records hlen hnil
    have hG : p.GetAll.map (fun o => o.val) = .ok L := by rw [GetAll_val p hc hk hp, hL]
    rw [hG]
    congr 1
    obtain ⟨_, hsorted⟩ := getAll_sorted_perm p L hc hk hG
    apply eq_of_sorted_of_filters (keyValues p.groupByKeys) p.groupByKeys.length
      (fun r => keyValues_length _ r) L _ hsorted
      (sortByPath_sorted _ p.groupByKeys.length (fun r => keyValues_length _ r) _)
    intro P
    rw [sortByPath_filter]
    have hf := getAll_filter_path p L hc hk hG P
    rw [leafOrder_of_nil_values] at hf
    · simp only [Except.ok.injEq] at hf
      exact hf.symm
    · intro r hr
      obtain ⟨hr1, hr2⟩ := List.mem_filter.1 hr
      have hr2' : keyValues p.groupByKeys r = P := by simpa using hr2
      rw [← hr2']
      exact hnil r hr1

/-! ## The exact tree of the walk -/

theorem leafNodes_append (p : ProjectList) (k : Nat) (xs ys : List Answers) :
    leafNodes p k (xs ++ ys) = leafNodes p k xs ++ leafNodes p (k + xs.length) ys := by
  induction xs generalizing k with
  | nil => simp [leafNodes]
  | cons x xs ih =>
    rw [List.cons_append, leafNodes, leafNodes, ih (k + 1), List.length_cons,
      show k + 1 + xs.length = k + (xs.length + 1) by omega]
    rfl

theorem foldlM_leaves {κ : Type} (p : ProjectList) (body : Walk → κ → Except Failure Walk)
    (ks : List κ)
    (h : ∀ a ∈ ks, ∀ s s', body s a = .ok s' → ∃ added,
      s'.groupedAnswersList = s.groupedAnswersList ++ added ∧
      s'.nodes = s.nodes ++ leafNodes p s.groupedAnswersList.length added) :
    ∀ s s', ks.foldlM body s = .ok s' → ∃ added,
      s'.groupedAnswersList = s.groupedAnswersList ++ added ∧
      s'.nodes = s.nodes ++ leafNodes p s.groupedAnswersList.length added := by
  induction ks with
  | nil =>
    intro s s' hs
    simp only [List.foldlM_nil, pure, Except.pure, Except.ok.injEq] at hs
    rw [← hs]
    exact ⟨[], by simp, by simp [leafNodes]⟩
  | cons a ks ih =>
    intro s s' hs
    rw [List.foldlM_cons] at hs
    cases hb : body s a with
    | error e => rw [hb] at hs; cases hs
    | ok s1 =>
      rw [hb] at hs
      obtain ⟨x, hx1, hx2⟩ := h a (List.mem_cons_self _ _) s s1 hb
      obtain ⟨y, hy1, hy2⟩ := ih (fun b hb' => h b (List.mem_cons_of_mem _ hb')) s1 s' hs
      refine ⟨x ++ y, by rw [hy1, hx1, List.append_assoc], ?_⟩
      rw [hy2, hx2, hx1, leafNodes_append, List.length_append, List.append_assoc]

theorem addAnswers_leaves (p : ProjectList) (level : Nat)
    (hl : level + 1 = p.groupByKeys.length) (items : List Value) (st st' : Walk)
    (h : addAnswers p level items st = .ok st') :
    ∃ added, st'.groupedAnswersList = st.groupedAnswersList ++ added ∧
      st'.nodes = st.nodes ++ leafNodes p st.groupedAnswersList.length added := by
  have hkey : sliceIndex p.groupByKeys level = .ok p.lastGroupKey := by
    rw [sliceIndex_eq _ _ (by omega), ProjectList.lastGroupKey, ← hl]
    rfl
  unfold addAnswers at h
  refine foldlM_leaves p _ items ?_ st st' h
  intro v _ s s' hs
  cases hv : assertMap v with
  | error e => simp [hv, bind, Except.bind] at hs
  | ok m =>
    simp only [hv, hkey, bind, Except.bind, pure, Except.pure, Except.ok.injEq] at hs
    rw [← hs]
    refine ⟨[m], rfl, ?_⟩
    simp [leafNodes]

theorem firsts_const_append (a : String) (xs ys : List String) (hx : xs ≠ [])
    (hxa : ∀ b ∈ xs, b = a) (hy : a ∉ ys) : firsts (xs ++ ys) = a :: firsts ys := by
  induction xs with
  | nil => exact absurd rfl hx
  | cons b xs ih =>
    have hb : b = a := hxa b (List.mem_cons_self _ _)
    subst hb
    rw [List.cons_append, firsts]
    congr 1
    by_cases hxs : xs = []
    · subst hxs
      rw [List.nil_append]
      apply List.filter_eq_self.2
      intro c hc
      simp only [decide_eq_true_eq]
      intro e
      exact hy (e ▸ (mem_firsts _ _).1 hc)
    · rw [ih hxs (fun c hc => hxa c (List.mem_cons_of_mem _ hc))]
      simp only [List.filter_cons, ne_eq, not_true_eq_false, decide_False, Bool.false_eq_true,
        if_false]
      apply List.filter_eq_self.2
      intro c hc
      simp only [decide_eq_true_eq]
      intro e
      exact hy (e ▸ (mem_firsts _ _).1 hc)

theorem bucketNodes_congr (nodesOf : String → Nat → List Answers → List treeprint.Node)
    (path : Answers → List String) (recs recs' : List Answers) (labels : List String)
    (h : ∀ a ∈ labels, bucket path a recs = bucket path a recs') (k : Nat) :
    bucketNodes nodesOf path recs labels k = bucketNodes nodesOf path recs' labels k := by
  induction labels generalizing k with
  | nil => rfl
  | cons a labels ih =>
    rw [bucketNodes, bucketNodes, h a (List.mem_cons_self _ _),
      ih (fun b hb => h b (List.mem_cons_of_mem _ hb))]

/-- The loop over the sorted labels of a level: when every round adds the
records of its bucket to the list and the nodes of its bucket to the tree, the
loop adds the records of all buckets and their nodes, bucket after bucket. -/
theorem foldlM_buckets (nodesOf : String → Nat → List Answers → List treeprint.Node)
    (path : Answers → List String) (body : Walk → String → Except Failure Walk)
    (ks : List String) (hnd : ks.Nodup)
    (h : ∀ a ∈ ks, ∀ s s', body s a = .ok s' → ∃ added, added ≠ [] ∧
      (∀ r ∈ added, headLabel path r = a) ∧
      s'.groupedAnswersList = s.groupedAnswersList ++ added ∧
      s'.nodes = s.nodes ++ nodesOf a s.groupedAnswersList.length added) :
    ∀ s s', ks.foldlM body s = .ok s' → ∃ added,
      (∀ r ∈ added, headLabel path r ∈ ks) ∧
      firsts (added.map (headLabel path)) = ks ∧
      s'.groupedAnswersList = s.groupedAnswersList ++ added ∧
      s'.nodes = s.nodes ++ bucketNodes nodesOf path added ks s.groupedAnswersList.length := by
  induction ks with
  | nil =>
    intro s s' hs
    simp only [List.foldlM_nil, pure, Except.pure, Except.ok.injEq] at hs
    rw [← hs]
    exact ⟨[], by simp, by simp [firsts], by simp, by simp [bucketNodes]⟩
  | cons a ks ih =>
    intro s s' hs
    rw [List.nodup_cons] at hnd
    rw [List.foldlM_cons] at hs
    cases hb : body s a with
    | error e => rw [hb] at hs; cases hs
    | ok s1 =>
      rw [hb] at hs
      obtain ⟨x, hxne, hxa, hx1, hx2⟩ := h a (List.mem_cons_self _ _) s s1 hb
      obtain ⟨y, hyk, hyf, hy1, hy2⟩ :=
        ih hnd.2 (fun b hb' => h b (List.mem_cons_of_mem _ hb')) s1 s' hs
      have hya : ∀ r ∈ y, headLabel path r ≠ a := fun r hr e => hnd.1 (e ▸ hyk r hr)
      have hbx : bucket path a (x ++ y) = x := by
        unfold bucket
        rw [List.filter_append, List.filter_eq_self.2 (fun r hr => by simp [hxa r hr]),
          List.filter_eq_nil_iff.2 (fun r hr => by simp [hya r hr]), List.append_nil]
      have hby : ∀ b ∈ ks, bucket path b (x ++ y) = bucket path b y := by
        intro b hb'
        have hba : ¬ a = b := fun e => hnd.1 (e ▸ hb')
        unfold bucket
        rw [List.filter_append, List.filter_eq_nil_iff.2 (fun r hr => by simp [hxa r hr, hba]),
          List.nil_append]
      refine ⟨x ++ y, ?_, ?_, by rw [hy1, hx1, List.append_assoc], ?_⟩
      · intro r hr
        rcases List.mem_append.1 hr with hr | hr
        · rw [hxa r hr]; exact List.mem_cons_self _ _
        · exact List.mem_cons_of_mem _ (hyk r hr)
      · rw [List.map_append, firsts_const_append a _ _ (by simpa using hxne)
          (fun b hb' => by
            obtain ⟨r, hr, rfl⟩ := List.mem_map.1 hb'
            exact hxa r hr)
          (fun hmem => by
            obtain ⟨r, hr, e⟩ := List.mem_map.1 hmem
            exact hya r hr e), hyf]
      · rw [hy2, hx2, hx1, bucketNodes, hbx, bucketNodes_congr nodesOf path _ _ ks hby,
          List.length_append, List.append_assoc]

/-- The walk over the container of a list of records adds the records in
flattened order to the list and the forest of that flattened part to the
tree. -/
theorem populate_forest (p : ProjectList) (n : Nat) :
    ∀ (path : Answers → List String) (recs : List Answers) (level fuel : Nat) (st st' : Walk),
      level + n + 1 = p.groupByKeys.length → n + 1 ≤ fuel →
      p.recursivePopulateGroupListAndTree fuel level (trieSpec (n + 1) path recs) st = .ok st' →
      ∃ added, added.Perm recs ∧
        st'.groupedAnswersList = st.groupedAnswersList ++ added ∧
        st'.nodes = st.nodes ++ forest p n level path st.groupedAnswersList.length added := by
  induction n with
  | zero =>
    intro path recs level fuel st st' hlevel hfuel h
    obtain ⟨added', hperm', hlist'⟩ := populate_ok_added p 0 path recs level fuel st st'
      hlevel hfuel h
    obtain ⟨fuel', rfl⟩ : ∃ fuel', fuel = fuel' + 1 := ⟨fuel - 1, by omega⟩
    rw [ProjectList.recursivePopulateGroupListAndTree] at h
    simp only [trieSpec, gabs.ChildrenMap, map_fst_map] at h
    obtain ⟨added, hlist, hnodes⟩ := foldlM_leaves p _ _ (by
      intro a ha s s' hs
      have ha' : a ∈ firsts (recs.map (headLabel path)) := (mem_sortStrings _ _).1 ha
      have hbranch : (decide (a.length > 0) && decide (level + 1 < p.groupByKeys.length)) =
          false := by
        have : ¬ (level + 1 < p.groupByKeys.length) := by omega
        simp [this]
      simp only [mapGet, mapLookup_map, ha', if_true, Option.getD_some, hbranch,
        Bool.false_eq_true, if_false, pure, Except.pure, bind, Except.bind] at hs
      cases hsort : sortSlice (leafLess a) (List.map Value.object (bucket path a recs)) with
      | error e => rw [hsort] at hs; cases hs
      | ok sorted =>
        rw [hsort] at hs
        simp only [] at hs
        cases hadd : addAnswers p level sorted s with
        | error e => rw [hadd] at hs; cases hs
        | ok after =>
          rw [hadd] at hs
          simp only [Except.ok.injEq] at hs
          subst hs
          exact addAnswers_leaves p level (by omega) sorted s after hadd) st st' h
    have hadd : added = added' := List.append_cancel_left (hlist.symm.trans hlist')
    subst hadd
    exact ⟨added, hperm', hlist, by rw [hnodes, forest]⟩
  | succ n ih =>
    intro path recs level fuel st st' hlevel hfuel h
    obtain ⟨added', hperm', hlist'⟩ := populate_ok_added p (n + 1) path recs level fuel st st'
      hlevel hfuel h
    obtain ⟨fuel', rfl⟩ : ∃ fuel', fuel = fuel' + 1 := ⟨fuel - 1, by omega⟩
    rw [ProjectList.recursivePopulateGroupListAndTree] at h
    simp only [gabs.ChildrenMap] at h
    rw [trieSpec] at h
    simp only [map_fst_map] at h
    obtain ⟨added, _, hfirsts, hlist, hnodes⟩ := foldlM_buckets
      (fun a k inBucket =>
        if a.length > 0 then
          [.mk (some (p.coloredString level a)) (some (p.groupByKeys.getD level ""))
            (forest p n (level + 1) (fun r => (path r).tail) k inBucket)]
        else forest p n (level + 1) (fun r => (path r).tail) k inBucket)
      path _ _ (labels_nodup path recs) (by
      intro a ha s s' hs
      have ha' : a ∈ firsts (recs.map (headLabel path)) := (mem_sortStrings _ _).1 ha
      have hl : level < p.groupByKeys.length := by omega
      have hbne : bucket path a recs ≠ [] := by
        obtain ⟨r, hr, hra⟩ := (mem_labels path recs a).1 ha
        exact List.ne_nil_of_mem ((mem_bucket path a recs r).2 ⟨hr, hra⟩)
      have hbranch : (decide (a.length > 0) && decide (level + 1 < p.groupByKeys.length)) =
          decide (a.length > 0) := by
        have : level + 1 < p.groupByKeys.length := by omega
        simp [this]
      simp only [mapGet, mapLookup_map, ha', if_true, Option.getD_some, hbranch] at hs
      rw [trieSpec] at hs
      simp only [] at hs
      by_cases hapos : a.length > 0
      · simp only [hapos, decide_True, if_true, sliceIndex_eq _ _ hl, bind, Except.bind] at hs
        cases hrec : p.recursivePopulateGroupListAndTree fuel' (level + 1)
            (trieSpec (n + 1) (fun r => (path r).tail) (bucket path a recs))
            { s with nodes := [] } with
        | error e => rw [trieSpec] at hrec; rw [hrec] at hs; cases hs
        | ok after =>
          obtain ⟨x, hxperm, hxlist, hxnodes⟩ := ih _ _ _ _ _ _ (by omega) (by omega) hrec
          rw [trieSpec] at hrec
          rw [hrec] at hs
          simp only [pure, Except.pure, Except.ok.injEq] at hs
          subst hs
          refine ⟨x, fun e => hbne (by rw [e] at hxperm; exact hxperm.symm.eq_nil), ?_, hxlist, ?_⟩
          · intro r hr
            exact ((mem_bucket path a recs r).1 (hxperm.mem_iff.1 hr)).2
          · simp only [hapos, if_true, hxnodes, List.nil_append]
      · simp only [hapos, decide_False, Bool.false_eq_true, if_false, bind, Except.bind, pure,
          Except.pure] at hs
        cases hrec : p.recursivePopulateGroupListAndTree fuel' (level + 1)
            (trieSpec (n + 1) (fun r => (path r).tail) (bucket path a recs)) s with
        | error e => rw [trieSpec] at hrec; rw [hrec] at hs; cases hs
        | ok after =>
          obtain ⟨x, hxperm, hxlist, hxnodes⟩ := ih _ _ _ _ _ _ (by omega) (by omega) hrec
          rw [trieSpec] at hrec
          rw [hrec] at hs
          simp only [Except.ok.injEq] at hs
          subst hs
          refine ⟨x, fun e => hbne (by rw [e] at hxperm; exact hxperm.symm.eq_nil), ?_, hxlist, ?_⟩
          · intro r hr
            exact ((mem_bucket path a recs r).1 (hxperm.mem_iff.1 hr)).2
          · simp only [hapos, if_false, hxnodes]) st st' h
    have hadd : added = added' := List.append_cancel_left (hlist.symm.trans hlist')
    subst hadd
    refine ⟨added, hperm', hlist, ?_⟩
    rw [hnodes, forest, hfirsts]

theorem leafNodes_walker (p q : ProjectList) (hk : q.groupByKeys = p.groupByKeys)
    (hh : q.hiddenKeys = p.hiddenKeys) (hn : q.noColor = p.noColor) (k : Nat)
    (xs : List Answers) : leafNodes q k xs = leafNodes p k xs := by
  induction xs generalizing k with
  | nil => rfl
  | cons x xs ih =>
    simp only [leafNodes, ih, ProjectList.lastGroupKey, ProjectList.answerString, hk, hh, hn]

theorem forest_walker (p q : ProjectList) (hk : q.groupByKeys = p.groupByKeys)
    (hh : q.hiddenKeys = p.hiddenKeys) (hn : q.noColor = p.noColor) (n : Nat) :
    ∀ (level : Nat) (path : Answers → List String) (k : Nat) (xs : List Answers),
      forest q n level path k xs = forest p n level path k xs := by
  induction n with
  | zero =>
    intro level path k xs
    rw [forest, forest, leafNodes_walker p q hk hh hn]
  | succ n ih =>
    intro level path k xs
    rw [forest, forest]
    congr 1
    funext a k inBucket
    rw [ih]
    simp only [ProjectList.coloredString, hk, hn]

/-- After `initGroups` the tree is the root over the forest of the flattened
list. -/
theorem initGroups_forest (p q : ProjectList) (out : List Output)
    (h : p.initGroups = .ok (q, out)) :
    q.groupedTree = some (.mk none none
      (forest p (p.groupByKeys.length - 1) 0 (keyValues p.groupByKeys) 0
        q.groupedAnswersList)) := by
  by_cases hk : p.groupByKeys = []
  · rw [initGroups_empty_keys_eq p hk] at h
    simp only [Except.ok.injEq, Prod.mk.injEq] at h
    rw [← h.1, hk]
    rfl
  · have hlen : p.groupByKeys.length > 0 := List.length_pos.2 hk
    obtain ⟨n, hn⟩ : ∃ n, p.groupByKeys.length = n + 1 := ⟨p.groupByKeys.length - 1, by omega⟩
    rw [initGroups_unfold] at h
    have hg := groupProjectAnswers_eq
      (ProjectList.mk p.projects p.groupByKeys p.hiddenKeys gabs.New [] (some treeprint.New)
        p.noColor) hk rfl
    have hl : (ProjectList.mk p.projects p.groupByKeys p.hiddenKeys gabs.New []
        (some treeprint.New) p.noColor).groupProjectAnswers.groupedAnswersList = [] := by
      simp [ProjectList.groupProjectAnswers, hlen]
    have hk' : (ProjectList.mk p.projects p.groupByKeys p.hiddenKeys gabs.New []
        (some treeprint.New) p.noColor).groupProjectAnswers.groupByKeys = p.groupByKeys := by
      simp [ProjectList.groupProjectAnswers, hlen]
    have hh' : (ProjectList.mk p.projects p.groupByKeys p.hiddenKeys gabs.New []
        (some treeprint.New) p.noColor).groupProjectAnswers.hiddenKeys = p.hiddenKeys := by
      simp [ProjectList.groupProjectAnswers, hlen]
    have hn' : (ProjectList.mk p.projects p.groupByKeys p.hiddenKeys gabs.New []
        (some treeprint.New) p.noColor).groupProjectAnswers.noColor = p.noColor := by
      simp [ProjectList.groupProjectAnswers, hlen]
    simp only [] at hg
    generalize (ProjectList.mk p.projects p.groupByKeys p.hiddenKeys gabs.New []
        (some treeprint.New) p.noColor).groupProjectAnswers = q0 at hg hl hk' hh' hn' h
    rw [← ProjectList.records, hn] at hg
    rw [hl] at h
    cases hrun : q0.recursivePopulateGroupListAndTree (q0.groupedAnswers.nesting + 1) 0
        q0.groupedAnswers { groupedAnswersList := [], nodes := [], stdout := [] } with
    | error e => rw [hrun] at h; cases h
    | ok w =>
      rw [hrun] at h
      simp only [bind, Except.bind, pure, Except.pure, Except.ok.injEq, Prod.mk.injEq] at h
      rw [← h.1]
      simp only [hn, Nat.add_sub_cancel]
      by_cases hp : p.records = []
      · rw [hg, hp] at hrun
        have : trieSpec (n + 1) (keyValues p.groupByKeys) [] = .object [] := by
          simp [trieSpec, firsts]
        rw [this, populate_empty] at hrun
        rw [← Except.ok.inj hrun]
        cases n with
        | zero => rfl
        | succ n => simp [forest, bucketNodes, firsts]
      · have hnest := nesting_trieSpec (n + 1) (keyValues p.groupByKeys) _ hp
        rw [hg] at hrun
        obtain ⟨added, _, hlist, hnodes⟩ := populate_forest q0 n (keyValues p.groupByKeys)
          p.records 0 _ _ w (by rw [hk']; omega) (by omega) hrun
        simp only [List.nil_append, List.length_nil] at hlist hnodes
        rw [hnodes, hlist, forest_walker p q0 hk' hh' hn']



/-! ## Claims about the order of the flattened list -/

/-- C3: with grouping keys, when the bucket paths of two stored records first
differ at level `k` and the label of the first record is the smaller one there,
both records are in the list of GetAll and every occurrence of the first record
comes before every occurrence of the second: buckets are emitted depth-first in
ascending label order at every level. -/
theorem buckets_in_ascending_label_order (p : ProjectList) (L : List Answers)
    (hc : p.Coherent) (hk : p.groupByKeys ≠ [])
    (h : p.GetAll.map (fun o => o.val) = .ok L)
    (r1 r2 : Answers) (h1 : r1 ∈ p.records) (h2 : r2 ∈ p.records) (k : Nat)
    (hpre : ∀ m, m < k →
      (keyValues p.groupByKeys r1).getD m "" = (keyValues p.groupByKeys r2).getD m "")
    (hlt : strLess ((keyValues p.groupByKeys r1).getD k "")
      ((keyValues p.groupByKeys r2).getD k "") = true) :
    r1 ∈ L ∧ r2 ∈ L ∧
      ∀ (i j : Nat) (hi : i < L.length) (hj : j < L.length),
        L.get ⟨i, hi⟩ = r1 → L.get ⟨j, hj⟩ = r2 → i < j := by
  obtain ⟨hperm, hsorted⟩ := getAll_sorted_perm p L hc hk h
  refine ⟨hperm.mem_iff.2 h1, hperm.mem_iff.2 h2, ?_⟩
  intro i j hi hj e1 e2
  apply before_of_sorted L (keyValues p.groupByKeys) hsorted i j hi hj
  rw [e1, e2]
  exact pathLt_of_levels _ _ (by simp [keyValues_length]) k hpre hlt

theorem buckets_in_ascending_label_order_witness :
    scenario.GetAll.map (fun o => o.val) =
        .ok [[("env", .str "dev"), ("user", .str "b")],
             [("env", .str "prod"), ("user", .str "a")],
             [("env", .str "prod"), ("user", .str "c")]] ∧
      strLess "dev" "prod" = true ∧
      ∀ (i j : Nat)
        (hi : i < [[("env", Value.str "dev"), ("user", Value.str "b")],
             [("env", .str "prod"), ("user", .str "a")],
             [("env", .str "prod"), ("user", .str "c")]].length)
        (hj : j < [[("env", Value.str "dev"), ("user", Value.str "b")],
             [("env", .str "prod"), ("user", .str "a")],
             [("env", .str "prod"), ("user", .str "c")]].length),
        [[("env", Value.str "dev"), ("user", Value.str "b")],
             [("env", .str "prod"), ("user", .str "a")],
             [("env", .str "prod"), ("user", .str "c")]].get ⟨i, hi⟩ =
            [("env", .str "dev"), ("user", .str "b")] →
        [[("env", Value.str "dev"), ("user", Value.str "b")],
             [("env", .str "prod"), ("user", .str "a")],
             [("env", .str "prod"), ("user", .str "c")]].get ⟨j, hj⟩ =
            [("env", .str "prod"), ("user", .str "c")] → i < j :=
  ⟨rfl, by decide,
    (buckets_in_ascending_label_order scenario _ (Or.inl rfl) (by decide) rfl
      [("env", .str "dev"), ("user", .str "b")] [("env", .str "prod"), ("user", .str "c")]
      (List.Mem.tail _ (List.Mem.head _)) (List.Mem.tail _ (List.Mem.tail _ (List.Mem.head _)))
      0 (fun m hm => absurd hm (Nat.not_lt_zero m)) (by decide)).2.2⟩

/-- C4, as the code has it: with grouping keys, when two stored records agree on
the labels of all grouping keys before the last and the label `v1` of the first
record for the last key is greater than the label `v2` of the second, the first
record comes after the second in the list of GetAll (the buckets of the last
key are emitted in ascending order, like those of every other key). -/
theorem greater_last_label_comes_later (p : ProjectList) (L : List Answers)
    (hc : p.Coherent) (hk : p.groupByKeys ≠ [])
    (h : p.GetAll.map (fun o => o.val) = .ok L)
    (r1 r2 : Answers) (h1 : r1 ∈ p.records) (h2 : r2 ∈ p.records)
    (hsame : ∀ m, m < p.groupByKeys.length - 1 →
      (keyValues p.groupByKeys r1).getD m "" = (keyValues p.groupByKeys r2).getD m "")
    (hgt : strLess ((keyValues p.groupByKeys r2).getD (p.groupByKeys.length - 1) "")
      ((keyValues p.groupByKeys r1).getD (p.groupByKeys.length - 1) "") = true) :
    r1 ∈ L ∧ r2 ∈ L ∧
      ∀ (i j : Nat) (hi : i < L.length) (hj : j < L.length),
        L.get ⟨i, hi⟩ = r1 → L.get ⟨j, hj⟩ = r2 → j < i := by
  obtain ⟨hperm, hsorted⟩ := getAll_sorted_perm p L hc hk h
  refine ⟨hperm.mem_iff.2 h1, hperm.mem_iff.2 h2, ?_⟩
  intro i j hi hj e1 e2
  apply before_of_sorted L (keyValues p.groupByKeys) hsorted j i hj hi
  rw [e1, e2]
  exact pathLt_of_levels _ _ (by simp [keyValues_length]) _ (fun m hm => (hsame m hm).symm) hgt

theorem greater_last_label_comes_later_witness :
    descending.GetAll.map (fun o => o.val) = .ok [[("env", .str "a")], [("env", .str "b")]] ∧
      strLess "a" "b" = true ∧
      ∀ (i j : Nat) (hi : i < [[("env", Value.str "a")], [("env", .str "b")]].length)
        (hj : j < [[("env", Value.str "a")], [("env", .str "b")]].length),
        [[("env", Value.str "a")], [("env", .str "b")]].get ⟨i, hi⟩ = [("env", .str "b")] →
        [[("env", Value.str "a")], [("env", .str "b")]].get ⟨j, hj⟩ = [("env", .str "a")] →
        j < i :=
  ⟨rfl, by decide,
    (greater_last_label_comes_later descending _ (Or.inl rfl) (by decide) rfl
      [("env", .str "b")] [("env", .str "a")]
      (List.Mem.head _) (List.Mem.tail _ (List.Mem.head _))
      (fun m hm => absurd hm (Nat.not_lt_zero m)) (by decide)).2.2⟩

/-- C4 as stated fails: in `descending` the records agree on all grouping keys
before the last (there is none), their values for the last key are the
non-empty "b" and "a" with "b" greater, and yet the record with "b" is at
position 1 of the list of GetAll, after the record with "a" at position 0. -/
theorem descending_leaf_order_counterexample :
    ∃ (L : List Answers) (i j : Nat) (hi : i < L.length) (hj : j < L.length),
      descending.GetAll.map (fun o => o.val) = .ok L ∧
      (keyValues descending.groupByKeys (L.get ⟨i, hi⟩)).getD 0 "" = "b" ∧
      (keyValues descending.groupByKeys (L.get ⟨j, hj⟩)).getD 0 "" = "a" ∧
      strLess "a" "b" = true ∧ ¬ i < j :=
  ⟨[[("env", .str "a")], [("env", .str "b")]], 1, 0, by decide, by decide, rfl, by decide,
    by decide, by decide, by decide⟩

/-- C7: a record whose value for a grouping key is absent or nil gets the label
"" at that level; no stored record is missing from the list of GetAll; and with
grouping keys every record whose first label is "" comes before every record
whose first label is not empty. -/
theorem missing_value_goes_to_empty_bucket (p : ProjectList) (L : List Answers)
    (hc : p.Coherent) (hk : p.groupByKeys ≠ [])
    (h : p.GetAll.map (fun o => o.val) = .ok L) :
    (∀ (r : Answers) (k : Nat) (hkl : k < p.groupByKeys.length),
        (mapGet r (p.groupByKeys.get ⟨k, hkl⟩)).isNil = true →
        (keyValues p.groupByKeys r).get? k = some "") ∧
      (∀ project ∈ p.projects, project.Answers ∈ L) ∧
      ∀ (i j : Nat) (hi : i < L.length) (hj : j < L.length),
        (keyValues p.groupByKeys (L.get ⟨i, hi⟩)).head? = some "" →
        (keyValues p.groupByKeys (L.get ⟨j, hj⟩)).head? ≠ some "" → i < j := by
  obtain ⟨hperm, hsorted⟩ := getAll_sorted_perm p L hc hk h
  refine ⟨?_, ?_, ?_⟩
  · intro r k hkl hnil
    simp only [keyValues, List.get?_eq_getElem?, List.getElem?_map, List.getElem?_eq_getElem hkl, Option.map_some']
    unfold mapGet at hnil
    cases hlook : mapLookup r (p.groupByKeys.get ⟨k, hkl⟩) with
    | none => rfl
    | some v =>
      rw [hlook] at hnil
      simp only [Option.getD_some] at hnil
      simp [hnil]
  · intro project hproject
    exact hperm.mem_iff.2 (List.mem_map.2 ⟨project, hproject, rfl⟩)
  · intro i j hi hj hempty hnonempty
    apply before_of_sorted L (keyValues p.groupByKeys) hsorted i j hi hj
    cases hP : keyValues p.groupByKeys (L.get ⟨i, hi⟩) with
    | nil => rw [hP] at hempty; simp at hempty
    | cons a P =>
      cases hQ : keyValues p.groupByKeys (L.get ⟨j, hj⟩) with
      | nil =>
        have := keyValues_length p.groupByKeys (L.get ⟨j, hj⟩)
        rw [hQ] at this
        exact absurd (List.length_eq_zero.1 this.symm) hk
      | cons b Q =>
        rw [hP] at hempty
        rw [hQ] at hnonempty
        simp only [List.head?_cons, Option.some.injEq] at hempty
        simp only [List.head?_cons, ne_eq, Option.some.injEq] at hnonempty
        subst hempty
        exact Or.inl (strLess_empty b hnonempty)

theorem missing_value_goes_to_empty_bucket_witness :
    withMissing.GetAll.map (fun o => o.val) =
        .ok [[("user", .str "d")],
             [("env", .null), ("user", .str "e")],
             [("env", .str "prod"), ("user", .str "a")]] ∧
      (keyValues withMissing.groupByKeys [("user", .str "d")]).get? 0 = some "" ∧
      (keyValues withMissing.groupByKeys [("env", .null), ("user", .str "e")]).get? 0 = some "" ∧
      (∀ project ∈ withMissing.projects, project.Answers ∈
        [[("user", Value.str "d")],
             [("env", .null), ("user", .str "e")],
             [("env", .str "prod"), ("user", .str "a")]]) :=
  ⟨rfl,
   (missing_value_goes_to_empty_bucket withMissing _ (Or.inl rfl) (by decide) rfl).1
      [("user", .str "d")] 0 (by decide) rfl,
   (missing_value_goes_to_empty_bucket withMissing _ (Or.inl rfl) (by decide) rfl).1
      [("env", .null), ("user", .str "e")] 0 (by decide) rfl,
   (missing_value_goes_to_empty_bucket withMissing _ (Or.inl rfl) (by decide) rfl).2.1⟩

/-- C6: after `groupProjectAnswers` on a fresh container, with grouping keys,
the container holds at every bucket path `P` of a stored record exactly the
stored records whose bucket path is `P`, in store order and with repetitions
kept; at a path of that length which no record has, it holds nothing. -/
theorem leaf_holds_records_of_its_path (p : ProjectList) (hk : p.groupByKeys ≠ [])
    (hg : p.groupedAnswers = gabs.New) (P : List String)
    (hP : P.length = p.groupByKeys.length) :
    gabs.Search p.groupProjectAnswers.groupedAnswers P =
      if (p.records.filter (fun r => keyValues p.groupByKeys r = P)).isEmpty then .null
      else .array ((p.records.filter (fun r => keyValues p.groupByKeys r = P)).map
        Value.object) := by
  obtain ⟨n, hn⟩ : ∃ n, p.groupByKeys.length = n + 1 :=
    ⟨p.groupByKeys.length - 1, by have := List.length_pos.2 hk; omega⟩
  rw [groupProjectAnswers_eq p hk hg, hn, ← ProjectList.records]
  apply search_trieSpec
  · intro r _
    rw [keyValues_length, hn]
  · rw [hP, hn]

theorem leaf_holds_records_of_its_path_witness :
    gabs.Search withDuplicate.groupProjectAnswers.groupedAnswers ["prod"] =
        .array [.object [("env", .str "prod"), ("user", .str "a")],
                .object [("env", .str "prod"), ("user", .str "a")]] ∧
      gabs.Search withDuplicate.groupProjectAnswers.groupedAnswers ["test"] = .null :=
  ⟨leaf_holds_records_of_its_path withDuplicate (by decide) rfl ["prod"] rfl,
   leaf_holds_records_of_its_path withDuplicate (by decide) rfl ["test"] rfl⟩

/-- With grouping keys, the stored records of one bucket path `P` appear in the
list of GetAll in store order, provided none of them has a non-nil answer under
the key that equals the last label of `P` (the key under which the comparison
of the leaf reads the records). -/
theorem same_path_keeps_store_order (p : ProjectList) (L : List Answers) (hc : p.Coherent)
    (hk : p.groupByKeys ≠ []) (h : p.GetAll.map (fun o => o.val) = .ok L) (P : List String)
    (hnil : ∀ r ∈ p.records, keyValues p.groupByKeys r = P →
      (mapGet r (P.getLastD "")).isNil = true) :
    L.filter (fun r => keyValues p.groupByKeys r = P) =
      p.records.filter (fun r => keyValues p.groupByKeys r = P) := by
  have h1 := getAll_filter_path p L hc hk h P
  rw [leafOrder_of_nil_values] at h1
  · exact (Except.ok.inj h1).symm
  · intro r hr
    have := List.mem_filter.1 hr
    exact hnil r this.1 (by simpa using this.2)

theorem same_path_keeps_store_order_witness :
    scenario.GetAll.map (fun o => o.val) = .ok scenarioFlattened ∧
      scenarioFlattened.filter (fun r => keyValues scenario.groupByKeys r = ["prod"]) =
        [[("env", .str "prod"), ("user", .str "a")], [("env", .str "prod"), ("user", .str "c")]] :=
  ⟨rfl, same_path_keeps_store_order scenario scenarioFlattened (Or.inl rfl) (by decide) rfl
    ["prod"] (by
      intro r hr _
      simp only [scenario, ProjectList.new, ProjectList.records, List.map_cons, List.map_nil,
        List.mem_cons, List.mem_singleton, List.not_mem_nil, or_false] at hr
      rcases hr with rfl | rfl | rfl <;> rfl)⟩

/-- C5, evaluated where it fails: the two records of `labelAsKey` have the same
bucket path, the first is stored before the second, and GetAll lists the second
before the first, because the comparison of the leaf reads the records under
the label of the bucket, `prod`, under which both hold an answer, and not under
the grouping key `env`, under which they tie. -/
theorem same_path_reordered_counterexample :
    labelAsKey.records =
        [[("env", .str "prod"), ("prod", .str "a")], [("env", .str "prod"), ("prod", .str "b")]] ∧
      keyValues labelAsKey.groupByKeys [("env", .str "prod"), ("prod", .str "a")] = ["prod"] ∧
      keyValues labelAsKey.groupByKeys [("env", .str "prod"), ("prod", .str "b")] = ["prod"] ∧
      labelAsKey.GetAll.map (fun o => o.val) =
        .ok [[("env", .str "prod"), ("prod", .str "b")],
             [("env", .str "prod"), ("prod", .str "a")]] ∧
      ([("env", Value.str "prod"), ("prod", Value.str "a")] : Answers) ≠
        [("env", .str "prod"), ("prod", .str "b")] :=
  ⟨rfl, rfl, rfl, rfl, by simp⟩

/-! ## Without grouping keys -/

/-- C1, evaluated where it fails: the store of `ungrouped` holds one record, its
list of grouping keys is empty, and GetAll returns the empty list. -/
theorem ungrouped_store_is_dropped :
    ungrouped.Length = 1 ∧ ungrouped.GetAll.map (fun o => o.val) = .ok [] ∧
      ungrouped.GetAll.map (fun o => o.stdout) =
        .ok [.text "I don't know about type []map[string]interface \x7b\x7d!\n"] :=
  ⟨rfl, rfl, rfl⟩

/-- C2, as the code has it: without grouping keys GetAll returns the empty list,
whatever the store holds: the slice of all records that `groupProjectAnswers`
stores is of a type that the walk does not recognise. -/
theorem no_grouping_keys_returns_nothing (p : ProjectList) (hk : p.groupByKeys = [])
    (hcache : p.groupedAnswersList = []) :
    p.GetAll.map (fun o => o.val) = .ok [] := by
  unfold ProjectList.GetAll
  by_cases hlen : p.Length = 0
  · simp [hlen, pure, Except.pure, Except.map]
  · have hinit := initGroups_empty_keys p hk
    simp only [hlen, if_false, hcache, List.length_nil, if_true]
    cases hr : p.initGroups with
    | error e => rw [hr] at hinit; cases hinit
    | ok r =>
      rw [hr] at hinit
      simpa [bind, Except.bind, pure, Except.pure, Except.map] using hinit

theorem no_grouping_keys_returns_nothing_witness :
    ungrouped.records = [[("env", .str "prod")]] ∧
      ungrouped.GetAll.map (fun o => o.val) = .ok [] :=
  ⟨rfl, no_grouping_keys_returns_nothing ungrouped rfl rfl⟩

/-! ## Lookup by index -/

/-- C8, evaluated where it fails: in `ungrouped` the index 0 is within
`[0, Length())`, and GetIndex(0) ends in a panic instead of returning a
record, because the flattened list is empty. -/
theorem ungrouped_index_panics :
    ungrouped.Length = 1 ∧ ungrouped.GetAll.map (fun o => o.val) = .ok [] ∧
      ungrouped.GetIndex 0 = .error (.panic "index out of range") :=
  ⟨rfl, rfl, rfl⟩

/-- C9, as the code has it: on a store that is not empty and for which GetAll
returns, GetIndex fails with IndexInvalid and returns no record for every index
outside `[0, Length())`, among them -1 and Length(); on an empty store GetIndex
fails with ListEmpty for every index. -/
theorem getIndex_out_of_range (p : ProjectList) (i : Int) :
    (p.projects ≠ [] → ∀ L : List Answers, p.GetAll.map (fun o => o.val) = .ok L →
        (i < 0 ∨ i ≥ (p.Length : Int)) →
        ∃ o msg, p.GetIndex i = .ok o ∧ o.val = .error (.ProjectListIndexInvalidError msg)) ∧
      (p.projects = [] →
        ∃ o msg, p.GetIndex i = .ok o ∧ o.val = .error (.ProjectListEmptyError msg)) := by
  constructor
  · intro hp L h hi
    have hlen : p.Length ≠ 0 := by
      simpa [ProjectList.Length, List.length_eq_zero] using hp
    cases hg : p.GetAll with
    | error e => rw [hg] at h; cases h
    | ok o =>
      have hproj := getAll_self_projects p o hg
      rw [getIndex_via_getAll p hlen, hg]
      have hcond : i < 0 ∨ i ≥ (o.self.projects.length : Int) := by
        rw [hproj]
        exact hi
      simp only [bind, Except.bind, hcond, if_true]
      exact ⟨_, _, rfl, rfl⟩
  · intro hp
    have hlen : p.Length = 0 := by simp [ProjectList.Length, hp]
    exact ⟨_, _, by simp only [ProjectList.GetIndex, hlen, if_true]; rfl, rfl⟩

theorem getIndex_out_of_range_witness :
    scenario.GetAll.map (fun o => o.val) = .ok scenarioFlattened ∧
      (∃ o msg, scenario.GetIndex (-1) = .ok o ∧
        o.val = .error (.ProjectListIndexInvalidError msg)) ∧
      (∃ o msg, scenario.GetIndex (scenario.Length : Int) = .ok o ∧
        o.val = .error (.ProjectListIndexInvalidError msg)) ∧
      (∃ o msg, emptyStore.GetIndex 0 = .ok o ∧
        o.val = .error (.ProjectListEmptyError msg)) :=
  ⟨rfl,
   (getIndex_out_of_range scenario (-1)).1 (List.cons_ne_nil _ _) scenarioFlattened rfl
     (Or.inl (by decide)),
   (getIndex_out_of_range scenario (scenario.Length : Int)).1 (List.cons_ne_nil _ _)
     scenarioFlattened rfl (Or.inr (le_refl _)),
   (getIndex_out_of_range emptyStore 0).2 rfl⟩

/-- C9 as stated fails: on the empty store GetIndex(-1) and GetIndex(Length())
fail with ListEmpty, not with IndexInvalid. -/
theorem empty_store_index_counterexample :
    emptyStore.Length = 0 ∧
      (∀ i : Int, ∃ o, emptyStore.GetIndex i = .ok o ∧
        o.val = .error (.ProjectListEmptyError
          "No answers found, please call `drawbridge create` first") ∧
        ∀ msg, o.val ≠ .error (.ProjectListIndexInvalidError msg)) :=
  ⟨rfl, fun _ => ⟨_, rfl, rfl, fun _ hm => by cases hm⟩⟩

/-! ## The empty store -/

/-- C10: on an empty store Length is 0, GetAll returns the empty list, and
GetIndex (for every index) and Prompt (for every message and input) return the
ListEmpty error, Prompt having printed nothing and read no input. -/
theorem empty_store (p : ProjectList) (hp : p.projects = []) :
    p.Length = 0 ∧
      p.GetAll = .ok { val := [], self := p, stdout := [] } ∧
      (∀ i : Int, p.GetIndex i =
        .ok { val := .error (.ProjectListEmptyError
                "No answers found, please call `drawbridge create` first"),
              self := p, stdout := [] }) ∧
      ∀ (message : String) (stdin : List String), p.Prompt message stdin =
        .ok { val := .returned (.error (.ProjectListEmptyError
                "No answers found, please call `drawbridge create` first")),
              self := p, stdout := [], unread := stdin } := by
  have hlen : p.Length = 0 := by simp [ProjectList.Length, hp]
  refine ⟨hlen, ?_, ?_, ?_⟩
  · simp [ProjectList.GetAll, hlen, pure, Except.pure]
  · intro i
    simp [ProjectList.GetIndex, hlen, pure, Except.pure]
  · intro message stdin
    simp [ProjectList.Prompt, hlen, pure, Except.pure]

theorem empty_store_witness :
    emptyStore.Length = 0 ∧
      emptyStore.GetAll.map (fun o => o.val) = .ok [] ∧
      (emptyStore.Prompt "Select" ["1"]).map (fun o => o.unread) = .ok ["1"] :=
  ⟨(empty_store emptyStore rfl).1,
   by rw [(empty_store emptyStore rfl).2.1]; rfl,
   by rw [(empty_store emptyStore rfl).2.2.2]; rfl⟩

/-! ## The tree of the grouped records -/

/-- C11: after `initGroups` the record nodes of the tree (its nodes without
children, in display order) are as many as the records of the flattened list,
which is the list GetAll returns; the i-th of them carries the number i + 1 and
the summary of the i-th record of the list, and that record is the one
GetIndex(i) returns, so the record shown with number n is the one GetIndex(n - 1)
returns. -/
theorem numbered_nodes_match_flattened_list (p q : ProjectList) (out : List Output)
    (h : p.initGroups = .ok (q, out)) :
    ∃ tree, q.groupedTree = some tree ∧
      q.GetAll.map (fun o => o.val) = .ok q.groupedAnswersList ∧
      (recordTrails tree).length = q.groupedAnswersList.length ∧
      ∀ (i : Nat) (hi : i < q.groupedAnswersList.length) (ht : i < (recordTrails tree).length),
        ((recordTrails tree).get ⟨i, ht⟩).2 =
            (some (color.YellowString q.noColor (toString (i + 1))),
             some (q.answerString q.lastGroupKey (q.groupedAnswersList.get ⟨i, hi⟩))) ∧
          q.GetIndex (i : Int) =
            .ok { val := .ok (q.groupedAnswersList.get ⟨i, hi⟩), self := q, stdout := [] } := by
  obtain ⟨nodes, htree, htrails⟩ := initGroups_trails p q out h
  have hkeys := initGroups_keys p q out h
  refine ⟨_, htree, initGroups_getAll p q out h, ?_, ?_⟩
  · show (trailsList nodes).length = _
    rw [htrails, numberedTrails_length]
  · intro i hi ht
    refine ⟨?_, initGroups_getIndex p q out h i hi⟩
    have ht' : i < (numberedTrails p (fun r => relTrail p 0 (keyValues p.groupByKeys r)) 0
        q.groupedAnswersList).length := by rw [numberedTrails_length]; exact hi
    have hget : (recordTrails (treeprint.Node.mk none none nodes)).get ⟨i, ht⟩ =
        (numberedTrails p (fun r => relTrail p 0 (keyValues p.groupByKeys r)) 0
          q.groupedAnswersList).get ⟨i, ht'⟩ := by
      simp only [List.get_eq_getElem]
      congr 1
    rw [hget, numberedTrails_get p _ 0 _ i hi ht']
    simp only [leafTag, ProjectList.lastGroupKey, ProjectList.answerString, hkeys.1, hkeys.2,
      initGroups_noColor p q out h, Nat.zero_add]

/-- C11 on `scenario`: three record nodes numbered 1, 2, 3 for the three
records of the flattened list. -/
theorem numbered_nodes_match_flattened_list_witness :
    ∃ q out, scenario.initGroups = .ok (q, out) ∧
      q.groupedAnswersList = scenarioFlattened ∧
      ∃ tree, q.groupedTree = some tree ∧
        q.GetAll.map (fun o => o.val) = .ok q.groupedAnswersList ∧
        (recordTrails tree).length = q.groupedAnswersList.length ∧
        ∀ (i : Nat) (hi : i < q.groupedAnswersList.length)
          (ht : i < (recordTrails tree).length),
          ((recordTrails tree).get ⟨i, ht⟩).2 =
              (some (color.YellowString q.noColor (toString (i + 1))),
               some (q.answerString q.lastGroupKey (q.groupedAnswersList.get ⟨i, hi⟩))) ∧
            q.GetIndex (i : Int) =
              .ok { val := .ok (q.groupedAnswersList.get ⟨i, hi⟩), self := q, stdout := [] } :=
  (ok_of_map_ok scenario.initGroups (fun r => r.1.groupedAnswersList) scenarioFlattened
    rfl).elim fun r hr =>
      ⟨r.1, r.2, hr.1, hr.2, numbered_nodes_match_flattened_list scenario r.1 r.2 hr.1⟩

/-- After `initGroups`, for every record of the flattened list and every
grouping level except the last one at which the label of the record is not
empty, a branch node that shows the label styled for the level and the grouping
key of the level stands above the node of the record. -/
theorem branch_above_record_before_last_level (p q : ProjectList) (out : List Output)
    (h : p.initGroups = .ok (q, out)) (i : Nat) (r : Answers)
    (hr : q.groupedAnswersList.get? i = some r) (l : Nat)
    (hl : l + 1 < p.groupByKeys.length)
    (hne : (keyValues p.groupByKeys r).getD l "" ≠ "") :
    ∃ tree t, q.groupedTree = some tree ∧ (recordTrails tree).get? i = some t ∧
      (some (p.coloredString l ((keyValues p.groupByKeys r).getD l "")),
        some (p.groupByKeys.getD l "")) ∈ t.1 := by
  obtain ⟨tree, htree, hnode⟩ := initGroups_record_node p q out h i r hr
  refine ⟨tree, _, htree, hnode, ?_⟩
  have := mem_relTrail_of_label p (keyValues p.groupByKeys r) 0 l
    (by rw [keyValues_length]; exact hl) hne
  simpa using this

/-- The third record of the flattened list of `withMissing` has the label
`prod` at level 0 of two, and the branch `prod` of key `env` stands above its
node. -/
theorem branch_above_record_before_last_level_witness :
    ∃ q out, withMissing.initGroups = .ok (q, out) ∧
      q.groupedAnswersList.get? 2 = some [("env", .str "prod"), ("user", .str "a")] ∧
      ∃ tree t, q.groupedTree = some tree ∧ (recordTrails tree).get? 2 = some t ∧
        (some (color.RedString false "prod"), some "env") ∈ t.1 :=
  (ok_of_map_ok withMissing.initGroups (fun r => r.1.groupedAnswersList.get? 2)
    (some [("env", .str "prod"), ("user", .str "a")]) rfl).elim fun r hr =>
      ⟨r.1, r.2, hr.1, hr.2,
        branch_above_record_before_last_level withMissing r.1 r.2 hr.1 2
          [("env", .str "prod"), ("user", .str "a")] hr.2 0 (by decide) (by decide)⟩

/-- C15, as the code has it: after `initGroups` the tree is the root over the
forest of the flattened list, which holds the stored records when there are
grouping keys.  At every grouping level except the last one, every bucket with
a non-empty label is one branch node, labelled with the label styled for the
level and the grouping key of the level, over the nodes of exactly its records,
and the buckets stand in the order of the list; the records of a bucket with
the empty label hang where the bucket would.  The buckets of the last level
have no branch node: with one grouping key the tree is the root over the nodes
of the records. -/
theorem tree_is_forest_of_buckets (p q : ProjectList) (out : List Output)
    (h : p.initGroups = .ok (q, out)) :
    q.groupedTree = some (.mk none none
        (forest p (p.groupByKeys.length - 1) 0 (keyValues p.groupByKeys) 0
          q.groupedAnswersList)) ∧
      (p.groupByKeys ≠ [] → q.groupedAnswersList.Perm p.records) ∧
      (p.groupByKeys.length ≤ 1 →
        q.groupedTree = some (.mk none none (leafNodes p 0 q.groupedAnswersList))) ∧
      (∀ (i : Nat) (r : Answers), q.groupedAnswersList.get? i = some r →
        ∀ l : Nat, l + 1 < p.groupByKeys.length →
          (keyValues p.groupByKeys r).getD l "" ≠ "" →
          ∃ tree t, q.groupedTree = some tree ∧ (recordTrails tree).get? i = some t ∧
            (some (p.coloredString l ((keyValues p.groupByKeys r).getD l "")),
              some (p.groupByKeys.getD l "")) ∈ t.1) := by
  have hforest := initGroups_forest p q out h
  refine ⟨hforest, ?_, ?_, ?_⟩
  · intro hk
    have hall := initGroups_getAll p q out h
    by_cases hp : p.projects = []
    · have hle := initGroups_list_length p q out h
      rw [hp] at hle
      have : q.groupedAnswersList = [] := List.length_eq_zero.1 (by simpa using hle)
      rw [this, ProjectList.records, hp]
      exact List.Perm.refl _
    · have hl := initGroups_list p hk hp
      rw [h] at hl
      exact flatSpec_perm _ _ _ _ hl.symm
  · intro hle
    rw [hforest]
    have : p.groupByKeys.length - 1 = 0 := by omega
    rw [this, forest]
  · intro i r hr l hl hne
    exact branch_above_record_before_last_level p q out h i r hr l hl hne

/-- C15 on `twoLevels`: the bucket `dev` of the first key is one branch over the
node of its record, and the bucket `prod` is one branch over the nodes of its
two records; the buckets of the second key have no branch. -/
theorem tree_is_forest_of_buckets_witness :
    ∃ q out, twoLevels.initGroups = .ok (q, out) ∧
      q.groupedAnswersList =
        [[("env", .str "dev"), ("user", .str "b")],
         [("env", .str "prod"), ("user", .str "a")],
         [("env", .str "prod"), ("user", .str "c")]] ∧
      q.groupedTree = some (.mk none none
        [.mk (some "\x1b[31mdev\x1b[0m") (some "env")
           [.mk (some "\x1b[33m1\x1b[0m") (some "\x1b[34muser: b\x1b[0m") []],
         .mk (some "\x1b[31mprod\x1b[0m") (some "env")
           [.mk (some "\x1b[33m2\x1b[0m") (some "\x1b[34muser: a\x1b[0m") [],
            .mk (some "\x1b[33m3\x1b[0m") (some "\x1b[34muser: c\x1b[0m") []]]) :=
  (ok_of_map_ok twoLevels.initGroups (fun r => r.1.groupedAnswersList)
    [[("env", .str "dev"), ("user", .str "b")],
     [("env", .str "prod"), ("user", .str "a")],
     [("env", .str "prod"), ("user", .str "c")]] rfl).elim fun r hr =>
      ⟨r.1, r.2, hr.1, hr.2,
        ((tree_is_forest_of_buckets twoLevels r.1 r.2 hr.1).1.trans
          (congrArg (fun L => some (treeprint.Node.mk none none
            (forest twoLevels 1 0 (keyValues twoLevels.groupByKeys) 0 L))) hr.2)).trans rfl⟩

/-- C15 as stated fails: `scenario` has one grouping key, its buckets `dev` and
`prod` have non-empty labels, and the tree after `initGroups` is the root with
the three record nodes and no branch node. -/
theorem single_level_has_no_branch_counterexample :
    scenario.groupByKeys = ["env"] ∧
      scenario.records.map (keyValues scenario.groupByKeys) = [["prod"], ["dev"], ["prod"]] ∧
      scenario.initGroups.map (fun r => r.1.groupedTree) =
        .ok (some (.mk none none
          [.mk (some "\x1b[33m1\x1b[0m") (some "\x1b[34menv: dev\x1b[0m, user: b") [],
           .mk (some "\x1b[33m2\x1b[0m") (some "\x1b[34menv: prod\x1b[0m, user: a") [],
           .mk (some "\x1b[33m3\x1b[0m") (some "\x1b[34menv: prod\x1b[0m, user: c") []])) :=
  ⟨rfl, rfl, rfl⟩

/-- C16: after `initGroups` every record of the flattened list has its own
node without children; the branch nodes above it are exactly those of the
levels before the last at which the label of the record is not empty, so none
of them stands for an empty label, and a record without a value for a grouping
key hangs under the node of the enclosing level. -/
theorem no_branch_for_empty_label (p q : ProjectList) (out : List Output)
    (h : p.initGroups = .ok (q, out)) (i : Nat) (r : Answers)
    (hr : q.groupedAnswersList.get? i = some r) :
    ∃ tree t, q.groupedTree = some tree ∧ (recordTrails tree).get? i = some t ∧
      t.2 = (some (color.YellowString p.noColor (toString (i + 1))),
             some (p.answerString p.lastGroupKey r)) ∧
      t.1 = relTrail p 0 (keyValues p.groupByKeys r) ∧
      ∀ tag ∈ t.1, ∃ l, l + 1 < p.groupByKeys.length ∧
        (keyValues p.groupByKeys r).getD l "" ≠ "" ∧
        tag = (some (p.coloredString l ((keyValues p.groupByKeys r).getD l "")),
               some (p.groupByKeys.getD l "")) := by
  obtain ⟨tree, htree, hnode⟩ := initGroups_record_node p q out h i r hr
  refine ⟨tree, _, htree, hnode, rfl, rfl, ?_⟩
  intro tag htag
  obtain ⟨l, hl, hne, ht⟩ := label_of_mem_relTrail p (keyValues p.groupByKeys r) 0 tag htag
  rw [keyValues_length] at hl
  exact ⟨l, hl, hne, by simpa using ht⟩

/-- C16 on `withMissing`: the first record of the flattened list has no value
for the first grouping key, and its node hangs under the root with no branch
above it. -/
theorem no_branch_for_empty_label_witness :
    ∃ q out, withMissing.initGroups = .ok (q, out) ∧
      q.groupedAnswersList.get? 0 = some [("user", .str "d")] ∧
      keyValues withMissing.groupByKeys [("user", .str "d")] = ["", "d"] ∧
      ∃ tree t, q.groupedTree = some tree ∧ (recordTrails tree).get? 0 = some t ∧
        t.2 = (some (color.YellowString false "1"), some (color.BlueString false "user: d")) ∧
        t.1 = [] :=
  (ok_of_map_ok withMissing.initGroups (fun r => r.1.groupedAnswersList.get? 0)
    (some [("user", .str "d")]) rfl).elim fun r hr =>
      (no_branch_for_empty_label withMissing r.1 r.2 hr.1 0 [("user", .str "d")] hr.2).elim
        fun tree ht => ht.elim fun t ht =>
          ⟨r.1, r.2, hr.1, hr.2, rfl, tree, t, ht.1, ht.2.1, ht.2.2.1, ht.2.2.2.1⟩

/-- C17: the summary of a record is the list, joined with a comma and a blank,
of the highlighted entry `key: value` of the highlight key and then the entries
`k: v` of the keys of the record, in the order of `utils.MapKeys`, that are not
hidden keys, not grouping keys and not the highlight key; and after
`initGroups` the node of every record shows the summary for the last grouping
key. -/
theorem answerString_lists_visible_keys (p : ProjectList) (hk : String) (answer : Answers) :
    p.answerString hk answer =
        ", ".intercalate
          (color.BlueString p.noColor (hk ++ ": " ++ (mapGet answer hk).format) ::
            ((utils.MapKeys answer).filter
              (fun k => decide (k ∉ p.hiddenKeys ∧ k ∉ p.groupByKeys ∧ k ≠ hk))).map
              (fun k => k ++ ": " ++ (mapGet answer k).format)) ∧
      ∀ (q : ProjectList) (out : List Output), p.initGroups = .ok (q, out) →
        ∀ (i : Nat) (r : Answers), q.groupedAnswersList.get? i = some r →
          ∃ tree t, q.groupedTree = some tree ∧ (recordTrails tree).get? i = some t ∧
            t.2.2 = some (p.answerString
              (p.groupByKeys.getD (p.groupByKeys.length - 1) "") r) := by
  refine ⟨answerString_eq p hk answer, ?_⟩
  intro q out h i r hr
  obtain ⟨tree, htree, hnode⟩ := initGroups_record_node p q out h i r hr
  exact ⟨tree, _, htree, hnode, rfl⟩

/-- C17 on `scenario`: the summary of the record of `dev` for the highlight key
`env`, and the node of the first record of the flattened list, which shows the
summary for `env`, the last grouping key. -/
theorem answerString_lists_visible_keys_witness :
    scenario.answerString "env" [("env", .str "dev"), ("user", .str "b")] =
        "\x1b[34menv: dev\x1b[0m, user: b" ∧
      ∃ q out, scenario.initGroups = .ok (q, out) ∧
        q.groupedAnswersList.get? 0 = some [("env", .str "dev"), ("user", .str "b")] ∧
        ∃ tree t, q.groupedTree = some tree ∧ (recordTrails tree).get? 0 = some t ∧
          t.2.2 = some (scenario.answerString "env" [("env", .str "dev"), ("user", .str "b")]) :=
  ⟨(answerString_lists_visible_keys scenario "env"
      [("env", .str "dev"), ("user", .str "b")]).1.trans rfl,
   (ok_of_map_ok scenario.initGroups (fun r => r.1.groupedAnswersList.get? 0)
    (some [("env", .str "dev"), ("user", .str "b")]) rfl).elim fun r hr =>
      ⟨r.1, r.2, hr.1, hr.2,
        (answerString_lists_visible_keys scenario "env" []).2 r.1 r.2 hr.1 0
          [("env", .str "dev"), ("user", .str "b")] hr.2⟩⟩

/-! ## Selection at the prompt and failures of the walk -/

/-- C12, evaluated where it fails: the store of `ungrouped` holds one project,
the line `1` parses as the integer 1, which lies within `[1, Length()]`, and
Prompt ends in a panic instead of returning a record, because the flattened
list of a project list without grouping keys is empty. -/
theorem ungrouped_prompt_panics :
    ungrouped.Length = 1 ∧ parsedLine "1" = .ok 1 ∧
      ungrouped.GetAll.map (fun o => o.val) = .ok [] ∧
      ungrouped.Prompt "Select" ["1"] = .error (.panic "index out of range") :=
  ⟨rfl, rfl, rfl, rfl⟩

/-- C13, evaluated where it fails: the two projects of `numberUnderLabel` fall
into the bucket `prod` and hold the numbers 1 and 2 under the question `prod`;
the comparison of the leaf asserts these values to be strings, so that
`initGroups` ends in a panic, and so do GetAll and GetIndex(0). -/
theorem number_under_label_panics :
    numberUnderLabel.initGroups.map (fun r => r.1.groupedAnswersList) =
        .error (.panic "interface conversion: interface \x7b\x7d is int, not string") ∧
      numberUnderLabel.GetAll.map (fun o => o.val) =
        .error (.panic "interface conversion: interface \x7b\x7d is int, not string") ∧
      numberUnderLabel.GetIndex 0 =
        .error (.panic "interface conversion: interface \x7b\x7d is int, not string") :=
  ⟨rfl, rfl, rfl⟩

/-! ## Determinism and the frame of the methods -/

/-- C14: when GetAll returns, a second call on the project list it left behind
returns the same list; every coherent project list with the same stored projects
and grouping keys gets that list too; and the walk that flattens a container
does not depend on the order in which the maps of the container list their
keys: containers with the same maps are nested equally deep and walked to the
same result. -/
theorem getAll_is_deterministic (p : ProjectList) (o : Outcome (List Answers))
    (h : p.GetAll = .ok o) :
    (∃ o', o.self.GetAll = .ok o' ∧ o'.val = o.val) ∧
      (∀ q : ProjectList, p.Coherent → q.Coherent → q.projects = p.projects →
        q.groupByKeys = p.groupByKeys → q.GetAll.map (fun o => o.val) = .ok o.val) ∧
      (∀ v w : Value, SameMaps v w → v.nesting = w.nesting ∧
        ∀ (fuel level : Nat) (st : Walk),
          p.recursivePopulateGroupListAndTree fuel level v st =
            p.recursivePopulateGroupListAndTree fuel level w st) := by
  refine ⟨getAll_twice p o h, ?_, ?_⟩
  · intro q hp hq h1 h2
    rw [getAll_val_congr p q hp hq h1 h2, h]
    rfl
  · intro v w hs
    exact ⟨nesting_sameMaps v w hs, fun fuel level st => populate_sameMaps p fuel v w hs level st⟩

/-- C14 on `scenario`: the second call of GetAll returns the list of the first,
and the two orders of the keys of `twoBuckets` are walked to the same result. -/
theorem getAll_is_deterministic_witness :
    ∃ o, scenario.GetAll = .ok o ∧ o.val = scenarioFlattened ∧
      (∃ o', o.self.GetAll = .ok o' ∧ o'.val = o.val) ∧
      scenario.recursivePopulateGroupListAndTree 2 0 twoBuckets.1 ⟨[], [], []⟩ =
        scenario.recursivePopulateGroupListAndTree 2 0 twoBuckets.2 ⟨[], [], []⟩ :=
  (ok_of_map_ok scenario.GetAll (fun o => o.val) scenarioFlattened rfl).elim fun o ho =>
    ⟨o, ho.1, ho.2, (getAll_is_deterministic scenario o ho.1).1,
      ((getAll_is_deterministic scenario o ho.1).2.2 twoBuckets.1 twoBuckets.2
        (SameMaps.object _ _ (by simp) (by simp)
          (by intro k; simp [or_comm])
          (by
            intro k hk
            simp only [List.map_cons, List.map_nil, List.mem_cons, List.mem_singleton,
              List.not_mem_nil, or_false] at hk
            rcases hk with rfl | rfl
            · exact SameMaps.same _
            · exact SameMaps.same _))).2 2 0 ⟨[], [], []⟩⟩

/-- C18: Length reads the number of stored projects, and when GetAll or
GetIndex returns, the project list left behind holds the same stored projects
in the same order as before, so that Length is unchanged; grouping and the sort
of the leaves write to the derived structures only. -/
theorem store_is_never_mutated (p : ProjectList) :
    p.Length = p.projects.length ∧
      (∀ o, p.GetAll = .ok o → o.self.projects = p.projects ∧ o.self.Length = p.Length) ∧
      (∀ i o, p.GetIndex i = .ok o → o.self.projects = p.projects ∧ o.self.Length = p.Length) :=
  ⟨rfl,
   fun o h => ⟨getAll_self_projects p o h, by
     rw [ProjectList.Length, getAll_self_projects p o h, ProjectList.Length]⟩,
   fun i o h => ⟨getIndex_self_projects p i o h, by
     rw [ProjectList.Length, getIndex_self_projects p i o h, ProjectList.Length]⟩⟩

/-- C18 on `scenario`: GetAll and GetIndex(0) return and leave the three stored
projects as they were. -/
theorem store_is_never_mutated_witness :
    (∃ o, scenario.GetAll = .ok o ∧ o.val = scenarioFlattened ∧
        o.self.projects = scenario.projects ∧ o.self.Length = 3) ∧
      (∃ o, scenario.GetIndex 0 = .ok o ∧
        o.val = .ok [("env", .str "dev"), ("user", .str "b")] ∧
        o.self.projects = scenario.projects ∧ o.self.Length = 3) :=
  ⟨(ok_of_map_ok scenario.GetAll (fun o => o.val) scenarioFlattened rfl).elim fun o ho =>
      ⟨o, ho.1, ho.2, ((store_is_never_mutated scenario).2.1 o ho.1).1,
        ((store_is_never_mutated scenario).2.1 o ho.1).2⟩,
   (ok_of_map_ok (scenario.GetIndex 0) (fun o => o.val)
      (.ok [("env", .str "dev"), ("user", .str "b")]) rfl).elim fun o ho =>
      ⟨o, ho.1, ho.2, ((store_is_never_mutated scenario).2.2 0 o ho.1).1,
        ((store_is_never_mutated scenario).2.2 0 o ho.1).2⟩⟩

/-! ## The grouping structure and the styling -/

/-- C19, as the code has it: on a fresh container `groupProjectAnswers` builds,
with at least one grouping key and a non-empty store, as many levels of
non-empty maps as there are grouping keys above non-empty slices of records;
with at least one grouping key and an empty store it leaves the empty map; and
without grouping keys it builds a map that holds all records as one list under
the empty key. -/
theorem grouping_structure_shape (p : ProjectList) (hg : p.groupedAnswers = gabs.New) :
    (p.groupByKeys ≠ [] → p.projects ≠ [] →
        wellShaped p.groupByKeys.length p.groupProjectAnswers.groupedAnswers = true) ∧
      (p.groupByKeys ≠ [] → p.projects = [] →
        p.groupProjectAnswers.groupedAnswers = .object []) ∧
      (p.groupByKeys = [] →
        p.groupProjectAnswers.groupedAnswers = .object [("", .maps p.records)]) := by
  refine ⟨?_, ?_, ?_⟩
  · intro hk hp
    rw [groupProjectAnswers_eq p hk hg]
    exact wellShaped_trieSpec _ _ _ (by simpa using hp)
  · intro hk hp
    rw [groupProjectAnswers_eq p hk hg]
    obtain ⟨n, hn⟩ : ∃ n, p.groupByKeys.length = n + 1 :=
      ⟨p.groupByKeys.length - 1, by have := List.length_pos.2 hk; omega⟩
    rw [hp, hn]
    simp [trieSpec, firsts]
  · intro hk
    simp [ProjectList.groupProjectAnswers, hk, hg, gabs.Set, gabs.New, Value.isNil, mapGet,
      mapLookup, mapSet, ProjectList.records]

/-- C19 on `withDuplicate`, one level of two buckets above the slices of their
records, and on `ungroupedFresh`, the list of all records under the empty
key. -/
theorem grouping_structure_shape_witness :
    withDuplicate.groupProjectAnswers.groupedAnswers =
        .object
          [("prod", .array [.object [("env", .str "prod"), ("user", .str "a")],
                            .object [("env", .str "prod"), ("user", .str "a")]]),
           ("dev", .array [.object [("env", .str "dev"), ("user", .str "b")]])] ∧
      wellShaped 1 withDuplicate.groupProjectAnswers.groupedAnswers = true ∧
      ungroupedFresh.groupProjectAnswers.groupedAnswers =
        .object [("", .maps [[("env", .str "prod")]])] :=
  ⟨rfl, (grouping_structure_shape withDuplicate rfl).1 (by decide) (List.cons_ne_nil _ _),
   (grouping_structure_shape ungroupedFresh rfl).2.2 rfl⟩

/-- C19 as stated fails: without grouping keys `initGroups` leaves a map that
holds the records under the empty key, not a slice of records at level 0; and
for an empty store with one grouping key it leaves a map without buckets. -/
theorem grouping_structure_shape_counterexample :
    ungrouped.groupByKeys.length = 0 ∧
      ungrouped.initGroups.map (fun r => r.1.groupedAnswers) =
        .ok (.object [("", .maps [[("env", .str "prod")]])]) ∧
      wellShaped 0 (.object [("", .maps [[("env", .str "prod")]])]) = false ∧
      emptyStore.groupByKeys.length = 1 ∧
      emptyStore.initGroups.map (fun r => r.1.groupedAnswers) = .ok (.object []) ∧
      wellShaped 1 (.object []) = false :=
  ⟨rfl, rfl, rfl, rfl, rfl, rfl⟩

/-- C20, as the code has it: with colour output on, the stylings of a label
for the depths 0, 1 and 2 differ from one another; with colour output off the
label is returned unchanged at every depth; for every depth from 3 on it is
returned unchanged in both cases.  The styling has no part in the ordering: the
list of GetAll is the one described by `flatSpec`, which sorts the buckets of
every level by their raw labels, and it is the same for every coherent project
list with the same store and grouping keys, whatever its colour setting. -/
theorem coloredString_styles (p : ProjectList) (data : String) :
    (p.noColor = false →
        p.coloredString 0 data ≠ p.coloredString 1 data ∧
        p.coloredString 0 data ≠ p.coloredString 2 data ∧
        p.coloredString 1 data ≠ p.coloredString 2 data) ∧
      (p.noColor = true → ∀ level : Nat, p.coloredString level data = data) ∧
      (∀ level : Nat, 3 ≤ level → p.coloredString level data = data) ∧
      (p.Coherent → p.groupByKeys ≠ [] → p.projects ≠ [] →
        p.GetAll.map (fun o => o.val) =
          flatSpec (p.groupByKeys.length - 1) (keyValues p.groupByKeys) p.records) ∧
      (∀ q : ProjectList, p.Coherent → q.Coherent → q.projects = p.projects →
        q.groupByKeys = p.groupByKeys →
        q.GetAll.map (fun o => o.val) = p.GetAll.map (fun o => o.val)) := by
  refine ⟨?_, ?_, ?_, fun hc hk hp => GetAll_val p hc hk hp,
    fun q hp hq h1 h2 => getAll_val_congr p q hp hq h1 h2⟩
  · intro hn
    simp only [ProjectList.coloredString, hn, color.RedString, color.GreenString,
      color.CyanString]
    exact ⟨wrap_ne '1' '2' '3' data (by decide), wrap_ne '1' '6' '3' data (by decide),
      wrap_ne '2' '6' '3' data (by decide)⟩
  · intro hn level
    simp only [ProjectList.coloredString, hn, color.RedString, color.GreenString,
      color.CyanString, color.wrap, if_true]
    split
    · rfl
    · split
      · rfl
      · split <;> rfl
  · intro level hl
    have h0 : ¬ level = 0 := by omega
    have h1 : ¬ level = 1 := by omega
    have h2 : ¬ level = 2 := by omega
    simp [ProjectList.coloredString, h0, h1, h2]

/-- C20 on `scenario` and the label `prod`: the three stylings with colour
output on and the plain label of depth 3; the plain label at depth 0 with
colour output off; and the same list of GetAll with colour output on and off. -/
theorem coloredString_styles_witness :
    scenario.coloredString 0 "prod" = "\x1b[31mprod\x1b[0m" ∧
      scenario.coloredString 1 "prod" = "\x1b[32mprod\x1b[0m" ∧
      scenario.coloredString 2 "prod" = "\x1b[36mprod\x1b[0m" ∧
      scenario.coloredString 3 "prod" = "prod" ∧
      scenario.coloredString 0 "prod" ≠ scenario.coloredString 1 "prod" ∧
      scenarioWithoutColor.coloredString 0 "prod" = "prod" ∧
      flatSpec 0 (keyValues ["env"]) scenario.records = .ok scenarioFlattened ∧
      scenarioWithoutColor.GetAll.map (fun o => o.val) =
        scenario.GetAll.map (fun o => o.val) :=
  ⟨rfl, rfl, rfl, (coloredString_styles scenario "prod").2.2.1 3 (le_refl 3),
   ((coloredString_styles scenario "prod").1 rfl).1,
   (coloredString_styles scenarioWithoutColor "prod").2.1 rfl 0,
   ((coloredString_styles scenario "prod").2.2.2.1 (Or.inl rfl) (by decide)
      (List.cons_ne_nil _ _)).symm.trans rfl,
   (coloredString_styles scenario "prod").2.2.2.2 scenarioWithoutColor (Or.inl rfl)
      (Or.inl rfl) rfl rfl⟩

/-- C20 as stated fails: with colour output off, as when standard output is no
terminal, the stylings of the label `prod` for the depths 0, 1 and 2 are the
label itself and do not differ. -/
theorem coloredString_without_color_counterexample :
    scenarioWithoutColor.noColor = true ∧
      scenarioWithoutColor.coloredString 0 "prod" = "prod" ∧
      scenarioWithoutColor.coloredString 1 "prod" = "prod" ∧
      scenarioWithoutColor.coloredString 2 "prod" = "prod" ∧
      scenarioWithoutColor.coloredString 0 "prod" =
        scenarioWithoutColor.coloredString 1 "prod" :=
  ⟨rfl, rfl, rfl, rfl, rfl⟩

/-! ## The comparison of a leaf and the stable sort -/

/-- C21: the comparison of a leaf reads both records under the key it is
given, and the walk gives it the label of the bucket: with grouping keys, the
records of a bucket path `P` (at most 12 of them, the slices that `sort.Slice`
sorts by insertion) appear in the list of GetAll in the order that the sort of
the leaf gives them under the last label of `P`.  When no stored record holds a
non-nil answer under the last label of its own path, that comparison is false
with such a record on either side, and GetAll returns the stable sort of the
store by bucket path (ascending level by level, in the order of the
strings). -/
theorem getAll_is_stable_sort_by_path (p : ProjectList) (hc : p.Coherent)
    (hk : p.groupByKeys ≠ []) :
    (∀ (groupKey : String) (x y : Answers),
        leafLess groupKey (.object x) (.object y) =
          if !(mapGet x groupKey).isNil && !(mapGet y groupKey).isNil then
            (assertString (mapGet x groupKey)).bind fun a =>
              (assertString (mapGet y groupKey)).map fun b => strLess b a
          else .ok false) ∧
      (∀ L, p.GetAll.map (fun o => o.val) = .ok L → ∀ P : List String,
        (p.records.filter (fun r => keyValues p.groupByKeys r = P)).length ≤ 12 →
        leafOrder (P.getLastD "") (p.records.filter (fun r => keyValues p.groupByKeys r = P)) =
          .ok (L.filter (fun r => keyValues p.groupByKeys r = P))) ∧
      ((∀ r ∈ p.records,
          (mapGet r ((keyValues p.groupByKeys r).getLastD "")).isNil = true) →
        (∀ r ∈ p.records, ∀ other : Answers,
          leafLess ((keyValues p.groupByKeys r).getLastD "") (.object r) (.object other) =
              .ok false ∧
            leafLess ((keyValues p.groupByKeys r).getLastD "") (.object other) (.object r) =
              .ok false) ∧
        p.GetAll.map (fun o => o.val) =
          .ok (sortByPath (keyValues p.groupByKeys) p.records)) := by
  refine ⟨?_, fun L hL P _ => getAll_filter_path p L hc hk hL P, ?_⟩
  · intro groupKey x y
    simp only [leafLess, assertMap, bind, Except.bind, pure, Except.pure, Except.map]
  · intro hnil
    refine ⟨?_, getAll_stable_sort p hc hk hnil⟩
    intro r hr other
    have h := hnil r hr
    generalize (keyValues p.groupByKeys r).getLastD "" = label at h ⊢
    constructor
    · simp [leafLess, assertMap, bind, Except.bind, h, pure, Except.pure]
    · simp [leafLess, assertMap, bind, Except.bind, h, pure, Except.pure]

/-- C21 on `labelAsKey`, where both records of the bucket `prod` answer a
question named `prod` and the leaf is sorted by those answers, and on
`scenario`, where no record answers a question named `prod` or `dev` and GetAll
returns the store sorted by the value of `env` with the two records of `prod`
in store order. -/
theorem getAll_is_stable_sort_by_path_witness :
    leafLess "prod" (.object [("env", .str "prod"), ("prod", .str "b")])
        (.object [("env", .str "prod"), ("prod", .str "a")]) = .ok true ∧
      labelAsKey.GetAll.map (fun o => o.val) =
        .ok [[("env", .str "prod"), ("prod", .str "b")],
             [("env", .str "prod"), ("prod", .str "a")]] ∧
      leafOrder "prod" labelAsKey.records =
        .ok [[("env", .str "prod"), ("prod", .str "b")],
             [("env", .str "prod"), ("prod", .str "a")]] ∧
      sortByPath (keyValues scenario.groupByKeys) scenario.records = scenarioFlattened ∧
      scenario.GetAll.map (fun o => o.val) = .ok scenarioFlattened :=
  ⟨((getAll_is_stable_sort_by_path labelAsKey (Or.inl rfl) (by decide)).1 "prod"
      [("env", .str "prod"), ("prod", .str "b")]
      [("env", .str "prod"), ("prod", .str "a")]).trans rfl,
   rfl,
   ((getAll_is_stable_sort_by_path labelAsKey (Or.inl rfl) (by decide)).2.1
      [[("env", .str "prod"), ("prod", .str "b")], [("env", .str "prod"), ("prod", .str "a")]]
      rfl ["prod"] (by decide)).trans rfl,
   rfl,
   ((getAll_is_stable_sort_by_path scenario (Or.inl rfl) (by decide)).2.2 (by
      intro r hr
      simp only [scenario, ProjectList.new, ProjectList.records, List.map_cons, List.map_nil,
        List.mem_cons, List.mem_singleton, List.not_mem_nil, or_false] at hr
      rcases hr with rfl | rfl | rfl <;> rfl)).2⟩

/-! ## Conversion of typed answers -/

/-- C22: `convertAnswerType` returns an AnswerFormatError exactly when the
question type is none of `integer`, `number`, `boolean` and `string`; `null`,
which the schema of the configuration accepts as a type, is such a type; and
for the type `string` the answer is returned unchanged without an error. -/
theorem convertAnswerType_format_error (answer questionType : String) :
    ((∃ msg, convertAnswerType answer questionType = .error (.AnswerFormatError msg)) ↔
        questionType ∉ ["integer", "number", "boolean", "string"]) ∧
      "null" ∈ config.questionTypes ∧
      convertAnswerType answer "null" =
        .error (.AnswerFormatError
          ("could not convert " ++ answer ++ " to unknown " ++ "null" ++ " type")) ∧
      convertAnswerType answer "string" = .ok (.string answer) := by
  refine ⟨?_, by decide, by simp [convertAnswerType], by simp [convertAnswerType]⟩
  unfold convertAnswerType
  by_cases h1 : questionType = "integer"
  · simp only [h1, if_true]
    cases strconv.ParseInt answer <;> simp
  · by_cases h2 : questionType = "number"
    · simp only [h2, if_true]
      cases strconv.ParseFloat answer <;> simp
    · by_cases h3 : questionType = "boolean"
      · simp only [h3, if_true]
        cases strconv.ParseBool answer <;> simp
      · by_cases h4 : questionType = "string"
        · simp [h4]
        · simp [h1, h2, h3, h4]

/-- C22 on the answer `5`: an AnswerFormatError for the type `null`, the
number for `integer`, the text for `string`, and the empty answer unchanged. -/
theorem convertAnswerType_format_error_witness :
    (∃ msg, convertAnswerType "5" "null" = .error (.AnswerFormatError msg)) ∧
      convertAnswerType "5" "null" =
        .error (.AnswerFormatError "could not convert 5 to unknown null type") ∧
      convertAnswerType "5" "integer" = .ok (.int64 5) ∧
      convertAnswerType "5" "string" = .ok (.string "5") ∧
      convertAnswerType "" "string" = .ok (.string "") :=
  ⟨(convertAnswerType_format_error "5" "null").1.2 (by decide),
   (convertAnswerType_format_error "5" "null").2.2.1.trans rfl,
   rfl,
   (convertAnswerType_format_error "5" "string").2.2.2,
   (convertAnswerType_format_error "" "string").2.2.2⟩

end Drawbridge
